import Mathlib

/-!
# adlist.c — the generic doubly linked list, over an explicit heap

The C functions of `src/src/adlist.c` are embedded statement by statement as
functions on a `World`: three typed heaps (nodes, list headers, iterators),
the outcomes of the upcoming `zmalloc` calls, and the trace of hook
invocations.  Every function returns an `Option`: `none` is a memory fault
(a NULL or dangling pointer was dereferenced, or a loop ran out of fuel);
a C `NULL` return value is the pointer `none` inside `some`.
-/

namespace Adlist

/-! ## Machine words and pointers -/

/-- A non-null 64-bit address. -/
structure Addr where
  val : Nat
  pos : 0 < val
  lt : val < 2 ^ 64
  deriving DecidableEq

/-- A C pointer: `none` is `NULL`. -/
abbrev Ptr := Option Addr

/-- The null pointer. -/
abbrev NULL : Ptr := none

/-- Modelled from the spec: the node structure declared in `adlist.h` (absent
from src): one opaque value reference, a link to the previous node and a link
to the next node. -/
structure listNode where
  prev : Ptr
  next : Ptr
  value : Ptr
  deriving DecidableEq

/-- Modelled from the spec: the iterator structure declared in `adlist.h`
(absent from src): the next node to yield and the traversal direction. -/
structure listIter where
  next : Ptr
  direction : Int
  deriving DecidableEq

/-- Modelled from the spec: the list header declared in `adlist.h` (absent from
src): head, tail, the three optional hooks (function pointers, `NULL` when not
configured; `mtch` is the C field `match`) and the node count, an
`unsigned long`. -/
structure list where
  head : Ptr
  tail : Ptr
  dup : Ptr
  free : Ptr
  mtch : Ptr
  len : Nat
  deriving DecidableEq

/-- Modelled from the spec: the direction constant of `adlist.h` (absent from
src) for a traversal forward from head. -/
def AL_START_HEAD : Int := 0

/-- Modelled from the spec: the direction constant of `adlist.h` (absent from
src) for a traversal backward from tail. -/
def AL_START_TAIL : Int := 1

/-- The modulus of `unsigned long` arithmetic. -/
def ULONG_MOD : Nat := 2 ^ 64

/-- One invocation of a caller-supplied hook: the function pointer called and
its arguments. -/
inductive HookCall where
  | dup (fn : Addr) (value : Ptr)
  | free (fn : Addr) (value : Ptr)
  | mtch (fn : Addr) (value : Ptr) (key : Ptr)
  deriving DecidableEq

/-- The state the functions of adlist.c run in. -/
structure World where
  /-- the allocated list nodes -/
  nodes : Addr → Option listNode
  /-- the allocated list headers -/
  lists : Addr → Option list
  /-- the allocated iterators -/
  iters : Addr → Option listIter
  /-- the results of the upcoming `zmalloc` calls (`NULL`: out of memory);
  when exhausted, `zmalloc` fails -/
  allocs : List Ptr
  /-- the hook invocations made so far, oldest first -/
  calls : List HookCall
  /-- the code behind a duplicate-value function pointer: a pure function
  from the value to its copy (`NULL` when the copy fails) -/
  dupCode : Addr → Ptr → Ptr
  /-- the code behind a match-value function pointer: a pure function from
  value and key to a C truth value -/
  matchCode : Addr → Ptr → Ptr → Int

/-! ## The allocator and field access -/

/-- Result of `zmalloc`: the next outcome of the allocator. -/
def zmalloc (w : World) : Ptr × World :=
  match w.allocs with
  | [] => (NULL, w)
  | p :: rest => (p, { w with allocs := rest })

/-- Read of `*p` for a node pointer; a fault when `p` is NULL or dangling. -/
def getNode (w : World) (p : Ptr) : Option listNode := p.bind w.nodes

/-- Read of `*p` for a list pointer. -/
def getList (w : World) (p : Ptr) : Option list := p.bind w.lists

/-- Read of `*p` for an iterator pointer. -/
def getIter (w : World) (p : Ptr) : Option listIter := p.bind w.iters

/-- Store of a whole node at address `a`. -/
def setNode (w : World) (a : Addr) (n : listNode) : World :=
  { w with nodes := Function.update w.nodes a (some n) }

/-- Store of a whole list header at address `a`. -/
def setList (w : World) (a : Addr) (l : list) : World :=
  { w with lists := Function.update w.lists a (some l) }

/-- Store of a whole iterator at address `a`. -/
def setIter (w : World) (a : Addr) (i : listIter) : World :=
  { w with iters := Function.update w.iters a (some i) }

/-- The memory returned by `zmalloc(sizeof(listNode))` seen as a node; its
fields are overwritten before they are read. -/
def newNode (w : World) (p : Ptr) : Option World :=
  p.map fun a => setNode w a ⟨NULL, NULL, NULL⟩

/-- The memory returned by `zmalloc(sizeof(list))` seen as a list header. -/
def newList (w : World) (p : Ptr) : Option World :=
  p.map fun a => setList w a ⟨NULL, NULL, NULL, NULL, NULL, 0⟩

/-- The memory returned by `zmalloc(sizeof(listIter))` seen as an iterator. -/
def newIter (w : World) (p : Ptr) : Option World :=
  p.map fun a => setIter w a ⟨NULL, 0⟩

/-- Assignment to fields of the node `*p`; a fault when `p` is NULL or
dangling. -/
def writeNode (w : World) (p : Ptr) (f : listNode → listNode) : Option World :=
  match p with
  | none => none
  | some a => (w.nodes a).map fun n => setNode w a (f n)

/-- Assignment to fields of the list header `*p`. -/
def writeList (w : World) (p : Ptr) (f : list → list) : Option World :=
  match p with
  | none => none
  | some a => (w.lists a).map fun l => setList w a (f l)

/-- Assignment to fields of the iterator `*p`. -/
def writeIter (w : World) (p : Ptr) (f : listIter → listIter) : Option World :=
  match p with
  | none => none
  | some a => (w.iters a).map fun i => setIter w a (f i)

/-- Result of `zfree(p)` on a node: `zfree(NULL)` does nothing, freeing
unallocated memory is a fault. -/
def freeNode (w : World) (p : Ptr) : Option World :=
  match p with
  | none => some w
  | some a => (w.nodes a).map fun _ => { w with nodes := Function.update w.nodes a none }

/-- Result of `zfree(p)` on a list header. -/
def freeList (w : World) (p : Ptr) : Option World :=
  match p with
  | none => some w
  | some a => (w.lists a).map fun _ => { w with lists := Function.update w.lists a none }

/-- Result of `zfree(p)` on an iterator. -/
def freeIter (w : World) (p : Ptr) : Option World :=
  match p with
  | none => some w
  | some a => (w.iters a).map fun _ => { w with iters := Function.update w.iters a none }

/-- Call of the release-value hook `fn` on `value`: recorded in the trace. -/
def callFree (w : World) (fn : Addr) (value : Ptr) : World :=
  { w with calls := w.calls ++ [HookCall.free fn value] }

/-- Call of the duplicate-value hook `fn` on `value`: recorded in the trace,
the result is the copy. -/
def callDup (w : World) (fn : Addr) (value : Ptr) : Ptr × World :=
  (w.dupCode fn value, { w with calls := w.calls ++ [HookCall.dup fn value] })

/-- Call of the match-value hook `fn` on `value` and `key`. -/
def callMatch (w : World) (fn : Addr) (value key : Ptr) : Int × World :=
  (w.matchCode fn value key, { w with calls := w.calls ++ [HookCall.mtch fn value key] })

/-! ## The functions of adlist.c -/

/-- The function `listCreate` of adlist.c. -/
def listCreate (w : World) : Option (Ptr × World) := do
  let (list, w) := zmalloc w
  if list = NULL then return (NULL, w)
  let w ← newList w list
  let w ← writeList w list fun l => { l with tail := NULL }
  let w ← writeList w list fun l => { l with head := NULL }
  let w ← writeList w list fun l => { l with len := 0 }
  let w ← writeList w list fun l => { l with dup := NULL }
  let w ← writeList w list fun l => { l with free := NULL }
  let w ← writeList w list fun l => { l with mtch := NULL }
  return (list, w)

/-- The function `listAddNodeHead` of adlist.c. -/
def listAddNodeHead (w : World) (list : Ptr) (value : Ptr) : Option (Ptr × World) := do
  let (node, w) := zmalloc w
  if node = NULL then return (NULL, w)
  let w ← newNode w node
  let w ← writeNode w node fun n => { n with value := value }
  let l ← getList w list
  let w ←
    if l.len = 0 then do
      let w ← writeList w list fun l => { l with tail := node }
      let w ← writeList w list fun l => { l with head := node }
      let w ← writeNode w node fun n => { n with next := NULL }
      writeNode w node fun n => { n with prev := NULL }
    else do
      let w ← writeNode w node fun n => { n with prev := NULL }
      let l ← getList w list
      let w ← writeNode w node fun n => { n with next := l.head }
      let l ← getList w list
      let w ← writeNode w l.head fun n => { n with prev := node }
      writeList w list fun l => { l with head := node }
  let w ← writeList w list fun l => { l with len := (l.len + 1) % ULONG_MOD }
  return (list, w)

/-- The function `listAddNodeTail` of adlist.c. -/
def listAddNodeTail (w : World) (list : Ptr) (value : Ptr) : Option (Ptr × World) := do
  let (node, w) := zmalloc w
  if node = NULL then return (NULL, w)
  let w ← newNode w node
  let w ← writeNode w node fun n => { n with value := value }
  let l ← getList w list
  let w ←
    if l.len = 0 then do
      let w ← writeList w list fun l => { l with tail := node }
      let w ← writeList w list fun l => { l with head := node }
      let w ← writeNode w node fun n => { n with next := NULL }
      writeNode w node fun n => { n with prev := NULL }
    else do
      let l ← getList w list
      let w ← writeNode w node fun n => { n with prev := l.tail }
      let w ← writeNode w node fun n => { n with next := NULL }
      let l ← getList w list
      let w ← writeNode w l.tail fun n => { n with next := node }
      writeList w list fun l => { l with tail := node }
  let w ← writeList w list fun l => { l with len := (l.len + 1) % ULONG_MOD }
  return (list, w)

/-- The function `listInsertNode` of adlist.c. -/
def listInsertNode (w : World) (list : Ptr) (old_node : Ptr) (value : Ptr) (after : Int) :
    Option (Ptr × World) := do
  let (node, w) := zmalloc w
  if node = NULL then return (NULL, w)
  let w ← newNode w node
  let w ← writeNode w node fun n => { n with value := value }
  let w ←
    if after ≠ 0 then do
      let w ← writeNode w node fun n => { n with prev := old_node }
      let o ← getNode w old_node
      let w ← writeNode w node fun n => { n with next := o.next }
      let l ← getList w list
      if l.tail = old_node then writeList w list fun l => { l with tail := node } else pure w
    else do
      let w ← writeNode w node fun n => { n with next := old_node }
      let o ← getNode w old_node
      let w ← writeNode w node fun n => { n with prev := o.prev }
      let l ← getList w list
      if l.head = old_node then writeList w list fun l => { l with head := node } else pure w
  let n ← getNode w node
  let w ←
    if n.prev ≠ NULL then writeNode w n.prev fun m => { m with next := node } else pure w
  let n ← getNode w node
  let w ←
    if n.next ≠ NULL then writeNode w n.next fun m => { m with prev := node } else pure w
  let w ← writeList w list fun l => { l with len := (l.len + 1) % ULONG_MOD }
  return (list, w)

/-- The function `listDelNode` of adlist.c. -/
def listDelNode (w : World) (list : Ptr) (node : Ptr) : Option World := do
  let n ← getNode w node
  let w ←
    if n.prev ≠ NULL then writeNode w n.prev fun m => { m with next := n.next }
    else writeList w list fun l => { l with head := n.next }
  let n ← getNode w node
  let w ←
    if n.next ≠ NULL then writeNode w n.next fun m => { m with prev := n.prev }
    else writeList w list fun l => { l with tail := n.prev }
  let l ← getList w list
  let w ←
    match l.free with
    | some fn => do
      let n ← getNode w node
      pure (callFree w fn n.value)
    | none => pure w
  let w ← freeNode w node
  writeList w list fun l => { l with len := (l.len + ULONG_MOD - 1) % ULONG_MOD }

/-- The function `listGetIterator` of adlist.c. -/
def listGetIterator (w : World) (list : Ptr) (direction : Int) : Option (Ptr × World) := do
  let (iter, w) := zmalloc w
  if iter = NULL then return (NULL, w)
  let w ← newIter w iter
  let l ← getList w list
  let w ←
    if direction = AL_START_HEAD then writeIter w iter fun i => { i with next := l.head }
    else writeIter w iter fun i => { i with next := l.tail }
  let w ← writeIter w iter fun i => { i with direction := direction }
  return (iter, w)

/-- The function `listReleaseIterator` of adlist.c. -/
def listReleaseIterator (w : World) (iter : Ptr) : Option World :=
  freeIter w iter

/-- The function `listRewind` of adlist.c. -/
def listRewind (w : World) (list : Ptr) (li : Ptr) : Option World := do
  let l ← getList w list
  let w ← writeIter w li fun i => { i with next := l.head }
  writeIter w li fun i => { i with direction := AL_START_HEAD }

/-- The function `listRewindTail` of adlist.c. -/
def listRewindTail (w : World) (list : Ptr) (li : Ptr) : Option World := do
  let l ← getList w list
  let w ← writeIter w li fun i => { i with next := l.tail }
  writeIter w li fun i => { i with direction := AL_START_TAIL }

/-- The function `listNext` of adlist.c. -/
def listNext (w : World) (iter : Ptr) : Option (Ptr × World) := do
  let it ← getIter w iter
  let current := it.next
  let w ←
    if current ≠ NULL then do
      let it ← getIter w iter
      let c ← getNode w current
      if it.direction = AL_START_HEAD then writeIter w iter fun i => { i with next := c.next }
      else writeIter w iter fun i => { i with next := c.prev }
    else pure w
  return (current, w)

/-- The loop `while(len--)` of `listRelease`, on the local variables `len`
and `current`. -/
def listRelease_loop (list : Ptr) : Nat → Ptr → World → Option World
  | 0, _, w => some w
  | len + 1, current, w => do
    let c ← getNode w current
    let next := c.next
    let l ← getList w list
    let w ←
      match l.free with
      | some fn => do
        let c ← getNode w current
        pure (callFree w fn c.value)
      | none => pure w
    let w ← freeNode w current
    listRelease_loop list len next w

/-- The function `listRelease` of adlist.c. -/
def listRelease (w : World) (list : Ptr) : Option World := do
  let l ← getList w list
  let current := l.head
  let l ← getList w list
  let len := l.len
  let w ← listRelease_loop list len current w
  freeList w list

/-- The loop `while((node = listNext(iter)) != NULL)` of `listDup`, with its
two failure exits; `fuel` bounds the number of iterations, running out of it is
reported like a fault. -/
def listDup_loop (copy : Ptr) (iter : Ptr) : Nat → World → Option (Ptr × World)
  | 0, _ => none
  | fuel + 1, w => do
    let (node, w) ← listNext w iter
    if node = NULL then
      let w ← listReleaseIterator w iter
      return (copy, w)
    let c ← getList w copy
    match c.dup with
    | some fn =>
      let n ← getNode w node
      let (value, w) := callDup w fn n.value
      if value = NULL then
        let w ← listRelease w copy
        let w ← listReleaseIterator w iter
        return (NULL, w)
      let (r, w) ← listAddNodeTail w copy value
      if r = NULL then
        let w ← listRelease w copy
        let w ← listReleaseIterator w iter
        return (NULL, w)
      listDup_loop copy iter fuel w
    | none =>
      let n ← getNode w node
      let value := n.value
      let (r, w) ← listAddNodeTail w copy value
      if r = NULL then
        let w ← listRelease w copy
        let w ← listReleaseIterator w iter
        return (NULL, w)
      listDup_loop copy iter fuel w

/-- The function `listDup` of adlist.c; `fuel` bounds the iterations of its
loop. -/
def listDup (fuel : Nat) (w : World) (orig : Ptr) : Option (Ptr × World) := do
  let (copy, w) ← listCreate w
  if copy = NULL then return (NULL, w)
  let o ← getList w orig
  let w ← writeList w copy fun c => { c with dup := o.dup }
  let o ← getList w orig
  let w ← writeList w copy fun c => { c with free := o.free }
  let o ← getList w orig
  let w ← writeList w copy fun c => { c with mtch := o.mtch }
  let (iter, w) ← listGetIterator w orig AL_START_HEAD
  listDup_loop copy iter fuel w

/-- Modelled from the spec: the macro `listLength` of `adlist.h` (absent from
src): the count of nodes held in the list header. -/
def listLength (l : list) : Nat := l.len

/-- The function `listRotate` of adlist.c. -/
def listRotate (w : World) (list : Ptr) : Option World := do
  let l ← getList w list
  let tail := l.tail
  let l ← getList w list
  if listLength l ≤ 1 then return w
  let t ← getNode w tail
  let w ← writeList w list fun l => { l with tail := t.prev }
  let l ← getList w list
  let w ← writeNode w l.tail fun n => { n with next := NULL }
  let l ← getList w list
  let w ← writeNode w l.head fun n => { n with prev := tail }
  let w ← writeNode w tail fun n => { n with prev := NULL }
  let l ← getList w list
  let w ← writeNode w tail fun n => { n with next := l.head }
  writeList w list fun l => { l with head := tail }

/-! ## Well-formed lists

A list is described by the sequence of its nodes from head to tail, each with
the value it holds. -/

/-- Address of the first node of a segment, or the link `d` when the segment
is empty. -/
def hdOr (xs : List (Addr × Ptr)) (d : Ptr) : Ptr :=
  match xs with
  | [] => d
  | x :: _ => some x.1

/-- Address of the last node of a segment, or the link `d` when the segment is
empty. -/
def lastOr (xs : List (Addr × Ptr)) (d : Ptr) : Ptr :=
  match xs with
  | [] => d
  | x :: rest => lastOr rest (some x.1)

/-- The nodes `xs` form a doubly linked chain in the node heap `m`: the first
has `prev = pv`, the last has `next = nx`, and neighbours point at each other;
each node holds the value paired with it. -/
def dlseg (m : Addr → Option listNode) : Ptr → List (Addr × Ptr) → Ptr → Prop
  | _, [], _ => True
  | pv, x :: rest, nx => m x.1 = some ⟨pv, hdOr rest nx, x.2⟩ ∧ dlseg m (some x.1) rest nx

instance dlsegDecidable (m : Addr → Option listNode) :
    (pv : Ptr) → (xs : List (Addr × Ptr)) → (nx : Ptr) → Decidable (dlseg m pv xs nx)
  | _, [], _ => isTrue trivial
  | _, x :: rest, nx =>
    have := dlsegDecidable m (some x.1) rest nx
    inferInstanceAs (Decidable (_ ∧ _))

/-- The list header at `lp` and the nodes `xs` form a well-formed list: head
and tail are the first and last node (NULL when there is none), `len` is the
number of nodes, the nodes are distinct and doubly linked from NULL to NULL. -/
def WF (w : World) (lp : Addr) (xs : List (Addr × Ptr)) : Prop :=
  (w.lists lp).map (fun l => (l.head, l.tail, l.len)) = some (hdOr xs NULL, lastOr xs NULL, xs.length)
    ∧ dlseg w.nodes NULL xs NULL ∧ (xs.map Prod.fst).Nodup

instance WFDecidable (w : World) (lp : Addr) (xs : List (Addr × Ptr)) : Decidable (WF w lp xs) :=
  inferInstanceAs (Decidable (_ ∧ _ ∧ _))

/-- The nodes met by following `next` from `p` until NULL; `none` when a
dangling node is met or NULL is not reached within `fuel` steps. -/
def walkNext (w : World) : Nat → Ptr → Option (List Addr)
  | _, none => some []
  | 0, some _ => none
  | fuel + 1, some a => do
    let n ← w.nodes a
    let r ← walkNext w fuel n.next
    pure (a :: r)

/-- The nodes met by following `prev` from `p` until NULL. -/
def walkPrev (w : World) : Nat → Ptr → Option (List Addr)
  | _, none => some []
  | 0, some _ => none
  | fuel + 1, some a => do
    let n ← w.nodes a
    let r ← walkPrev w fuel n.prev
    pure (a :: r)

/-- The node at `a` is currently in the list at `lp`: it is met on the walk
from head. -/
def InList (w : World) (lp : Addr) (a : Addr) : Prop :=
  ∃ l ns, w.lists lp = some l ∧ walkNext w l.len l.head = some ns ∧ a ∈ ns

/-- The allocator hands out unused memory: the next outcome of `zmalloc` is
NULL or the address of no live node. -/
def AllocFresh (w : World) : Prop :=
  ∀ a rest, w.allocs = some a :: rest → w.nodes a = none

/-- What an operation on the list at `lp` leaves alone: the other list
headers, the hooks of this one, the nodes outside `touched`, the iterators
and the code of the hooks. -/
structure Frame (w w' : World) (lp : Addr) (touched : List Addr) : Prop where
  lists : ∀ q, q ≠ lp → w'.lists q = w.lists q
  hooks : (w'.lists lp).map (fun l => (l.dup, l.free, l.mtch))
    = (w.lists lp).map (fun l => (l.dup, l.free, l.mtch))
  nodes : ∀ b, b ∉ touched → w'.nodes b = w.nodes b
  iters : w'.iters = w.iters
  dupCode : w'.dupCode = w.dupCode
  matchCode : w'.matchCode = w.matchCode


/-- The node heap `m` after the assignment `p->next = nx`, when `p` is not
NULL. -/
def linkNext (m : Addr → Option listNode) (p : Ptr) (nx : Ptr) : Addr → Option listNode :=
  match p with
  | none => m
  | some a => Function.update m a ((m a).map fun n => { n with next := nx })

/-- The node heap `m` after the assignment `p->prev = pv`, when `p` is not
NULL. -/
def linkPrev (m : Addr → Option listNode) (p : Ptr) (pv : Ptr) : Addr → Option listNode :=
  match p with
  | none => m
  | some a => Function.update m a ((m a).map fun n => { n with prev := pv })

/-! ## Clients of the list: repeated `listNext`, traversal with deletion -/

/-- The pointers returned by `n` successive calls of `listNext` on the
iterator `iter`, in order. -/
def listNext_times (iter : Ptr) : Nat → World → Option (List Ptr × World)
  | 0, w => some ([], w)
  | n + 1, w => do
    let (node, w) ← listNext w iter
    let (more, w) ← listNext_times iter n w
    pure (node :: more, w)

/-- The traversal `while ((node = listNext(iter)) != NULL)` whose body calls
`listDelNode(list, node)` on the nodes chosen by `del` and on no other: the
nodes yielded, in order.  `fuel` bounds the number of `listNext` calls. -/
def traverseDel (list : Ptr) (iter : Ptr) (del : Addr → Bool) :
    Nat → World → Option (List Addr × World)
  | 0, _ => none
  | fuel + 1, w => do
    let (node, w) ← listNext w iter
    match node with
    | none => pure ([], w)
    | some a =>
      let w ← if del a then listDelNode w list node else pure w
      let (more, w) ← traverseDel list iter del fuel w
      pure (a :: more, w)

/-- The value `listDup` stores for the value `v`: its copy by the
duplicate-value hook `dup`, or `v` itself when no hook is configured. -/
def copyValue (w : World) (dup : Ptr) (v : Ptr) : Ptr :=
  match dup with
  | some fn => w.dupCode fn v
  | none => v

/-- The hook invocations `listDup` makes for the values `vs`. -/
def dupCalls (dup : Ptr) (vs : List Ptr) : List HookCall :=
  match dup with
  | some fn => vs.map (HookCall.dup fn)
  | none => []

/-! ## The invariants as the specification words them -/

/-- The list at `lp` is well formed, for some sequence of nodes. -/
def Inv (w : World) (lp : Addr) : Prop := ∃ xs, WF w lp xs

/-- The link-shape invariant: for a list that is not empty `head->prev` and
`tail->next` are NULL, and every node `n` met from head has `n->prev->next == n`
unless it is the head and `n->next->prev == n` unless it is the tail. -/
def LinkShape (w : World) (lp : Addr) : Prop :=
  ∃ l ns, w.lists lp = some l ∧ walkNext w l.len l.head = some ns
    ∧ (l.head ≠ NULL →
        (getNode w l.head).map (fun n => n.prev) = some NULL
        ∧ (getNode w l.tail).map (fun n => n.next) = some NULL)
    ∧ ∀ a ∈ ns, ∃ n, w.nodes a = some n
        ∧ (l.head = some a ∨ (getNode w n.prev).map (fun p => p.next) = some (some a))
        ∧ (l.tail = some a ∨ (getNode w n.next).map (fun p => p.prev) = some (some a))

/-- The lists obtained from `listCreate` by a finite sequence of
`listAddNodeHead`, `listAddNodeTail`, `listInsertNode` and `listDelNode`
calls, the last two on a node currently in the list; the allocator hands out
unused memory or fails. -/
inductive Built : World → Addr → Prop
  | create {w w' : World} {lp : Addr} :
      listCreate w = some (some lp, w') → Built w' lp
  | addHead {w w' : World} {lp : Addr} {v r : Ptr} :
      Built w lp → AllocFresh w → listAddNodeHead w (some lp) v = some (r, w') → Built w' lp
  | addTail {w w' : World} {lp : Addr} {v r : Ptr} :
      Built w lp → AllocFresh w → listAddNodeTail w (some lp) v = some (r, w') → Built w' lp
  | insert {w w' : World} {lp old : Addr} {v r : Ptr} {after : Int} :
      Built w lp → AllocFresh w → InList w lp old →
      listInsertNode w (some lp) (some old) v after = some (r, w') → Built w' lp
  | del {w w' : World} {lp node : Addr} :
      Built w lp → InList w lp node →
      listDelNode w (some lp) (some node) = some w' → Built w' lp

/-- The values met by following `next` from `p` until NULL, as the macro
`listNodeValue` reads them; `none` when a dangling node is met or NULL is not
reached within `fuel` steps. -/
def walkValues (w : World) : Nat → Ptr → Option (List Ptr)
  | _, none => some []
  | 0, some _ => none
  | fuel + 1, some a => do
    let n ← w.nodes a
    let r ← walkValues w fuel n.next
    pure (n.value :: r)

/-! ## A concrete world

One list of two nodes with a duplicate-value and a release-value hook, one
iterator, and an allocator with four blocks left. -/

/-- The address `n`, for `0 < n < 2 ^ 64`. -/
def Addr.ofNat (n : Nat) : Addr :=
  if h : 0 < n ∧ n < 2 ^ 64 then ⟨n, h.1, h.2⟩ else ⟨1, by decide, by decide⟩

/-- The example world. -/
def exWorld : World where
  nodes := fun a =>
    if a.val = 2 then some ⟨NULL, some (Addr.ofNat 3), some (Addr.ofNat 10)⟩
    else if a.val = 3 then some ⟨some (Addr.ofNat 2), NULL, some (Addr.ofNat 11)⟩
    else none
  lists := fun a =>
    if a.val = 1 then
      some ⟨some (Addr.ofNat 2), some (Addr.ofNat 3), some (Addr.ofNat 20),
        some (Addr.ofNat 21), NULL, 2⟩
    else none
  iters := fun a => if a.val = 5 then some ⟨NULL, 0⟩ else none
  allocs := [some (Addr.ofNat 6), some (Addr.ofNat 7), some (Addr.ofNat 8), some (Addr.ofNat 9)]
  calls := []
  dupCode := fun _ v => v.map fun a => Addr.ofNat (a.val + 100)
  matchCode := fun _ v key => if v = key then 1 else 0

/-- The nodes of the list of the example world, with their values. -/
def exNodes : List (Addr × Ptr) :=
  [(Addr.ofNat 2, some (Addr.ofNat 10)), (Addr.ofNat 3, some (Addr.ofNat 11))]

/-- The example world whose allocator is out of memory. -/
def exWorldOOM : World := { exWorld with allocs := [NULL] }

/-- The example world after `listCreate`. -/
def exCreated : World := ((listCreate exWorld).getD (NULL, exWorld)).2

/-- The example world after `listCreate` and `listAddNodeHead` on the new
list. -/
def exBuilt : World :=
  ((listAddNodeHead exCreated (some (Addr.ofNat 6)) (some (Addr.ofNat 12))).getD
    (NULL, exCreated)).2

/-- The iterator at `it` starts a traversal of the list at `lp` in direction
`d`: the world `w1` comes from `w` by `listGetIterator(list, d)` returning
`it`, by `listRewind(list, it)` (forward), or by `listRewindTail(list, it)`
(backward). -/
def Started (w : World) (lp it : Addr) (d : Int) (w1 : World) : Prop :=
  listGetIterator w (some lp) d = some (some it, w1)
    ∨ (d = AL_START_HEAD ∧ listRewind w (some lp) (some it) = some w1)
    ∨ (d = AL_START_TAIL ∧ listRewindTail w (some lp) (some it) = some w1)

/-- The example world after `listGetIterator` on its list, forward. -/
def exIterating : World :=
  ((listGetIterator exWorld (some (Addr.ofNat 1)) AL_START_HEAD).getD (NULL, exWorld)).2

/-- The choice of the nodes to delete in the example traversal: the first
node. -/
def exDel (a : Addr) : Bool := a.val = 2

/-! ## Search, indexed access, repeated rotation -/

/-- The loop `while((node = listNext(iter)) != NULL)` of `listSearchKey`, with
its two exits on a matching node; `fuel` bounds the number of iterations. -/
def listSearchKey_loop (list : Ptr) (iter : Ptr) (key : Ptr) :
    Nat → World → Option (Ptr × World)
  | 0, _ => none
  | fuel + 1, w => do
    let (node, w) ← listNext w iter
    if node = NULL then
      let w ← listReleaseIterator w iter
      return (NULL, w)
    let l ← getList w list
    match l.mtch with
    | some fn =>
      let n ← getNode w node
      let (r, w) := callMatch w fn n.value key
      if r ≠ 0 then
        let w ← listReleaseIterator w iter
        return (node, w)
      listSearchKey_loop list iter key fuel w
    | none =>
      let n ← getNode w node
      if key = n.value then
        let w ← listReleaseIterator w iter
        return (node, w)
      listSearchKey_loop list iter key fuel w

/-- The function `listSearchKey` of adlist.c; `fuel` bounds the iterations of
its loop. -/
def listSearchKey (fuel : Nat) (w : World) (list : Ptr) (key : Ptr) : Option (Ptr × World) := do
  let (iter, w) ← listGetIterator w list AL_START_HEAD
  listSearchKey_loop list iter key fuel w

/-- The bounds of the C type `long`. -/
def LONG_MIN : Int := -(2 ^ 63)

/-- The largest `long`. -/
def LONG_MAX : Int := 2 ^ 63 - 1

/-- The value of a `long` expression whose mathematical value is `x`: two's
complement wrap-around modulo `2 ^ 64`. -/
def wrapLong (x : Int) : Int := (x + 2 ^ 63) % 2 ^ 64 - 2 ^ 63

/-- The loops `while(index-- && n) n = n->prev;` and
`while(index-- && n) n = n->next;` of `listIndex`, `link` being the field
followed; `fuel` bounds the number of iterations. -/
def listIndex_loop (w : World) (link : listNode → Ptr) : Nat → Int → Ptr → Option Ptr
  | 0, _, _ => none
  | fuel + 1, index, n =>
    if index ≠ 0 then
      match n with
      | none => some n
      | some a => do
        let nd ← w.nodes a
        listIndex_loop w link fuel (wrapLong (index - 1)) (link nd)
    else some n

/-- The function `listIndex` of adlist.c, for an `index` of type `long`;
`fuel` bounds the iterations of its loops. -/
def listIndex (fuel : Nat) (w : World) (list : Ptr) (index : Int) : Option Ptr := do
  if index < 0 then
    let index := wrapLong (wrapLong (-index) - 1)
    let l ← getList w list
    listIndex_loop w (fun n => n.prev) fuel index l.tail
  else
    let l ← getList w list
    listIndex_loop w (fun n => n.next) fuel index l.head

/-- The world after `n` successive calls of `listRotate` on `list`. -/
def listRotate_times (list : Ptr) : Nat → World → Option World
  | 0, w => some w
  | n + 1, w => do
    let w ← listRotate w list
    listRotate_times list n w

/-- The hook invocations `listRelease` makes for the values `vs`. -/
def freeCalls (free : Ptr) (vs : List Ptr) : List HookCall :=
  match free with
  | some fn => vs.map (HookCall.free fn)
  | none => []

/-- The test `listSearchKey` applies to the value `v` of a node: the
match-value hook `mtch` when configured, identity with `key` otherwise. -/
def valueMatches (w : World) (mtch : Ptr) (key : Ptr) (v : Ptr) : Bool :=
  match mtch with
  | some fn => w.matchCode fn v key ≠ 0
  | none => key = v

/-! ## Failure of a duplication -/

/-- The ways `listDup` can fail on a list with header `l` and nodes `xs`, in a
world `w` whose allocator hands out fresh storage (the address `cp` returned
for the new list holds no list, the addresses `as` returned for nodes are
distinct and hold no node), the allocation of the iterator succeeding:
`list` is the failure of the allocation of the new list, `value` the
duplicate-value hook returning NULL for the value of the node `x` after the
nodes `P` were copied, `node` the failure of the allocation of the node for `x`
after the nodes `P` were copied. -/
inductive DupFailure (w : World) (l : list) (xs : List (Addr × Ptr)) : Prop
  | list : (zmalloc w).1 = NULL → DupFailure w l xs
  | value (cp it : Addr) (as : List Addr) (rest : List Ptr) (P S : List (Addr × Ptr))
      (x : Addr × Ptr) (fn : Addr) :
      w.allocs = some cp :: some it :: (as.map some ++ rest) → w.lists cp = none →
      as.length = P.length → as.Nodup → (∀ a ∈ as, w.nodes a = none) →
      xs = P ++ x :: S → l.dup = some fn → (∀ y ∈ P, w.dupCode fn y.2 ≠ NULL) →
      w.dupCode fn x.2 = NULL → DupFailure w l xs
  | node (cp it : Addr) (as : List Addr) (rest : List Ptr) (P S : List (Addr × Ptr))
      (x : Addr × Ptr) :
      w.allocs = some cp :: some it :: (as.map some ++ rest) → w.lists cp = none →
      as.length = P.length → as.Nodup → (∀ a ∈ as, w.nodes a = none) →
      xs = P ++ x :: S → (∀ fn, l.dup = some fn → ∀ y ∈ P ++ [x], w.dupCode fn y.2 ≠ NULL) →
      rest.headD NULL = NULL → DupFailure w l xs

/-- The example world whose allocator serves one block and then fails: in
`listDup` the new list is allocated, the iterator is not. -/
def exWorldIterOOM : World := { exWorld with allocs := [some (Addr.ofNat 6), NULL] }

/-- The example world whose allocator serves three blocks and then fails: in
`listDup` the new list, the iterator and the first node are allocated, the
second node is not. -/
def exWorldNodeOOM : World :=
  { exWorld with allocs := [some (Addr.ofNat 6), some (Addr.ofNat 7), some (Addr.ofNat 8), NULL] }

/-- The example world with a release-value hook and no duplicate-value hook on
its list, and the allocator of `exWorldNodeOOM`. -/
def exShared : World :=
  { exWorldNodeOOM with
    lists := fun a =>
      if a.val = 1 then
        some ⟨some (Addr.ofNat 2), some (Addr.ofNat 3), NULL, some (Addr.ofNat 21), NULL, 2⟩
      else none }

/-! # Proofs -/

/-! ## Segments -/

@[simp] theorem hdOr_nil (d : Ptr) : hdOr [] d = d := rfl
@[simp] theorem hdOr_cons (x : Addr × Ptr) (xs : List (Addr × Ptr)) (d : Ptr) :
    hdOr (x :: xs) d = some x.1 := rfl
@[simp] theorem lastOr_nil (d : Ptr) : lastOr [] d = d := rfl
@[simp] theorem lastOr_cons (x : Addr × Ptr) (xs : List (Addr × Ptr)) (d : Ptr) :
    lastOr (x :: xs) d = lastOr xs (some x.1) := rfl

theorem hdOr_append (xs ys : List (Addr × Ptr)) (d : Ptr) :
    hdOr (xs ++ ys) d = hdOr xs (hdOr ys d) := by
  cases xs <;> rfl

theorem lastOr_append (xs ys : List (Addr × Ptr)) (d : Ptr) :
    lastOr (xs ++ ys) d = lastOr ys (lastOr xs d) := by
  induction xs generalizing d with
  | nil => rfl
  | cons x xs ih => simp [ih]

theorem lastOr_eq_none (xs : List (Addr × Ptr)) : lastOr xs none = none ↔ xs = [] := by
  cases xs with
  | nil => simp
  | cons x xs =>
    simp only [lastOr_cons, reduceCtorEq, iff_false]
    induction xs generalizing x with
    | nil => simp
    | cons y ys ih => simpa using ih y

theorem hdOr_eq_none (xs : List (Addr × Ptr)) : hdOr xs none = none ↔ xs = [] := by
  cases xs <;> simp

@[simp] theorem dlseg_nil (m : Addr → Option listNode) (pv nx : Ptr) : dlseg m pv [] nx := trivial

@[simp] theorem dlseg_cons (m : Addr → Option listNode) (pv nx : Ptr) (x : Addr × Ptr)
    (xs : List (Addr × Ptr)) :
    dlseg m pv (x :: xs) nx ↔ m x.1 = some ⟨pv, hdOr xs nx, x.2⟩ ∧ dlseg m (some x.1) xs nx :=
  Iff.rfl

theorem dlseg_append (m : Addr → Option listNode) (pv nx : Ptr) (xs ys : List (Addr × Ptr)) :
    dlseg m pv (xs ++ ys) nx ↔ dlseg m pv xs (hdOr ys nx) ∧ dlseg m (lastOr xs pv) ys nx := by
  induction xs generalizing pv with
  | nil => simp
  | cons x xs ih => simp [ih, hdOr_append, and_assoc]

theorem dlseg_frame {m m' : Addr → Option listNode} {pv nx : Ptr} {xs : List (Addr × Ptr)}
    (h : ∀ x ∈ xs, m' x.1 = m x.1) (hs : dlseg m pv xs nx) : dlseg m' pv xs nx := by
  induction xs generalizing pv with
  | nil => trivial
  | cons x xs ih =>
    rw [dlseg_cons] at hs ⊢
    exact ⟨by rw [h x (List.mem_cons_self _ _)]; exact hs.1,
      ih (fun y hy => h y (List.mem_cons_of_mem _ hy)) hs.2⟩

theorem dlseg_node {m : Addr → Option listNode} {pv nx : Ptr} {xs : List (Addr × Ptr)}
    (hs : dlseg m pv xs nx) {x : Addr × Ptr} (hx : x ∈ xs) :
    ∃ n, m x.1 = some n ∧ n.value = x.2 := by
  induction xs generalizing pv with
  | nil => simp at hx
  | cons y ys ih =>
    rw [dlseg_cons] at hs
    rcases List.mem_cons.1 hx with rfl | hx
    · exact ⟨_, hs.1, rfl⟩
    · exact ih hs.2 hx

theorem dlseg_ne_of_none {m : Addr → Option listNode} {pv nx : Ptr} {xs : List (Addr × Ptr)}
    (hs : dlseg m pv xs nx) {a : Addr} (ha : m a = none) : a ∉ xs.map Prod.fst := by
  intro hmem
  obtain ⟨x, hx, rfl⟩ := List.mem_map.1 hmem
  obtain ⟨n, hn, -⟩ := dlseg_node hs hx
  rw [ha] at hn; cases hn

/-- There are fewer than `2 ^ 64` distinct non-null addresses. -/
theorem length_lt_of_nodup (l : List Addr) (h : l.Nodup) : l.length < 2 ^ 64 := by
  have hinj : Function.Injective Addr.val := by
    intro a b hab; cases a; cases b; simp_all
  have h1 : (l.map Addr.val).Nodup := h.map hinj
  have h2 : (l.map Addr.val).toFinset ⊆ Finset.Ico 1 (2 ^ 64) := by
    intro n hn
    simp only [List.mem_toFinset, List.mem_map] at hn
    obtain ⟨a, -, rfl⟩ := hn
    exact Finset.mem_Ico.2 ⟨a.pos, a.lt⟩
  have h3 := Finset.card_le_card h2
  rw [List.toFinset_card_of_nodup h1, Nat.card_Ico, List.length_map] at h3
  omega



/-! ## Well-formedness -/

theorem WF.hdr {w : World} {lp : Addr} {xs : List (Addr × Ptr)} (h : WF w lp xs) :
    ∃ l, w.lists lp = some l ∧ l.head = hdOr xs NULL ∧ l.tail = lastOr xs NULL
      ∧ l.len = xs.length := by
  obtain ⟨h1, -, -⟩ := h
  cases hl : w.lists lp with
  | none => simp [hl] at h1
  | some l =>
    simp only [hl, Option.map_some', Option.some.injEq, Prod.mk.injEq] at h1
    exact ⟨l, rfl, h1.1, h1.2.1, h1.2.2⟩

theorem WF.seg {w : World} {lp : Addr} {xs : List (Addr × Ptr)} (h : WF w lp xs) :
    dlseg w.nodes NULL xs NULL := h.2.1

theorem WF.nodup {w : World} {lp : Addr} {xs : List (Addr × Ptr)} (h : WF w lp xs) :
    (xs.map Prod.fst).Nodup := h.2.2

theorem WF.intro {w : World} {lp : Addr} {xs : List (Addr × Ptr)} {l : list}
    (hl : w.lists lp = some l) (hh : l.head = hdOr xs NULL) (ht : l.tail = lastOr xs NULL)
    (hn : l.len = xs.length) (hs : dlseg w.nodes NULL xs NULL) (hd : (xs.map Prod.fst).Nodup) :
    WF w lp xs := by
  refine ⟨?_, hs, hd⟩
  simp [hl, hh, ht, hn]

theorem WF.length_lt {w : World} {lp : Addr} {xs : List (Addr × Ptr)} (h : WF w lp xs) :
    xs.length < ULONG_MOD := by
  simpa using length_lt_of_nodup _ h.nodup

theorem WF.length_succ_lt {w : World} {lp : Addr} {xs : List (Addr × Ptr)} (h : WF w lp xs)
    {a : Addr} (ha : w.nodes a = none) : xs.length + 1 < ULONG_MOD := by
  have hd : (a :: xs.map Prod.fst).Nodup :=
    List.nodup_cons.2 ⟨dlseg_ne_of_none h.seg ha, h.nodup⟩
  simpa using length_lt_of_nodup _ hd

theorem listAddNodeHead_ok {w : World} {lp : Addr} {xs : List (Addr × Ptr)} (hwf : WF w lp xs)
    {a : Addr} {rest : List Ptr} (hal : w.allocs = some a :: rest) (hfr : w.nodes a = none)
    (v : Ptr) :
    ∃ w', listAddNodeHead w (some lp) v = some (some lp, w') ∧ WF w' lp ((a, v) :: xs)
      ∧ Frame w w' lp (a :: xs.map Prod.fst) ∧ w'.allocs = rest ∧ w'.calls = w.calls := by
  obtain ⟨l, hl, hh, ht, hn⟩ := hwf.hdr
  have hlt := hwf.length_succ_lt hfr
  have hnot := dlseg_ne_of_none hwf.seg hfr
  have hseg := hwf.seg
  have hnd := hwf.nodup
  cases xs with
  | nil =>
    simp at hh ht hn hlt
    simp [listAddNodeHead, zmalloc, hal, newNode, writeNode, writeList, getList, getNode,
      setNode, setList, hl, hn, Nat.mod_eq_of_lt hlt]
    refine ⟨?_, ?_⟩
    · refine WF.intro (l := { l with head := some a, tail := some a, len := 1 }) ?_ ?_ ?_ ?_ ?_ ?_
        <;> simp
    · constructor <;> simp +contextual [Function.update_apply, hl]
  | cons x t =>
    simp only [List.map_cons, List.mem_cons, not_or, List.nodup_cons, List.length_cons,
      hdOr_cons, lastOr_cons, dlseg_cons] at hh ht hn hnot hseg hnd hlt
    have hne : x.1 ≠ a := fun h => hnot.1 h.symm
    simp [listAddNodeHead, zmalloc, hal, newNode, writeNode, writeList, getList, getNode,
      setNode, setList, hl, hn, hh, hseg.1, hne, hne.symm,
      Nat.mod_eq_of_lt hlt]
    refine ⟨?_, ?_⟩
    · refine WF.intro (l := { l with head := some a, len := t.length + 1 + 1 }) ?_ ?_ ?_ ?_ ?_ ?_
      · simp
      · simp
      · simp [ht]
      · simp
      · simp [hne.symm]
        refine dlseg_frame ?_ hseg.2
        intro y hy
        have hy' : y.1 ∈ t.map Prod.fst := List.mem_map_of_mem _ hy
        have h1 : y.1 ≠ x.1 := fun h => hnd.1 (h ▸ hy')
        have h2 : y.1 ≠ a := fun h => hnot.2 (h ▸ hy')
        simp [Function.update_apply, h1, h2]
      · simp only [List.map_cons, List.nodup_cons, List.mem_cons, not_or]
        exact ⟨hnot, hnd⟩
    · constructor <;> simp +contextual [Function.update_apply, hl]

theorem lastOr_ne_of_cons (x : Addr × Ptr) (t : List (Addr × Ptr)) (d : Ptr) :
    ∃ y ∈ x :: t, lastOr (x :: t) d = some y.1 := by
  induction t generalizing x d with
  | nil => exact ⟨x, by simp, rfl⟩
  | cons z t ih =>
    obtain ⟨y, hy, he⟩ := ih z (some x.1)
    exact ⟨y, List.mem_cons_of_mem _ hy, he⟩

/-- Redirecting the `next` link of the last node of a segment. -/
theorem dlseg_update_last {m : Addr → Option listNode} {pv nx : Ptr} {xs : List (Addr × Ptr)}
    {x : Addr × Ptr} (hs : dlseg m pv (xs ++ [x]) nx) (hd : ((xs ++ [x]).map Prod.fst).Nodup)
    (nx' : Ptr) :
    dlseg (Function.update m x.1 (some ⟨lastOr xs pv, nx', x.2⟩)) pv (xs ++ [x]) nx' := by
  rw [dlseg_append] at hs ⊢
  refine ⟨dlseg_frame ?_ hs.1, by simp⟩
  intro y hy
  have : y.1 ≠ x.1 := by
    intro h
    rw [List.map_append, List.nodup_append] at hd
    exact hd.2.2 (List.mem_map_of_mem _ hy) (by simp [h])
  simp [Function.update_apply, this]

/-- Redirecting the `prev` link of the first node of a segment. -/
theorem dlseg_update_first {m : Addr → Option listNode} {pv nx : Ptr} {xs : List (Addr × Ptr)}
    {x : Addr × Ptr} (hs : dlseg m pv (x :: xs) nx) (hd : ((x :: xs).map Prod.fst).Nodup)
    (pv' : Ptr) :
    dlseg (Function.update m x.1 (some ⟨pv', hdOr xs nx, x.2⟩)) pv' (x :: xs) nx := by
  rw [dlseg_cons] at hs ⊢
  refine ⟨by simp, dlseg_frame ?_ hs.2⟩
  intro y hy
  have : y.1 ≠ x.1 := by
    intro h
    rw [List.map_cons, List.nodup_cons] at hd
    exact hd.1 (h ▸ List.mem_map_of_mem _ hy)
  simp [Function.update_apply, this]

theorem dlseg_update_notin {m : Addr → Option listNode} {pv nx : Ptr} {xs : List (Addr × Ptr)}
    {a : Addr} (ha : a ∉ xs.map Prod.fst) (o : Option listNode) :
    dlseg (Function.update m a o) pv xs nx ↔ dlseg m pv xs nx := by
  have key : ∀ x ∈ xs, Function.update m a o x.1 = m x.1 := by
    intro x hx
    have : x.1 ≠ a := fun h => ha (h ▸ List.mem_map_of_mem _ hx)
    simp [Function.update_apply, this]
  exact ⟨dlseg_frame (fun x hx => (key x hx).symm), dlseg_frame key⟩

theorem listAddNodeTail_ok {w : World} {lp : Addr} {xs : List (Addr × Ptr)} (hwf : WF w lp xs)
    {a : Addr} {rest : List Ptr} (hal : w.allocs = some a :: rest) (hfr : w.nodes a = none)
    (v : Ptr) :
    ∃ w', listAddNodeTail w (some lp) v = some (some lp, w') ∧ WF w' lp (xs ++ [(a, v)])
      ∧ Frame w w' lp (a :: xs.map Prod.fst) ∧ w'.allocs = rest ∧ w'.calls = w.calls := by
  obtain ⟨l, hl, hh, ht, hn⟩ := hwf.hdr
  have hlt := hwf.length_succ_lt hfr
  have hnot := dlseg_ne_of_none hwf.seg hfr
  have hseg := hwf.seg
  have hnd := hwf.nodup
  rcases List.eq_nil_or_concat xs with rfl | ⟨ys, y, hxs⟩
  · simp at hh ht hn hlt
    simp [listAddNodeTail, zmalloc, hal, newNode, writeNode, writeList, getList, getNode,
      setNode, setList, hl, hn, Nat.mod_eq_of_lt hlt]
    refine ⟨?_, ?_⟩
    · refine WF.intro (l := { l with head := some a, tail := some a, len := 1 }) ?_ ?_ ?_ ?_ ?_ ?_
        <;> simp
    · constructor <;> simp +contextual [Function.update_apply, hl]
  · rw [List.concat_eq_append] at hxs
    have hy : w.nodes y.1 = some ⟨lastOr ys NULL, NULL, y.2⟩ := by
      have := (dlseg_append _ _ _ _ _).1 (hxs ▸ hseg)
      simpa using this.2
    have hne : y.1 ≠ a := by
      intro h; rw [h, hfr] at hy; cases hy
    have ht' : l.tail = some y.1 := by rw [ht, hxs, lastOr_append]; rfl
    have hxne : xs ≠ [] := by rw [hxs]; simp
    simp [listAddNodeTail, zmalloc, hal, newNode, writeNode, writeList, getList, getNode,
      setNode, setList, hl, hxne, ht', hy, hne, hne.symm, Nat.mod_eq_of_lt, hn, hlt]
    refine ⟨?_, ?_⟩
    · refine WF.intro (l := { l with tail := some a, len := xs.length + 1 }) ?_ ?_ ?_ ?_ ?_ ?_
      · simp
      · simp [hh, hdOr_append, hxs]
      · simp [lastOr_append]
      · simp
      · rw [dlseg_append]
        constructor
        · have := dlseg_update_last (hxs ▸ hseg) (hxs ▸ hnd) (some a)
          simp only [hdOr_cons]
          rw [← hxs] at this
          refine dlseg_frame ?_ this
          intro z hz
          have hz' : z.1 ≠ a := fun h => hnot (h ▸ List.mem_map_of_mem _ hz)
          simp [Function.update_apply, hz']
        · simp [hxs, lastOr_append, hne.symm]
      · rw [List.map_append, List.nodup_append]
        refine ⟨hnd, by simp, ?_⟩
        intro b hb hb'
        simp only [List.map_cons, List.map_nil, List.mem_singleton] at hb'
        exact hnot (hb' ▸ hb)
    · have hymem : y.1 ∈ xs.map Prod.fst := by rw [hxs]; simp
      refine ⟨?_, ?_, ?_, rfl, rfl, rfl⟩
      · intro q hq; simp [Function.update_apply, hq]
      · simp [hl]
      · intro b hb
        have h1 : b ≠ a := fun h => hb (h ▸ List.mem_cons_self _ _)
        have h2 : b ≠ y.1 := fun h => hb (h ▸ List.mem_cons_of_mem _ hymem)
        simp [Function.update_apply, h1, h2]


theorem nodup_split {A B : List (Addr × Ptr)} {o : Addr × Ptr}
    (h : ((A ++ o :: B).map Prod.fst).Nodup) :
    o.1 ∉ A.map Prod.fst ∧ o.1 ∉ B.map Prod.fst ∧ (A.map Prod.fst).Nodup ∧ (B.map Prod.fst).Nodup
      ∧ (∀ b ∈ B.map Prod.fst, b ∉ A.map Prod.fst) ∧ ((A ++ B).map Prod.fst).Nodup := by
  simp only [List.map_append, List.map_cons, List.nodup_append, List.nodup_cons,
    List.mem_cons] at h ⊢
  obtain ⟨hA, ⟨hoB, hB⟩, hdis⟩ := h
  refine ⟨fun hoA => hdis hoA (List.mem_cons_self _ _), hoB, hA, hB, ?_, hA, hB, ?_⟩
  · intro b hb hbA; exact hdis hbA (List.mem_cons_of_mem _ hb)
  · intro b hbA hb; exact hdis hbA (List.mem_cons_of_mem _ hb)

theorem dlseg_split {m : Addr → Option listNode} {A B : List (Addr × Ptr)} {o : Addr × Ptr}
    {pv nx : Ptr} (h : dlseg m pv (A ++ o :: B) nx) :
    dlseg m pv A (some o.1) ∧ m o.1 = some ⟨lastOr A pv, hdOr B nx, o.2⟩
      ∧ dlseg m (some o.1) B nx := by
  rw [dlseg_append, dlseg_cons] at h
  exact ⟨h.1, h.2.1, h.2.2⟩


set_option maxHeartbeats 1000000 in
/-- The run of `listDelNode` on a node whose neighbours, when it has any, are
live nodes other than itself. -/
theorem listDelNode_eval {w : World} {lp a : Addr} {l : list} {pv nx v : Ptr}
    (hl : w.lists lp = some l) (ha : w.nodes a = some ⟨pv, nx, v⟩)
    (hpv : ∀ p, pv = some p → p ≠ a ∧ ∃ n, w.nodes p = some n)
    (hnx : ∀ q, nx = some q → q ≠ a ∧ ∃ n, w.nodes q = some n)
    (hpq : ∀ p, pv = some p → nx ≠ some p) :
    listDelNode w (some lp) (some a) = some
      { w with
        nodes := Function.update (linkPrev (linkNext w.nodes pv nx) nx pv) a none
        lists := Function.update w.lists lp (some { l with
          head := if pv = NULL then nx else l.head
          tail := if nx = NULL then pv else l.tail
          len := (l.len + ULONG_MOD - 1) % ULONG_MOD })
        calls := match l.free with
          | some fn => w.calls ++ [HookCall.free fn v]
          | none => w.calls } := by
  rcases pv with _ | p
  · rcases nx with _ | q
    · rcases hf : l.free with _ | fn <;>
      simp only [listDelNode, writeNode, writeList, getList, getNode, freeNode, callFree,
      setNode, setList, linkNext, linkPrev, hl, ha, hf, *,
      Option.bind_eq_bind, Option.some_bind, Option.map_some',
      Function.update_same, Function.update_idem, Function.update_apply, ite_true, ite_false,
      ne_eq, not_true_eq_false, not_false_eq_true, reduceCtorEq, Option.some.injEq,
      Option.pure_def, Option.map_eq_map, if_true, if_false, Option.bind_some, reduceIte,
      bind_pure_comp, pure_bind]
    · obtain ⟨hqa, qn, hqn⟩ := hnx _ rfl
      have hqa' := hqa.symm
      rcases hf : l.free with _ | fn <;>
      simp only [listDelNode, writeNode, writeList, getList, getNode, freeNode, callFree,
      setNode, setList, linkNext, linkPrev, hl, ha, hf, *,
      Option.bind_eq_bind, Option.some_bind, Option.map_some',
      Function.update_same, Function.update_idem, Function.update_apply, ite_true, ite_false,
      ne_eq, not_true_eq_false, not_false_eq_true, reduceCtorEq, Option.some.injEq,
      Option.pure_def, Option.map_eq_map, if_true, if_false, Option.bind_some, reduceIte,
      bind_pure_comp, pure_bind]
  · obtain ⟨hpa, pn, hpn⟩ := hpv _ rfl
    have hpa' := hpa.symm
    rcases nx with _ | q
    · rcases hf : l.free with _ | fn <;>
      simp only [listDelNode, writeNode, writeList, getList, getNode, freeNode, callFree,
      setNode, setList, linkNext, linkPrev, hl, ha, hf, *,
      Option.bind_eq_bind, Option.some_bind, Option.map_some',
      Function.update_same, Function.update_idem, Function.update_apply, ite_true, ite_false,
      ne_eq, not_true_eq_false, not_false_eq_true, reduceCtorEq, Option.some.injEq,
      Option.pure_def, Option.map_eq_map, if_true, if_false, Option.bind_some, reduceIte,
      bind_pure_comp, pure_bind]
    · obtain ⟨hqa, qn, hqn⟩ := hnx _ rfl
      have hqa' := hqa.symm
      have hqp : q ≠ p := fun h => hpq p rfl (by rw [h])
      have hqp' := hqp.symm
      rcases hf : l.free with _ | fn <;>
      simp only [listDelNode, writeNode, writeList, getList, getNode, freeNode, callFree,
      setNode, setList, linkNext, linkPrev, hl, ha, hf, *,
      Option.bind_eq_bind, Option.some_bind, Option.map_some',
      Function.update_same, Function.update_idem, Function.update_apply, ite_true, ite_false,
      ne_eq, not_true_eq_false, not_false_eq_true, reduceCtorEq, Option.some.injEq,
      Option.pure_def, Option.map_eq_map, if_true, if_false, Option.bind_some, reduceIte,
      bind_pure_comp, pure_bind]

theorem linkNext_of_ne {m : Addr → Option listNode} {p nx : Ptr} {b : Addr} (h : p ≠ some b) :
    linkNext m p nx b = m b := by
  cases p with
  | none => rfl
  | some a =>
    have : b ≠ a := fun hb => h (by rw [hb])
    simp [linkNext, Function.update_apply, this]

theorem linkPrev_of_ne {m : Addr → Option listNode} {p pv : Ptr} {b : Addr} (h : p ≠ some b) :
    linkPrev m p pv b = m b := by
  cases p with
  | none => rfl
  | some a =>
    have : b ≠ a := fun hb => h (by rw [hb])
    simp [linkPrev, Function.update_apply, this]

theorem dlseg_linkNext_notin {m : Addr → Option listNode} {pv nx : Ptr}
    {xs : List (Addr × Ptr)} {p : Ptr} (hp : ∀ a, p = some a → a ∉ xs.map Prod.fst) (nx' : Ptr) :
    dlseg (linkNext m p nx') pv xs nx ↔ dlseg m pv xs nx := by
  have key : ∀ x ∈ xs, linkNext m p nx' x.1 = m x.1 := fun x hx =>
    linkNext_of_ne fun h => hp _ h (List.mem_map_of_mem _ hx)
  exact ⟨dlseg_frame (fun x hx => (key x hx).symm), dlseg_frame key⟩

theorem dlseg_linkPrev_notin {m : Addr → Option listNode} {pv nx : Ptr}
    {xs : List (Addr × Ptr)} {p : Ptr} (hp : ∀ a, p = some a → a ∉ xs.map Prod.fst) (pv' : Ptr) :
    dlseg (linkPrev m p pv') pv xs nx ↔ dlseg m pv xs nx := by
  have key : ∀ x ∈ xs, linkPrev m p pv' x.1 = m x.1 := fun x hx =>
    linkPrev_of_ne fun h => hp _ h (List.mem_map_of_mem _ hx)
  exact ⟨dlseg_frame (fun x hx => (key x hx).symm), dlseg_frame key⟩

/-- Redirecting the `next` link of the last node of a segment, if any. -/
theorem dlseg_linkNext_last {m : Addr → Option listNode} {pv nx : Ptr} {xs : List (Addr × Ptr)}
    (hs : dlseg m pv xs nx) (hd : (xs.map Prod.fst).Nodup) (nx' : Ptr) :
    dlseg (linkNext m (lastOr xs NULL) nx') pv xs nx' := by
  rcases List.eq_nil_or_concat xs with rfl | ⟨ys, y, rfl⟩
  · trivial
  · rw [List.concat_eq_append] at hs hd ⊢
    have hy : m y.1 = some ⟨lastOr ys pv, nx, y.2⟩ := by
      have := (dlseg_append _ _ _ _ _).1 hs
      simpa using this.2
    have := dlseg_update_last hs hd nx'
    simpa [lastOr_append, linkNext, hy] using this

/-- Redirecting the `prev` link of the first node of a segment, if any. -/
theorem dlseg_linkPrev_first {m : Addr → Option listNode} {pv nx : Ptr} {xs : List (Addr × Ptr)}
    (hs : dlseg m pv xs nx) (hd : (xs.map Prod.fst).Nodup) (pv' : Ptr) :
    dlseg (linkPrev m (hdOr xs NULL) pv') pv' xs nx := by
  cases xs with
  | nil => trivial
  | cons x t =>
    have hx : m x.1 = some ⟨pv, hdOr t nx, x.2⟩ := hs.1
    have := dlseg_update_first hs hd pv'
    simpa [linkPrev, hx] using this

theorem lastOr_mem_or (xs : List (Addr × Ptr)) (a : Addr) (h : lastOr xs NULL = some a) :
    a ∈ xs.map Prod.fst := by
  cases xs with
  | nil => cases h
  | cons x t =>
    obtain ⟨y, hy, he⟩ := lastOr_ne_of_cons x t NULL
    rw [he] at h
    cases h
    exact List.mem_map_of_mem _ hy

theorem hdOr_mem_or (xs : List (Addr × Ptr)) (a : Addr) (h : hdOr xs NULL = some a) :
    a ∈ xs.map Prod.fst := by
  cases xs with
  | nil => cases h
  | cons x t => cases h; simp

theorem lastOr_some_ne (xs : List (Addr × Ptr)) (a : Addr) : lastOr xs (some a) ≠ NULL := by
  induction xs generalizing a with
  | nil => simp
  | cons x t ih => simpa using ih x.1

theorem lastOr_default (xs : List (Addr × Ptr)) (d : Ptr) :
    lastOr xs d = if xs = [] then d else lastOr xs NULL := by
  cases xs <;> simp

theorem hdOr_default (xs : List (Addr × Ptr)) (d : Ptr) :
    hdOr xs d = if xs = [] then d else hdOr xs NULL := by
  cases xs <;> simp

theorem WF.length_pos_lt {w : World} {lp : Addr} {A B : List (Addr × Ptr)} {o : Addr × Ptr}
    (h : WF w lp (A ++ o :: B)) :
    ((A ++ o :: B).length + ULONG_MOD - 1) % ULONG_MOD = (A ++ B).length := by
  have := h.length_lt
  simp only [List.length_append, List.length_cons] at this ⊢
  rw [show A.length + (B.length + 1) + ULONG_MOD - 1 = A.length + B.length + ULONG_MOD by omega,
    Nat.add_mod_right, Nat.mod_eq_of_lt (by omega)]

/-- Deleting a node of a well-formed list. -/
theorem listDelNode_ok {w : World} {lp : Addr} {A B : List (Addr × Ptr)} {o : Addr × Ptr}
    (hwf : WF w lp (A ++ o :: B)) :
    ∃ w' l, listDelNode w (some lp) (some o.1) = some w' ∧ w.lists lp = some l
      ∧ WF w' lp (A ++ B) ∧ w'.nodes o.1 = none
      ∧ Frame w w' lp ((A ++ o :: B).map Prod.fst) ∧ w'.allocs = w.allocs
      ∧ w'.calls = (match l.free with
          | some fn => w.calls ++ [HookCall.free fn o.2]
          | none => w.calls) := by
  obtain ⟨l, hl, hh, ht, hn⟩ := hwf.hdr
  obtain ⟨hsA, ho, hsB⟩ := dlseg_split hwf.seg
  obtain ⟨hoA, hoB, hdA, hdB, hBA, hdAB⟩ := nodup_split hwf.nodup
  have hAo : ∀ p, lastOr A NULL = some p → p ≠ o.1 ∧ ∃ n, w.nodes p = some n := by
    intro p hp
    have hm := lastOr_mem_or A p hp
    refine ⟨fun h => hoA (h ▸ hm), ?_⟩
    obtain ⟨x, hx, rfl⟩ := List.mem_map.1 hm
    obtain ⟨n, hn, -⟩ := dlseg_node hsA hx
    exact ⟨n, hn⟩
  have hBo : ∀ q, hdOr B NULL = some q → q ≠ o.1 ∧ ∃ n, w.nodes q = some n := by
    intro q hq
    have hm := hdOr_mem_or B q hq
    refine ⟨fun h => hoB (h ▸ hm), ?_⟩
    obtain ⟨x, hx, rfl⟩ := List.mem_map.1 hm
    obtain ⟨n, hn, -⟩ := dlseg_node hsB hx
    exact ⟨n, hn⟩
  have hAB : ∀ p, lastOr A NULL = some p → hdOr B NULL ≠ some p := by
    intro p hp hq
    exact hBA p (hdOr_mem_or B p hq) (lastOr_mem_or A p hp)
  refine ⟨_, l, listDelNode_eval hl ho hAo hBo hAB, hl, ?_, by simp, ?_, rfl, rfl⟩
  · refine WF.intro (Function.update_same _ _ _) ?_ ?_ ?_ ?_ hdAB
    · show (if lastOr A NULL = NULL then hdOr B NULL else l.head) = _
      rw [hdOr_append, hh, hdOr_append, hdOr_cons]
      cases A with
      | nil => simp
      | cons x t => simp [lastOr_some_ne]
    · show (if hdOr B NULL = NULL then lastOr A NULL else l.tail) = _
      rw [lastOr_append, ht, lastOr_append, lastOr_cons]
      cases B with
      | nil => simp
      | cons x t => simp
    · show (l.len + ULONG_MOD - 1) % ULONG_MOD = _
      rw [hn]; exact hwf.length_pos_lt
    · show dlseg (Function.update (linkPrev (linkNext w.nodes _ _) _ _) o.1 none) _ _ _
      have hoAB : o.1 ∉ (A ++ B).map Prod.fst := by
        rw [List.map_append, List.mem_append]; exact fun h => h.elim hoA hoB
      rw [dlseg_update_notin hoAB, dlseg_append]
      constructor
      · rw [dlseg_linkPrev_notin (fun q hq => hBA q (hdOr_mem_or B q hq))]
        exact dlseg_linkNext_last hsA hdA _
      · have h1 : dlseg (linkNext w.nodes (lastOr A NULL) (hdOr B NULL)) (some o.1) B NULL := by
          rw [dlseg_linkNext_notin]
          · exact hsB
          · intro p hp hpB; exact hBA p hpB (lastOr_mem_or A p hp)
        exact dlseg_linkPrev_first h1 hdB (lastOr A NULL)
  · refine ⟨?_, ?_, ?_, rfl, rfl, rfl⟩
    · intro q hq; simp [Function.update_apply, hq]
    · simp [hl]
    · intro b hb
      rw [List.map_append, List.mem_append, List.map_cons, List.mem_cons] at hb
      have h1 : b ≠ o.1 := fun h => hb (Or.inr (Or.inl h))
      have h2 : hdOr B NULL ≠ some b := fun h => hb (Or.inr (Or.inr (hdOr_mem_or B b h)))
      have h3 : lastOr A NULL ≠ some b := fun h => hb (Or.inl (lastOr_mem_or A b h))
      show Function.update _ _ _ _ = _
      rw [Function.update_noteq h1, linkPrev_of_ne h2, linkNext_of_ne h3]

set_option maxHeartbeats 1000000 in
/-- The run of `listInsertNode` after the node `o`. -/
theorem listInsertNode_after_eval {w : World} {lp a o : Addr} {l : list} {pv nx ov v : Ptr}
    {rest : List Ptr} {after : Int} (haft : after ≠ 0)
    (hal : w.allocs = some a :: rest) (hl : w.lists lp = some l)
    (ho : w.nodes o = some ⟨pv, nx, ov⟩) (hoa : o ≠ a)
    (hnx : ∀ q, nx = some q → q ≠ a ∧ q ≠ o ∧ ∃ n, w.nodes q = some n) :
    listInsertNode w (some lp) (some o) v after = some (some lp,
      { w with
        nodes := linkPrev (Function.update (Function.update w.nodes a (some ⟨some o, nx, v⟩)) o
          (some ⟨pv, some a, ov⟩)) nx (some a)
        lists := Function.update w.lists lp (some { l with
          tail := if l.tail = some o then some a else l.tail
          len := (l.len + 1) % ULONG_MOD })
        allocs := rest }) := by
  have hoa' := hoa.symm
  by_cases ht : l.tail = some o
  · rcases nx with _ | q
    · simp only [listInsertNode, zmalloc, newNode, writeNode, writeList, getList, getNode,
      setNode, setList, linkNext, linkPrev, *,
      Option.bind_eq_bind, Option.some_bind, Option.map_some',
      Function.update_same, Function.update_idem, Function.update_apply, ite_true, ite_false,
      ne_eq, not_true_eq_false, not_false_eq_true, reduceCtorEq, Option.some.injEq,
      Option.pure_def, Option.map_eq_map, if_true, if_false, Option.bind_some, reduceIte,
      bind_pure_comp, pure_bind]
    · obtain ⟨hqa, hqo, qn, hqn⟩ := hnx _ rfl
      have hqa' := hqa.symm
      have hqo' := hqo.symm
      simp only [listInsertNode, zmalloc, newNode, writeNode, writeList, getList, getNode,
      setNode, setList, linkNext, linkPrev, *,
      Option.bind_eq_bind, Option.some_bind, Option.map_some',
      Function.update_same, Function.update_idem, Function.update_apply, ite_true, ite_false,
      ne_eq, not_true_eq_false, not_false_eq_true, reduceCtorEq, Option.some.injEq,
      Option.pure_def, Option.map_eq_map, if_true, if_false, Option.bind_some, reduceIte,
      bind_pure_comp, pure_bind]
  · rcases nx with _ | q
    · simp only [listInsertNode, zmalloc, newNode, writeNode, writeList, getList, getNode,
      setNode, setList, linkNext, linkPrev, *,
      Option.bind_eq_bind, Option.some_bind, Option.map_some',
      Function.update_same, Function.update_idem, Function.update_apply, ite_true, ite_false,
      ne_eq, not_true_eq_false, not_false_eq_true, reduceCtorEq, Option.some.injEq,
      Option.pure_def, Option.map_eq_map, if_true, if_false, Option.bind_some, reduceIte,
      bind_pure_comp, pure_bind]
    · obtain ⟨hqa, hqo, qn, hqn⟩ := hnx _ rfl
      have hqa' := hqa.symm
      have hqo' := hqo.symm
      simp only [listInsertNode, zmalloc, newNode, writeNode, writeList, getList, getNode,
      setNode, setList, linkNext, linkPrev, *,
      Option.bind_eq_bind, Option.some_bind, Option.map_some',
      Function.update_same, Function.update_idem, Function.update_apply, ite_true, ite_false,
      ne_eq, not_true_eq_false, not_false_eq_true, reduceCtorEq, Option.some.injEq,
      Option.pure_def, Option.map_eq_map, if_true, if_false, Option.bind_some, reduceIte,
      bind_pure_comp, pure_bind]

set_option maxHeartbeats 1000000 in
/-- The run of `listInsertNode` before the node `o`. -/
theorem listInsertNode_before_eval {w : World} {lp a o : Addr} {l : list} {pv nx ov v : Ptr}
    {rest : List Ptr}
    (hal : w.allocs = some a :: rest) (hl : w.lists lp = some l)
    (ho : w.nodes o = some ⟨pv, nx, ov⟩) (hoa : o ≠ a)
    (hpv : ∀ p, pv = some p → p ≠ a ∧ p ≠ o ∧ ∃ n, w.nodes p = some n) :
    listInsertNode w (some lp) (some o) v 0 = some (some lp,
      { w with
        nodes := Function.update (linkNext (Function.update w.nodes a (some ⟨pv, some o, v⟩)) pv
          (some a)) o (some ⟨some a, nx, ov⟩)
        lists := Function.update w.lists lp (some { l with
          head := if l.head = some o then some a else l.head
          len := (l.len + 1) % ULONG_MOD })
        allocs := rest }) := by
  have hoa' := hoa.symm
  by_cases ht : l.head = some o
  · rcases pv with _ | p
    · simp only [listInsertNode, zmalloc, newNode, writeNode, writeList, getList, getNode,
      setNode, setList, linkNext, linkPrev, *,
      Option.bind_eq_bind, Option.some_bind, Option.map_some',
      Function.update_same, Function.update_idem, Function.update_apply, ite_true, ite_false,
      ne_eq, not_true_eq_false, not_false_eq_true, reduceCtorEq, Option.some.injEq,
      Option.pure_def, Option.map_eq_map, if_true, if_false, Option.bind_some, reduceIte,
      bind_pure_comp, pure_bind]
    · obtain ⟨hpa, hpo, pn, hpn⟩ := hpv _ rfl
      have hpa' := hpa.symm
      have hpo' := hpo.symm
      simp only [listInsertNode, zmalloc, newNode, writeNode, writeList, getList, getNode,
      setNode, setList, linkNext, linkPrev, *,
      Option.bind_eq_bind, Option.some_bind, Option.map_some',
      Function.update_same, Function.update_idem, Function.update_apply, ite_true, ite_false,
      ne_eq, not_true_eq_false, not_false_eq_true, reduceCtorEq, Option.some.injEq,
      Option.pure_def, Option.map_eq_map, if_true, if_false, Option.bind_some, reduceIte,
      bind_pure_comp, pure_bind]
  · rcases pv with _ | p
    · simp only [listInsertNode, zmalloc, newNode, writeNode, writeList, getList, getNode,
      setNode, setList, linkNext, linkPrev, *,
      Option.bind_eq_bind, Option.some_bind, Option.map_some',
      Function.update_same, Function.update_idem, Function.update_apply, ite_true, ite_false,
      ne_eq, not_true_eq_false, not_false_eq_true, reduceCtorEq, Option.some.injEq,
      Option.pure_def, Option.map_eq_map, if_true, if_false, Option.bind_some, reduceIte,
      bind_pure_comp, pure_bind]
    · obtain ⟨hpa, hpo, pn, hpn⟩ := hpv _ rfl
      have hpa' := hpa.symm
      have hpo' := hpo.symm
      simp only [listInsertNode, zmalloc, newNode, writeNode, writeList, getList, getNode,
      setNode, setList, linkNext, linkPrev, *,
      Option.bind_eq_bind, Option.some_bind, Option.map_some',
      Function.update_same, Function.update_idem, Function.update_apply, ite_true, ite_false,
      ne_eq, not_true_eq_false, not_false_eq_true, reduceCtorEq, Option.some.injEq,
      Option.pure_def, Option.map_eq_map, if_true, if_false, Option.bind_some, reduceIte,
      bind_pure_comp, pure_bind]


theorem lastOr_tail_ne {o : Addr × Ptr} {B : List (Addr × Ptr)} (hoB : o.1 ∉ B.map Prod.fst)
    (hB : B ≠ []) : lastOr B (some o.1) ≠ some o.1 := by
  cases B with
  | nil => exact absurd rfl hB
  | cons b B' =>
    obtain ⟨y, hy, he⟩ := lastOr_ne_of_cons b B' (some o.1)
    rw [he]
    intro h
    exact hoB ((Option.some.inj h) ▸ List.mem_map_of_mem _ hy)

theorem hdOr_head_ne {o : Addr × Ptr} {A : List (Addr × Ptr)} (hoA : o.1 ∉ A.map Prod.fst)
    (hA : A ≠ []) : hdOr A (some o.1) ≠ some o.1 := by
  cases A with
  | nil => exact absurd rfl hA
  | cons x t =>
    intro h
    exact hoA (by rw [hdOr_cons] at h; simp [Option.some.inj h])

/-- Inserting a node after a node of a well-formed list. -/
theorem listInsertNode_after_ok {w : World} {lp : Addr} {A B : List (Addr × Ptr)}
    {o : Addr × Ptr} (hwf : WF w lp (A ++ o :: B))
    {a : Addr} {rest : List Ptr} (hal : w.allocs = some a :: rest) (hfr : w.nodes a = none)
    (v : Ptr) {after : Int} (haft : after ≠ 0) :
    ∃ w' l, listInsertNode w (some lp) (some o.1) v after = some (some lp, w')
      ∧ w.lists lp = some l
      ∧ w'.lists lp = some { l with
          tail := if l.tail = some o.1 then some a else l.tail, len := l.len + 1 }
      ∧ WF w' lp (A ++ o :: (a, v) :: B)
      ∧ Frame w w' lp (a :: (A ++ o :: B).map Prod.fst) ∧ w'.allocs = rest
      ∧ w'.calls = w.calls := by
  obtain ⟨l, hl, hh, ht, hn⟩ := hwf.hdr
  have hlt := hwf.length_succ_lt hfr
  have hnot := dlseg_ne_of_none hwf.seg hfr
  obtain ⟨hsA, ho, hsB⟩ := dlseg_split hwf.seg
  obtain ⟨hoA, hoB, hdA, hdB, hBA, -⟩ := nodup_split hwf.nodup
  have hoa : o.1 ≠ a := by intro h; rw [h, hfr] at ho; cases ho
  have haA : a ∉ A.map Prod.fst := fun h => hnot (by simp [h])
  have haB : a ∉ B.map Prod.fst := fun h => hnot (by simp [h])
  rw [← hn] at hlt
  have hBq : ∀ q, hdOr B NULL = some q → q ≠ a ∧ q ≠ o.1 ∧ ∃ n, w.nodes q = some n := by
    intro q hq
    have hm := hdOr_mem_or B q hq
    refine ⟨fun h => haB (h ▸ hm), fun h => hoB (h ▸ hm), ?_⟩
    obtain ⟨x, hx, rfl⟩ := List.mem_map.1 hm
    obtain ⟨n, hn, -⟩ := dlseg_node hsB hx
    exact ⟨n, hn⟩
  have hlen : (l.len + 1) % ULONG_MOD = l.len + 1 := Nat.mod_eq_of_lt hlt
  refine ⟨_, l, listInsertNode_after_eval haft hal hl ho hoa hBq, hl, ?_, ?_, ?_, rfl, rfl⟩
  · simp [hlen]
  · refine WF.intro (Function.update_same _ _ _) ?_ ?_ ?_ ?_ ?_
    · show l.head = _
      rw [hh, hdOr_append, hdOr_append]; rfl
    · show (if l.tail = some o.1 then some a else l.tail) = _
      rw [ht, lastOr_append, lastOr_append, lastOr_cons, lastOr_cons, lastOr_cons]
      cases B with
      | nil => simp
      | cons b B' => rw [if_neg (lastOr_tail_ne hoB (by simp))]; rfl
    · show (l.len + 1) % ULONG_MOD = _
      rw [hlen, hn]; simp only [List.length_append, List.length_cons]; omega
    · show dlseg (linkPrev (Function.update (Function.update w.nodes a _) o.1 _) _ _) _ _ _
      rw [dlseg_append, dlseg_cons, dlseg_cons]
      refine ⟨?_, ?_, ?_, ?_⟩
      · rw [dlseg_linkPrev_notin (fun q hq => hBA q (hdOr_mem_or B q hq)),
          dlseg_update_notin hoA, dlseg_update_notin haA]
        exact hsA
      · rw [linkPrev_of_ne (fun h => hoB (hdOr_mem_or B _ h)), Function.update_same]; rfl
      · rw [linkPrev_of_ne (fun h => haB (hdOr_mem_or B _ h)),
          Function.update_noteq hoa.symm, Function.update_same]
      · refine @dlseg_linkPrev_first _ (some o.1) _ _ ?_ hdB _
        rw [dlseg_update_notin hoB, dlseg_update_notin haB]
        exact hsB
    · have := hwf.nodup
      simp only [List.map_append, List.map_cons, List.nodup_append, List.nodup_cons,
        List.mem_cons, not_or] at this ⊢
      obtain ⟨h1, ⟨h2, h3⟩, h5⟩ := this
      refine ⟨h1, ⟨⟨hoa, h2⟩, haB, h3⟩, ?_⟩
      intro b hb hb'
      rcases List.mem_cons.1 hb' with h | hb'
      · exact hoA (h ▸ hb)
      · rcases List.mem_cons.1 hb' with h | hb'
        · exact haA (h ▸ hb)
        · exact h5 hb (List.mem_cons_of_mem _ hb')
  · refine ⟨?_, ?_, ?_, rfl, rfl, rfl⟩
    · intro q hq; simp [Function.update_apply, hq]
    · simp [hl]
    · intro b hb
      rw [List.mem_cons, List.map_append, List.mem_append, List.map_cons, List.mem_cons] at hb
      have h1 : b ≠ a := fun h => hb (Or.inl h)
      have h2 : b ≠ o.1 := fun h => hb (Or.inr (Or.inr (Or.inl h)))
      have h3 : hdOr B NULL ≠ some b := fun h => hb (Or.inr (Or.inr (Or.inr (hdOr_mem_or B b h))))
      show linkPrev _ _ _ _ = _
      rw [linkPrev_of_ne h3, Function.update_noteq h2, Function.update_noteq h1]

/-- Inserting a node before a node of a well-formed list. -/
theorem listInsertNode_before_ok {w : World} {lp : Addr} {A B : List (Addr × Ptr)}
    {o : Addr × Ptr} (hwf : WF w lp (A ++ o :: B))
    {a : Addr} {rest : List Ptr} (hal : w.allocs = some a :: rest) (hfr : w.nodes a = none)
    (v : Ptr) :
    ∃ w' l, listInsertNode w (some lp) (some o.1) v 0 = some (some lp, w')
      ∧ w.lists lp = some l
      ∧ w'.lists lp = some { l with
          head := if l.head = some o.1 then some a else l.head, len := l.len + 1 }
      ∧ WF w' lp (A ++ (a, v) :: o :: B)
      ∧ Frame w w' lp (a :: (A ++ o :: B).map Prod.fst) ∧ w'.allocs = rest
      ∧ w'.calls = w.calls := by
  obtain ⟨l, hl, hh, ht, hn⟩ := hwf.hdr
  have hlt := hwf.length_succ_lt hfr
  have hnot := dlseg_ne_of_none hwf.seg hfr
  obtain ⟨hsA, ho, hsB⟩ := dlseg_split hwf.seg
  obtain ⟨hoA, hoB, hdA, hdB, hBA, -⟩ := nodup_split hwf.nodup
  have hoa : o.1 ≠ a := by intro h; rw [h, hfr] at ho; cases ho
  have haA : a ∉ A.map Prod.fst := fun h => hnot (by simp [h])
  have haB : a ∉ B.map Prod.fst := fun h => hnot (by simp [h])
  rw [← hn] at hlt
  have hAp : ∀ p, lastOr A NULL = some p → p ≠ a ∧ p ≠ o.1 ∧ ∃ n, w.nodes p = some n := by
    intro p hp
    have hm := lastOr_mem_or A p hp
    refine ⟨fun h => haA (h ▸ hm), fun h => hoA (h ▸ hm), ?_⟩
    obtain ⟨x, hx, rfl⟩ := List.mem_map.1 hm
    obtain ⟨n, hn, -⟩ := dlseg_node hsA hx
    exact ⟨n, hn⟩
  have hlen : (l.len + 1) % ULONG_MOD = l.len + 1 := Nat.mod_eq_of_lt hlt
  refine ⟨_, l, listInsertNode_before_eval hal hl ho hoa hAp, hl, ?_, ?_, ?_, rfl, rfl⟩
  · simp [hlen]
  · refine WF.intro (Function.update_same _ _ _) ?_ ?_ ?_ ?_ ?_
    · show (if l.head = some o.1 then some a else l.head) = _
      rw [hh, hdOr_append, hdOr_append, hdOr_cons, hdOr_cons]
      cases A with
      | nil => simp
      | cons x t => rw [if_neg (hdOr_head_ne hoA (by simp))]; rfl
    · show l.tail = _
      rw [ht, lastOr_append, lastOr_append]; rfl
    · show (l.len + 1) % ULONG_MOD = _
      rw [hlen, hn]; simp only [List.length_append, List.length_cons]; omega
    · show dlseg (Function.update (linkNext (Function.update w.nodes a _) _ _) o.1 _) _ _ _
      rw [dlseg_append, dlseg_cons, dlseg_cons]
      refine ⟨?_, ?_, ?_, ?_⟩
      · rw [dlseg_update_notin hoA]
        refine @dlseg_linkNext_last _ _ (some o.1) _ ?_ hdA _
        rw [dlseg_update_notin haA]
        exact hsA
      · rw [Function.update_noteq hoa.symm, linkNext_of_ne (fun h => haA (lastOr_mem_or A _ h)),
          Function.update_same]; rfl
      · rw [Function.update_same]
      · rw [dlseg_update_notin hoB,
          dlseg_linkNext_notin (fun p hp hpB => hBA p hpB (lastOr_mem_or A p hp)),
          dlseg_update_notin haB]
        exact hsB
    · have := hwf.nodup
      simp only [List.map_append, List.map_cons, List.nodup_append, List.nodup_cons,
        List.mem_cons, not_or] at this ⊢
      obtain ⟨h1, ⟨h2, h3⟩, h5⟩ := this
      refine ⟨h1, ⟨⟨hoa.symm, haB⟩, h2, h3⟩, ?_⟩
      intro b hb hb'
      rcases List.mem_cons.1 hb' with h | hb'
      · exact haA (h ▸ hb)
      · rcases List.mem_cons.1 hb' with h | hb'
        · exact hoA (h ▸ hb)
        · exact h5 hb (List.mem_cons_of_mem _ hb')
  · refine ⟨?_, ?_, ?_, rfl, rfl, rfl⟩
    · intro q hq; simp [Function.update_apply, hq]
    · simp [hl]
    · intro b hb
      rw [List.mem_cons, List.map_append, List.mem_append, List.map_cons, List.mem_cons] at hb
      have h1 : b ≠ a := fun h => hb (Or.inl h)
      have h2 : b ≠ o.1 := fun h => hb (Or.inr (Or.inr (Or.inl h)))
      have h3 : lastOr A NULL ≠ some b := fun h => hb (Or.inr (Or.inl (lastOr_mem_or A b h)))
      show Function.update _ _ _ _ = _
      rw [Function.update_noteq h2, linkNext_of_ne h3, Function.update_noteq h1]


/-- The run of `listCreate` when the allocation succeeds. -/
theorem listCreate_eval {w : World} {a : Addr} {rest : List Ptr}
    (hal : w.allocs = some a :: rest) :
    listCreate w = some (some a,
      { w with
        lists := Function.update w.lists a (some ⟨NULL, NULL, NULL, NULL, NULL, 0⟩)
        allocs := rest }) := by
  simp only [listCreate, zmalloc, newNode, newList, newIter, writeNode, writeList, writeIter,
      getList, getNode, getIter, setNode, setList, setIter, linkNext, linkPrev, listLength, *,
      Option.bind_eq_bind, Option.some_bind, Option.map_some',
      Function.update_same, Function.update_idem, Function.update_apply, ite_true, ite_false,
      ne_eq, not_true_eq_false, not_false_eq_true, reduceCtorEq, Option.some.injEq,
      Option.pure_def, Option.map_eq_map, if_true, if_false, Option.bind_some, reduceIte,
      bind_pure_comp, pure_bind]

set_option maxHeartbeats 1000000 in
/-- The run of `listRotate` on a list of two nodes or more. -/
theorem listRotate_eval {w : World} {lp h t p : Addr} {l : list} {tnx tv : Ptr}
    {pn hn : listNode}
    (hl : w.lists lp = some l) (hlen : ¬ l.len ≤ 1) (hh : l.head = some h) (ht : l.tail = some t)
    (hnt : w.nodes t = some ⟨some p, tnx, tv⟩) (hnp : w.nodes p = some pn)
    (hnh : w.nodes h = some hn) (hpt : p ≠ t) (hht : h ≠ t) :
    listRotate w (some lp) = some
      { w with
        nodes := Function.update (linkPrev (linkNext w.nodes (some p) NULL) (some h) (some t)) t
          (some ⟨NULL, some h, tv⟩)
        lists := Function.update w.lists lp (some { l with head := some t, tail := some p }) } := by
  have hpt' := hpt.symm
  have hht' := hht.symm
  by_cases hph : p = h
  · subst hph
    simp only [listRotate, zmalloc, newNode, newList, newIter, writeNode, writeList, writeIter,
      getList, getNode, getIter, setNode, setList, setIter, linkNext, linkPrev, listLength, *,
      Option.bind_eq_bind, Option.some_bind, Option.map_some',
      Function.update_same, Function.update_idem, Function.update_apply, ite_true, ite_false,
      ne_eq, not_true_eq_false, not_false_eq_true, reduceCtorEq, Option.some.injEq,
      Option.pure_def, Option.map_eq_map, if_true, if_false, Option.bind_some, reduceIte,
      bind_pure_comp, pure_bind]
  · have hph' : ¬ h = p := fun h => hph h.symm
    simp only [listRotate, zmalloc, newNode, newList, newIter, writeNode, writeList, writeIter,
      getList, getNode, getIter, setNode, setList, setIter, linkNext, linkPrev, listLength, *,
      Option.bind_eq_bind, Option.some_bind, Option.map_some',
      Function.update_same, Function.update_idem, Function.update_apply, ite_true, ite_false,
      ne_eq, not_true_eq_false, not_false_eq_true, reduceCtorEq, Option.some.injEq,
      Option.pure_def, Option.map_eq_map, if_true, if_false, Option.bind_some, reduceIte,
      bind_pure_comp, pure_bind]

/-- The run of `listRotate` on a list of one node at most. -/
theorem listRotate_eval_short {w : World} {lp : Addr} {l : list}
    (hl : w.lists lp = some l) (hlen : l.len ≤ 1) :
    listRotate w (some lp) = some w := by
  simp only [listRotate, zmalloc, newNode, newList, newIter, writeNode, writeList, writeIter,
      getList, getNode, getIter, setNode, setList, setIter, linkNext, linkPrev, listLength, *,
      Option.bind_eq_bind, Option.some_bind, Option.map_some',
      Function.update_same, Function.update_idem, Function.update_apply, ite_true, ite_false,
      ne_eq, not_true_eq_false, not_false_eq_true, reduceCtorEq, Option.some.injEq,
      Option.pure_def, Option.map_eq_map, if_true, if_false, Option.bind_some, reduceIte,
      bind_pure_comp, pure_bind]

/-- The run of `listGetIterator` when the allocation succeeds. -/
theorem listGetIterator_eval {w : World} {lp it : Addr} {l : list} {rest : List Ptr}
    (hal : w.allocs = some it :: rest) (hl : w.lists lp = some l) (direction : Int) :
    listGetIterator w (some lp) direction = some (some it,
      { w with
        iters := Function.update w.iters it
          (some ⟨if direction = AL_START_HEAD then l.head else l.tail, direction⟩)
        allocs := rest }) := by
  by_cases hd : direction = AL_START_HEAD
  · simp only [listGetIterator, zmalloc, newNode, newList, newIter, writeNode, writeList, writeIter,
      getList, getNode, getIter, setNode, setList, setIter, linkNext, linkPrev, listLength, *,
      Option.bind_eq_bind, Option.some_bind, Option.map_some',
      Function.update_same, Function.update_idem, Function.update_apply, ite_true, ite_false,
      ne_eq, not_true_eq_false, not_false_eq_true, reduceCtorEq, Option.some.injEq,
      Option.pure_def, Option.map_eq_map, if_true, if_false, Option.bind_some, reduceIte,
      bind_pure_comp, pure_bind]
  · simp only [listGetIterator, zmalloc, newNode, newList, newIter, writeNode, writeList, writeIter,
      getList, getNode, getIter, setNode, setList, setIter, linkNext, linkPrev, listLength, *,
      Option.bind_eq_bind, Option.some_bind, Option.map_some',
      Function.update_same, Function.update_idem, Function.update_apply, ite_true, ite_false,
      ne_eq, not_true_eq_false, not_false_eq_true, reduceCtorEq, Option.some.injEq,
      Option.pure_def, Option.map_eq_map, if_true, if_false, Option.bind_some, reduceIte,
      bind_pure_comp, pure_bind]

/-- The run of `listRewind`. -/
theorem listRewind_eval {w : World} {lp it : Addr} {l : list} {i : listIter}
    (hl : w.lists lp = some l) (hi : w.iters it = some i) :
    listRewind w (some lp) (some it) = some
      { w with iters := Function.update w.iters it (some ⟨l.head, AL_START_HEAD⟩) } := by
  simp only [listRewind, zmalloc, newNode, newList, newIter, writeNode, writeList, writeIter,
      getList, getNode, getIter, setNode, setList, setIter, linkNext, linkPrev, listLength, *,
      Option.bind_eq_bind, Option.some_bind, Option.map_some',
      Function.update_same, Function.update_idem, Function.update_apply, ite_true, ite_false,
      ne_eq, not_true_eq_false, not_false_eq_true, reduceCtorEq, Option.some.injEq,
      Option.pure_def, Option.map_eq_map, if_true, if_false, Option.bind_some, reduceIte,
      bind_pure_comp, pure_bind]

/-- The run of `listRewindTail`. -/
theorem listRewindTail_eval {w : World} {lp it : Addr} {l : list} {i : listIter}
    (hl : w.lists lp = some l) (hi : w.iters it = some i) :
    listRewindTail w (some lp) (some it) = some
      { w with iters := Function.update w.iters it (some ⟨l.tail, AL_START_TAIL⟩) } := by
  simp only [listRewindTail, zmalloc, newNode, newList, newIter, writeNode, writeList, writeIter,
      getList, getNode, getIter, setNode, setList, setIter, linkNext, linkPrev, listLength, *,
      Option.bind_eq_bind, Option.some_bind, Option.map_some',
      Function.update_same, Function.update_idem, Function.update_apply, ite_true, ite_false,
      ne_eq, not_true_eq_false, not_false_eq_true, reduceCtorEq, Option.some.injEq,
      Option.pure_def, Option.map_eq_map, if_true, if_false, Option.bind_some, reduceIte,
      bind_pure_comp, pure_bind]

/-- The run of `listNext` on an exhausted iterator. -/
theorem listNext_eval_null {w : World} {it : Addr} {direction : Int}
    (hi : w.iters it = some ⟨NULL, direction⟩) :
    listNext w (some it) = some (NULL, w) := by
  simp only [listNext, zmalloc, newNode, newList, newIter, writeNode, writeList, writeIter,
      getList, getNode, getIter, setNode, setList, setIter, linkNext, linkPrev, listLength, *,
      Option.bind_eq_bind, Option.some_bind, Option.map_some',
      Function.update_same, Function.update_idem, Function.update_apply, ite_true, ite_false,
      ne_eq, not_true_eq_false, not_false_eq_true, reduceCtorEq, Option.some.injEq,
      Option.pure_def, Option.map_eq_map, if_true, if_false, Option.bind_some, reduceIte,
      bind_pure_comp, pure_bind]

/-- The run of `listNext` on an iterator positioned at the live node `c`. -/
theorem listNext_eval_node {w : World} {it c : Addr} {direction : Int} {n : listNode}
    (hi : w.iters it = some ⟨some c, direction⟩) (hc : w.nodes c = some n) :
    listNext w (some it) = some (some c,
      { w with
        iters := Function.update w.iters it
          (some ⟨if direction = AL_START_HEAD then n.next else n.prev, direction⟩) }) := by
  by_cases hd : direction = AL_START_HEAD
  · simp only [listNext, zmalloc, newNode, newList, newIter, writeNode, writeList, writeIter,
      getList, getNode, getIter, setNode, setList, setIter, linkNext, linkPrev, listLength, *,
      Option.bind_eq_bind, Option.some_bind, Option.map_some',
      Function.update_same, Function.update_idem, Function.update_apply, ite_true, ite_false,
      ne_eq, not_true_eq_false, not_false_eq_true, reduceCtorEq, Option.some.injEq,
      Option.pure_def, Option.map_eq_map, if_true, if_false, Option.bind_some, reduceIte,
      bind_pure_comp, pure_bind]
  · simp only [listNext, zmalloc, newNode, newList, newIter, writeNode, writeList, writeIter,
      getList, getNode, getIter, setNode, setList, setIter, linkNext, linkPrev, listLength, *,
      Option.bind_eq_bind, Option.some_bind, Option.map_some',
      Function.update_same, Function.update_idem, Function.update_apply, ite_true, ite_false,
      ne_eq, not_true_eq_false, not_false_eq_true, reduceCtorEq, Option.some.injEq,
      Option.pure_def, Option.map_eq_map, if_true, if_false, Option.bind_some, reduceIte,
      bind_pure_comp, pure_bind]


/-- The list made by `listCreate` is well formed and empty. -/
theorem listCreate_ok {w : World} {a : Addr} {rest : List Ptr}
    (hal : w.allocs = some a :: rest) :
    ∃ w', listCreate w = some (some a, w') ∧ WF w' a []
      ∧ w'.lists a = some ⟨NULL, NULL, NULL, NULL, NULL, 0⟩
      ∧ (∀ q, q ≠ a → w'.lists q = w.lists q) ∧ w'.nodes = w.nodes ∧ w'.iters = w.iters
      ∧ w'.allocs = rest ∧ w'.calls = w.calls ∧ w'.dupCode = w.dupCode
      ∧ w'.matchCode = w.matchCode := by
  refine ⟨_, listCreate_eval hal, ?_, Function.update_same _ _ _, ?_, rfl, rfl, rfl, rfl, rfl, rfl⟩
  · exact WF.intro (Function.update_same _ _ _) rfl rfl rfl trivial List.nodup_nil
  · intro q hq; exact Function.update_noteq hq _ _

/-- Rotating a well-formed list of two nodes or more: the tail node becomes
the head. -/
theorem listRotate_ok {w : World} {lp : Addr} {X : List (Addr × Ptr)} {t : Addr × Ptr}
    (hwf : WF w lp (X ++ [t])) (hX : X ≠ []) :
    ∃ w' l, listRotate w (some lp) = some w' ∧ w.lists lp = some l
      ∧ w'.lists lp = some { l with head := some t.1, tail := lastOr X NULL }
      ∧ WF w' lp (t :: X)
      ∧ Frame w w' lp ((X ++ [t]).map Prod.fst) ∧ w'.allocs = w.allocs
      ∧ w'.calls = w.calls := by
  obtain ⟨l, hl, hh, ht, hn⟩ := hwf.hdr
  obtain ⟨hsX, hnt, -⟩ := dlseg_split hwf.seg
  obtain ⟨htX, -, hdX, -, -, -⟩ := nodup_split hwf.nodup
  obtain ⟨x, X', rfl⟩ := List.exists_cons_of_ne_nil hX
  obtain ⟨y, hy, hlast⟩ := lastOr_ne_of_cons x X' NULL
  have hym : y.1 ∈ (x :: X').map Prod.fst := List.mem_map_of_mem _ hy
  obtain ⟨pn, hpn, -⟩ := dlseg_node hsX hy
  have hxn : w.nodes x.1 = some ⟨NULL, hdOr X' (some t.1), x.2⟩ := hsX.1
  have hpt : y.1 ≠ t.1 := fun h => htX (h ▸ hym)
  have hht : x.1 ≠ t.1 := fun h => htX (by simp [← h])
  have hlen : ¬ l.len ≤ 1 := by rw [hn]; simp
  rw [hlast] at hnt
  have ht' : l.tail = some t.1 := by rw [ht, lastOr_append]; rfl
  have hh' : l.head = some x.1 := by rw [hh]; rfl
  refine ⟨_, l, listRotate_eval hl hlen hh' ht' hnt hpn hxn hpt hht, hl, ?_, ?_, ?_, rfl, rfl⟩
  · simp [hlast]
  · refine WF.intro (Function.update_same _ _ _) rfl ?_ ?_ ?_ ?_
    · show some y.1 = _
      rw [← hlast]; rfl
    · show l.len = _
      rw [hn]; simp
    · show dlseg (Function.update (linkPrev (linkNext w.nodes _ _) _ _) t.1 _) _ _ _
      rw [dlseg_cons]
      refine ⟨by rw [Function.update_same]; rfl, ?_⟩
      rw [dlseg_update_notin htX]
      have h1 := dlseg_linkNext_last hsX hdX NULL
      rw [hlast] at h1
      exact dlseg_linkPrev_first h1 hdX (some t.1)
    · have := hwf.nodup
      rw [List.map_append, List.nodup_append] at this
      rw [List.map_cons, List.nodup_cons]
      exact ⟨htX, this.1⟩
  · refine ⟨?_, ?_, ?_, rfl, rfl, rfl⟩
    · intro q hq; simp [Function.update_apply, hq]
    · simp [hl]
    · intro b hb
      rw [List.map_append, List.mem_append] at hb
      have h1 : b ≠ t.1 := fun h => hb (Or.inr (by simp [h]))
      have h2 : (some x.1 : Ptr) ≠ some b := fun h => hb (Or.inl (by simp [← Option.some.inj h]))
      have h3 : (some y.1 : Ptr) ≠ some b := fun h => hb (Or.inl ((Option.some.inj h) ▸ hym))
      show Function.update _ _ _ _ = _
      rw [Function.update_noteq h1, linkPrev_of_ne h2, linkNext_of_ne h3]


/-! ## Walks and iteration -/

theorem WF_congr {w w' : World} {lp : Addr} {xs : List (Addr × Ptr)}
    (hl : w'.lists lp = w.lists lp) (hn : w'.nodes = w.nodes) (h : WF w lp xs) : WF w' lp xs := by
  unfold WF at h ⊢
  rw [hl, hn]; exact h

theorem walkNext_seg {w : World} {pv : Ptr} {xs : List (Addr × Ptr)}
    (hs : dlseg w.nodes pv xs NULL) {fuel : Nat} (hf : xs.length ≤ fuel) :
    walkNext w fuel (hdOr xs NULL) = some (xs.map Prod.fst) := by
  induction xs generalizing pv fuel with
  | nil => cases fuel <;> rfl
  | cons x t ih =>
    cases fuel with
    | zero => simp at hf
    | succ fuel =>
      rw [dlseg_cons] at hs
      have := ih hs.2 (Nat.le_of_succ_le_succ hf)
      simp [walkNext, hs.1, this]

theorem walkPrev_seg {w : World} {nx : Ptr} {xs : List (Addr × Ptr)}
    (hs : dlseg w.nodes NULL xs nx) {fuel : Nat} (hf : xs.length ≤ fuel) :
    walkPrev w fuel (lastOr xs NULL) = some (xs.reverse.map Prod.fst) := by
  induction xs using List.reverseRecOn generalizing nx fuel with
  | nil => cases fuel <;> rfl
  | append_singleton t x ih =>
    cases fuel with
    | zero => simp at hf
    | succ fuel =>
      obtain ⟨h1, h2, -⟩ := dlseg_split hs
      have := ih h1 (by simpa using hf)
      simp [walkPrev, lastOr_append, h2, this]

theorem take_append_replicate {α : Type} (l : List α) (x : α) {n m : Nat} (h : n ≤ m) :
    (l ++ List.replicate m x).take n = (l ++ List.replicate n x).take n := by
  induction l generalizing n m with
  | nil => simp [List.take_replicate, Nat.min_eq_left h]
  | cons a l ih =>
    cases n with
    | zero => rfl
    | succ n =>
      simp only [List.cons_append, List.take_succ_cons, List.cons.injEq, true_and]
      rw [ih (Nat.le_of_succ_le h), ih (Nat.le_succ n)]

/-- Forward iteration over the rest of a chain: `n` calls of `listNext` yield
its nodes in order, then NULL. -/
theorem listNext_times_forward {w : World} {it : Addr} {pv : Ptr} {xs : List (Addr × Ptr)}
    (hs : dlseg w.nodes pv xs NULL) (hi : w.iters it = some ⟨hdOr xs NULL, AL_START_HEAD⟩)
    (n : Nat) :
    ∃ w', listNext_times (some it) n w
        = some ((xs.map (fun x => some x.1) ++ List.replicate n NULL).take n, w')
      ∧ w'.nodes = w.nodes ∧ w'.lists = w.lists ∧ w'.calls = w.calls
      ∧ w'.allocs = w.allocs ∧ ∀ j, j ≠ it → w'.iters j = w.iters j := by
  induction n generalizing w pv xs with
  | zero => exact ⟨w, rfl, rfl, rfl, rfl, rfl, fun _ _ => rfl⟩
  | succ n ih =>
    cases xs with
    | nil =>
      obtain ⟨w', h1, h2⟩ := @ih w pv [] trivial hi
      refine ⟨w', ?_, h2⟩
      simp only [listNext_times, listNext_eval_null hi, Option.bind_eq_bind, Option.some_bind, h1]
      simp [List.replicate_succ]
    | cons x t =>
      rw [dlseg_cons] at hs
      have hstep := listNext_eval_node hi hs.1
      simp only [if_true] at hstep
      obtain ⟨w', h1, h2, h3, h4, h5, h6⟩ := @ih { w with
        iters := Function.update w.iters it (some ⟨hdOr t NULL, AL_START_HEAD⟩) }
        (some x.1) t hs.2 (Function.update_same _ _ _)
      refine ⟨w', ?_, h2, h3, h4, h5, ?_⟩
      · simp only [listNext_times, hstep, Option.bind_eq_bind, Option.some_bind, h1]
        simp [take_append_replicate _ _ (Nat.le_succ n)]
      · intro j hj; rw [h6 j hj]; exact Function.update_noteq hj _ _

/-- Backward iteration over the rest of a chain. -/
theorem listNext_times_backward {w : World} {it : Addr} {nx : Ptr} {xs : List (Addr × Ptr)}
    {d : Int} (hd : d ≠ AL_START_HEAD)
    (hs : dlseg w.nodes NULL xs nx) (hi : w.iters it = some ⟨lastOr xs NULL, d⟩)
    (n : Nat) :
    ∃ w', listNext_times (some it) n w
        = some ((xs.reverse.map (fun x => some x.1) ++ List.replicate n NULL).take n, w')
      ∧ w'.nodes = w.nodes ∧ w'.lists = w.lists ∧ w'.calls = w.calls
      ∧ w'.allocs = w.allocs ∧ ∀ j, j ≠ it → w'.iters j = w.iters j := by
  induction n generalizing w nx xs with
  | zero => exact ⟨w, rfl, rfl, rfl, rfl, rfl, fun _ _ => rfl⟩
  | succ n ih =>
    rcases List.eq_nil_or_concat xs with rfl | ⟨t, x, rfl⟩
    · obtain ⟨w', h1, h2⟩ := @ih w nx [] trivial hi
      refine ⟨w', ?_, h2⟩
      simp only [listNext_times, listNext_eval_null hi, Option.bind_eq_bind, Option.some_bind, h1]
      simp [List.replicate_succ]
    · rw [List.concat_eq_append] at hs hi ⊢
      obtain ⟨hs1, hx, -⟩ := dlseg_split hs
      rw [lastOr_append] at hi
      have hstep := listNext_eval_node hi hx
      simp only [if_neg hd] at hstep
      obtain ⟨w', h1, h2, h3, h4, h5, h6⟩ := @ih { w with
        iters := Function.update w.iters it (some ⟨lastOr t NULL, d⟩) }
        (some x.1) t hs1 (Function.update_same _ _ _)
      refine ⟨w', ?_, h2, h3, h4, h5, ?_⟩
      · simp only [listNext_times, hstep, Option.bind_eq_bind, Option.some_bind, h1]
        simp [take_append_replicate _ _ (Nat.le_succ n)]
      · intro j hj; rw [h6 j hj]; exact Function.update_noteq hj _ _


/-! ## Deleting during a traversal -/

/-- Forward traversal deleting chosen nodes: `K` are the nodes already passed
and kept, `S` those still to come. -/
theorem traverseDel_forward {lp it : Addr} {del : Addr → Bool} {S : List (Addr × Ptr)} :
    ∀ {w : World} {K : List (Addr × Ptr)} {fuel : Nat}, WF w lp (K ++ S) →
      w.iters it = some ⟨hdOr S NULL, AL_START_HEAD⟩ → S.length < fuel →
      ∃ w', traverseDel (some lp) (some it) del fuel w = some (S.map Prod.fst, w')
        ∧ WF w' lp (K ++ S.filter (fun x => !del x.1))
        ∧ (∀ b, b ∉ (K ++ S).map Prod.fst → w'.nodes b = w.nodes b)
        ∧ (∀ x ∈ S, del x.1 = true → w'.nodes x.1 = none) := by
  induction S with
  | nil =>
    intro w K fuel hwf hi hf
    obtain ⟨fuel, rfl⟩ : ∃ f, fuel = f + 1 := ⟨fuel - 1, by omega⟩
    refine ⟨w, ?_, by simpa using hwf, fun _ _ => rfl, by simp⟩
    simp only [traverseDel, listNext_eval_null hi, Option.bind_eq_bind, Option.some_bind,
      Option.pure_def, List.map_nil]
  | cons x S' ih =>
    intro w K fuel hwf hi hf
    obtain ⟨fuel, rfl⟩ : ∃ f, fuel = f + 1 := ⟨fuel - 1, by omega⟩
    obtain ⟨-, hx, -⟩ := dlseg_split hwf.seg
    have hstep := listNext_eval_node hi hx
    simp only [if_true] at hstep
    have hwf1 : WF { w with
        iters := Function.update w.iters it (some ⟨hdOr S' NULL, AL_START_HEAD⟩) } lp
        (K ++ x :: S') := WF_congr rfl rfl hwf
    have hf' : S'.length < fuel := by simpa using hf
    by_cases hdx : del x.1 = true
    · obtain ⟨w2, l, hdel, -, hwf2, hnone, hframe, -, -⟩ := listDelNode_ok hwf1
      have hi2 : w2.iters it = some ⟨hdOr S' NULL, AL_START_HEAD⟩ := by
        rw [hframe.iters]; exact Function.update_same _ _ _
      obtain ⟨w', hrun, hwf', hfr', hdel'⟩ := ih hwf2 hi2 hf'
      have hxn : x.1 ∉ (K ++ S').map Prod.fst := by
        have := nodup_split hwf.nodup
        rw [List.map_append, List.mem_append]
        exact fun h => h.elim this.1 this.2.1
      refine ⟨w', ?_, ?_, ?_, ?_⟩
      · simp only [traverseDel, hstep, Option.bind_eq_bind, Option.some_bind, hdx, if_true,
          hdel, hrun, Option.pure_def, List.map_cons]
      · simpa [List.filter_cons, hdx] using hwf'
      · intro b hb
        have hb' : b ∉ (K ++ S').map Prod.fst := by
          intro h; apply hb
          rw [List.map_append, List.mem_append] at h ⊢
          exact h.imp id (fun h => by simp [h])
        rw [hfr' b hb', hframe.nodes b hb]
      · intro y hy hdy
        rcases List.mem_cons.1 hy with rfl | hy
        · rw [hfr' _ hxn, hnone]
        · exact hdel' y hy hdy
    · have hwf1' : WF { w with
          iters := Function.update w.iters it (some ⟨hdOr S' NULL, AL_START_HEAD⟩) } lp
          ((K ++ [x]) ++ S') := by simpa using hwf1
      obtain ⟨w', hrun, hwf', hfr', hdel'⟩ := ih hwf1' (Function.update_same _ _ _) hf'
      refine ⟨w', ?_, ?_, ?_, ?_⟩
      · simp only [traverseDel, hstep, Option.bind_eq_bind, Option.some_bind, hdx,
          Bool.false_eq_true, if_false, hrun, Option.pure_def, List.map_cons]
      · simpa [List.filter_cons, hdx] using hwf'
      · intro b hb
        exact hfr' b (by simpa using hb)
      · intro y hy hdy
        rcases List.mem_cons.1 hy with rfl | hy
        · exact absurd hdy hdx
        · exact hdel' y hy hdy

/-- Backward traversal deleting chosen nodes: `P` are the nodes still to come,
`K` those already passed and kept. -/
theorem traverseDel_backward {lp it : Addr} {del : Addr → Bool} {d : Int}
    (hd : d ≠ AL_START_HEAD) {P : List (Addr × Ptr)} :
    ∀ {w : World} {K : List (Addr × Ptr)} {fuel : Nat}, WF w lp (P ++ K) →
      w.iters it = some ⟨lastOr P NULL, d⟩ → P.length < fuel →
      ∃ w', traverseDel (some lp) (some it) del fuel w = some (P.reverse.map Prod.fst, w')
        ∧ WF w' lp (P.filter (fun x => !del x.1) ++ K)
        ∧ (∀ b, b ∉ (P ++ K).map Prod.fst → w'.nodes b = w.nodes b)
        ∧ (∀ x ∈ P, del x.1 = true → w'.nodes x.1 = none) := by
  induction P using List.reverseRecOn with
  | nil =>
    intro w K fuel hwf hi hf
    obtain ⟨fuel, rfl⟩ : ∃ f, fuel = f + 1 := ⟨fuel - 1, by omega⟩
    refine ⟨w, ?_, by simpa using hwf, fun _ _ => rfl, by simp⟩
    simp only [traverseDel, listNext_eval_null hi, Option.bind_eq_bind, Option.some_bind,
      Option.pure_def, List.reverse_nil, List.map_nil]
  | append_singleton P' x ih =>
    intro w K fuel hwf hi hf
    obtain ⟨fuel, rfl⟩ : ∃ f, fuel = f + 1 := ⟨fuel - 1, by omega⟩
    rw [List.append_assoc, List.singleton_append] at hwf
    obtain ⟨-, hx, -⟩ := dlseg_split hwf.seg
    rw [lastOr_append] at hi
    have hstep := listNext_eval_node hi hx
    simp only [if_neg hd] at hstep
    have hwf1 : WF { w with
        iters := Function.update w.iters it (some ⟨lastOr P' NULL, d⟩) } lp
        (P' ++ x :: K) := WF_congr rfl rfl hwf
    have hf' : P'.length < fuel := by simpa using hf
    by_cases hdx : del x.1 = true
    · obtain ⟨w2, l, hdel, -, hwf2, hnone, hframe, -, -⟩ := listDelNode_ok hwf1
      have hi2 : w2.iters it = some ⟨lastOr P' NULL, d⟩ := by
        rw [hframe.iters]; exact Function.update_same _ _ _
      obtain ⟨w', hrun, hwf', hfr', hdel'⟩ := ih hwf2 hi2 hf'
      have hxn : x.1 ∉ (P' ++ K).map Prod.fst := by
        have := nodup_split hwf.nodup
        rw [List.map_append, List.mem_append]
        exact fun h => h.elim this.1 this.2.1
      refine ⟨w', ?_, ?_, ?_, ?_⟩
      · simp only [traverseDel, hstep, Option.bind_eq_bind, Option.some_bind, hdx, if_true,
          hdel, hrun, Option.pure_def, List.reverse_append, List.reverse_cons, List.reverse_nil,
          List.nil_append, List.singleton_append, List.map_cons]
      · simpa [List.filter_append, List.filter_cons, hdx] using hwf'
      · intro b hb
        have hb' : b ∉ (P' ++ K).map Prod.fst := by
          intro h; apply hb
          simp only [List.map_append, List.mem_append, List.map_cons, List.map_nil,
            List.mem_singleton] at h ⊢
          exact h.imp Or.inl id
        have hb'' : b ∉ (P' ++ x :: K).map Prod.fst := by simpa using hb
        rw [hfr' b hb', hframe.nodes b hb'']
      · intro y hy hdy
        rcases List.mem_append.1 hy with hy | hy
        · exact hdel' y hy hdy
        · rw [List.mem_singleton.1 hy, hfr' _ hxn, hnone]
    · obtain ⟨w', hrun, hwf', hfr', hdel'⟩ := ih hwf1 (Function.update_same _ _ _) hf'
      refine ⟨w', ?_, ?_, ?_, ?_⟩
      · simp only [traverseDel, hstep, Option.bind_eq_bind, Option.some_bind, hdx,
          Bool.false_eq_true, if_false, hrun, Option.pure_def, List.reverse_append,
          List.reverse_cons, List.reverse_nil, List.nil_append, List.singleton_append,
          List.map_cons]
      · simpa [List.filter_append, List.filter_cons, hdx] using hwf'
      · intro b hb
        exact hfr' b (by simpa using hb)
      · intro y hy hdy
        rcases List.mem_append.1 hy with hy | hy
        · exact hdel' y hy hdy
        · rw [List.mem_singleton.1 hy] at hdy; exact absurd hdy hdx


/-! ## Duplication -/

theorem WF_frame {w w' : World} {lp : Addr} {xs : List (Addr × Ptr)}
    (hl : w'.lists lp = w.lists lp) (hn : ∀ x ∈ xs, w'.nodes x.1 = w.nodes x.1)
    (h : WF w lp xs) : WF w' lp xs := by
  unfold WF at h ⊢
  rw [hl]
  exact ⟨h.1, dlseg_frame hn h.2.1, h.2.2⟩

theorem listReleaseIterator_eval {w : World} {it : Addr} {i : listIter}
    (hi : w.iters it = some i) :
    listReleaseIterator w (some it) = some { w with iters := Function.update w.iters it none } := by
  simp only [listReleaseIterator, freeIter, hi, Option.map_some']

theorem hooks_of_eq {w : World} {cp : Addr} {c : list} {dp fr mt : Ptr}
    (hc : w.lists cp = some c)
    (hk : (w.lists cp).map (fun l => (l.dup, l.free, l.mtch)) = some (dp, fr, mt)) :
    c.dup = dp ∧ c.free = fr ∧ c.mtch = mt := by
  rw [hc] at hk
  simpa using hk

set_option maxHeartbeats 1000000 in
/-- The loop of `listDup` when every allocation and every value copy succeeds:
`D` are the nodes of the original already copied, `S` those still to copy, `C`
the copy built so far. -/
theorem listDup_loop_ok {lp cp it : Addr} {dp fr mt : Ptr} {S : List (Addr × Ptr)} :
    ∀ {w : World} {D C : List (Addr × Ptr)} {as : List Addr} {rest : List Ptr} {fuel : Nat},
      WF w lp (D ++ S) → WF w cp C → lp ≠ cp →
      (w.lists cp).map (fun l => (l.dup, l.free, l.mtch)) = some (dp, fr, mt) →
      w.iters it = some ⟨hdOr S NULL, AL_START_HEAD⟩ →
      w.allocs = as.map some ++ rest → as.length = S.length → as.Nodup →
      (∀ a ∈ as, w.nodes a = none) →
      (∀ x ∈ D ++ S, x.1 ∉ C.map Prod.fst) →
      (∀ fn, dp = some fn → ∀ x ∈ S, w.dupCode fn x.2 ≠ NULL) →
      S.length < fuel →
      ∃ w', listDup_loop (some cp) (some it) fuel w = some (some cp, w')
        ∧ WF w' cp (C ++ as.zip (S.map fun x => copyValue w dp x.2))
        ∧ (w'.lists cp).map (fun l => (l.dup, l.free, l.mtch)) = some (dp, fr, mt)
        ∧ WF w' lp (D ++ S) ∧ w'.lists lp = w.lists lp
        ∧ (∀ b, b ∉ as → b ∉ C.map Prod.fst → w'.nodes b = w.nodes b)
        ∧ w'.allocs = rest
        ∧ w'.calls = w.calls ++ dupCalls dp (S.map Prod.snd) := by
  induction S with
  | nil =>
    intro w D C as rest fuel hwf hwc hne hk hi hal hlen hnd hfr hdis hdup hf
    obtain ⟨fuel, rfl⟩ : ∃ f, fuel = f + 1 := ⟨fuel - 1, by omega⟩
    have has : as = [] := List.length_eq_zero.1 hlen
    subst has
    refine ⟨{ w with iters := Function.update w.iters it none }, ?_, ?_, hk,
      WF_congr rfl rfl hwf, rfl, fun _ _ _ => rfl, by simpa using hal, ?_⟩
    · simp only [listDup_loop, listNext_eval_null hi, listReleaseIterator_eval hi,
        Option.bind_eq_bind, Option.some_bind, if_true, Option.pure_def]
    · simpa using (WF_congr rfl rfl hwc : WF { w with
        iters := Function.update w.iters it none } cp C)
    · cases dp <;> simp [dupCalls]
  | cons x S' ih =>
    intro w D C as rest fuel hwf hwc hne hk hi hal hlen hnd hfr hdis hdup hf
    obtain ⟨fuel, rfl⟩ : ∃ f, fuel = f + 1 := ⟨fuel - 1, by omega⟩
    obtain ⟨a, as', rfl⟩ : ∃ a as', as = a :: as' := by
      cases as with
      | nil => simp at hlen
      | cons a as' => exact ⟨a, as', rfl⟩
    obtain ⟨-, hx, -⟩ := dlseg_split hwf.seg
    obtain ⟨c, hc, -, -, -⟩ := hwc.hdr
    obtain ⟨hcd, -, -⟩ := hooks_of_eq hc hk
    have hstep := listNext_eval_node hi hx
    simp only [if_true] at hstep
    have hf' : S'.length < fuel := by simpa using hf
    have hlen' : as'.length = S'.length := by simpa using hlen
    have hnd' := List.nodup_cons.1 hnd
    have hxD : x ∈ D ++ x :: S' := by simp
    -- the world after `listNext` and the call of the duplicate-value hook
    let w2 : World := { w with
      iters := Function.update w.iters it (some ⟨hdOr S' NULL, AL_START_HEAD⟩)
      calls := w.calls ++ dupCalls dp [x.2] }
    have hwc2 : WF w2 cp C := WF_congr rfl rfl hwc
    have hal2 : w2.allocs = some a :: (as'.map some ++ rest) := by simpa using hal
    have hfr2 : w2.nodes a = none := hfr a (List.mem_cons_self _ _)
    obtain ⟨w3, hadd, hwc3, hframe, hal3, hcalls3⟩ :=
      listAddNodeTail_ok hwc2 hal2 hfr2 (copyValue w dp x.2)
    have hnodes3 : ∀ y ∈ D ++ x :: S', w3.nodes y.1 = w.nodes y.1 := by
      intro y hy
      have hya : y.1 ≠ a := by
        intro h
        obtain ⟨n, hn, -⟩ := dlseg_node hwf.seg hy
        rw [h, hfr a (List.mem_cons_self _ _)] at hn; cases hn
      have : y.1 ∉ a :: C.map Prod.fst := by
        rw [List.mem_cons]; exact fun h => h.elim hya (hdis y hy)
      exact hframe.nodes _ this
    have hwf3 : WF w3 lp ((D ++ [x]) ++ S') := by
      rw [List.append_assoc, List.singleton_append]
      exact WF_frame (hframe.lists lp hne) hnodes3 hwf
    have hk3 : (w3.lists cp).map (fun l => (l.dup, l.free, l.mtch)) = some (dp, fr, mt) := by
      rw [hframe.hooks]; exact hk
    have hi3 : w3.iters it = some ⟨hdOr S' NULL, AL_START_HEAD⟩ := by
      rw [hframe.iters]; exact Function.update_same _ _ _
    have hfr3 : ∀ b ∈ as', w3.nodes b = none := by
      intro b hb
      have hba : b ≠ a := fun h => hnd'.1 (h ▸ hb)
      have hbC : b ∉ C.map Prod.fst := dlseg_ne_of_none hwc.seg (hfr b (List.mem_cons_of_mem _ hb))
      have : b ∉ a :: C.map Prod.fst := by
        rw [List.mem_cons]; exact fun h => h.elim hba hbC
      rw [hframe.nodes _ this]; exact hfr b (List.mem_cons_of_mem _ hb)
    have hdis3 : ∀ y ∈ (D ++ [x]) ++ S', y.1 ∉ (C ++ [(a, copyValue w dp x.2)]).map Prod.fst := by
      intro y hy
      have hy' : y ∈ D ++ x :: S' := by simpa using hy
      rw [List.map_append, List.mem_append]
      rintro (h | h)
      · exact hdis y hy' h
      · obtain ⟨n, hn, -⟩ := dlseg_node hwf.seg hy'
        simp only [List.map_cons, List.map_nil, List.mem_singleton] at h
        rw [h, hfr a (List.mem_cons_self _ _)] at hn; cases hn
    have hdup3 : ∀ fn, dp = some fn → ∀ y ∈ S', w3.dupCode fn y.2 ≠ NULL := by
      intro fn hfn y hy
      rw [hframe.dupCode]
      exact hdup fn hfn y (List.mem_cons_of_mem _ hy)
    obtain ⟨w', hrun, hwc', hk', hwf', hl', hn', hal', hcalls'⟩ :=
      ih hwf3 hwc3 hne hk3 hi3 hal3 hlen' hnd'.2 hfr3 hdis3 hdup3 hf'
    have hcv : ∀ v, copyValue w3 dp v = copyValue w dp v := by
      intro v; cases dp <;> simp [copyValue, hframe.dupCode]
    refine ⟨w', ?_, ?_, hk', ?_, ?_, ?_, hal', ?_⟩
    · rcases dp with _ | fn
      · have hadd' : listAddNodeTail { w with
            iters := Function.update w.iters it (some ⟨hdOr S' NULL, AL_START_HEAD⟩) }
            (some cp) x.2 = some (some cp, w3) := by
          have : w2 = { w with
            iters := Function.update w.iters it (some ⟨hdOr S' NULL, AL_START_HEAD⟩) } := by
            simp [w2, dupCalls]
          rw [← this]; exact hadd
        simp only [listDup_loop, hstep, Option.bind_eq_bind, Option.some_bind, reduceCtorEq,
          if_false, getList, hc, hcd, getNode, hx, hadd', hrun, Option.pure_def]
      · have hv : w.dupCode fn x.2 ≠ NULL := hdup fn rfl x (List.mem_cons_self _ _)
        have hadd' : listAddNodeTail { w with
            iters := Function.update w.iters it (some ⟨hdOr S' NULL, AL_START_HEAD⟩)
            calls := w.calls ++ [HookCall.dup fn x.2] }
            (some cp) (w.dupCode fn x.2) = some (some cp, w3) := hadd
        simp only [listDup_loop, hstep, Option.bind_eq_bind, Option.some_bind, reduceCtorEq,
          if_false, getList, hc, hcd, getNode, hx, callDup, hv, hadd', hrun, Option.pure_def]
    · simpa [hcv, List.append_assoc] using hwc'
    · simpa using hwf'
    · rw [hl', hframe.lists lp hne]
    · intro b hb1 hb2
      rw [List.mem_cons, not_or] at hb1
      have h1 : b ∉ (C ++ [(a, copyValue w dp x.2)]).map Prod.fst := by
        rw [List.map_append, List.mem_append]
        rintro (h | h)
        · exact hb2 h
        · simp only [List.map_cons, List.map_nil, List.mem_singleton] at h
          exact hb1.1 h
      have h2 : b ∉ a :: C.map Prod.fst := by
        rw [List.mem_cons]; exact fun h => h.elim hb1.1 hb2
      rw [hn' b hb1.2 h1, hframe.nodes b h2]
    · rw [hcalls', hcalls3]
      cases dp <;> simp [w2, dupCalls]

/-- The statements of `listDup` before its loop, when the two allocations
succeed. -/
theorem listDup_eval_start {w : World} {lp cp it : Addr} {l : list} {rest : List Ptr}
    (hal : w.allocs = some cp :: some it :: rest) (hl : w.lists lp = some l) (hne : lp ≠ cp)
    (fuel : Nat) :
    listDup fuel w (some lp) = listDup_loop (some cp) (some it) fuel
      { w with
        lists := Function.update w.lists cp (some ⟨NULL, NULL, l.dup, l.free, l.mtch, 0⟩)
        iters := Function.update w.iters it (some ⟨l.head, AL_START_HEAD⟩)
        allocs := rest } := by
  have h1 := listCreate_eval hal
  have h2 : listGetIterator { w with
      lists := Function.update w.lists cp (some ⟨NULL, NULL, l.dup, l.free, l.mtch, 0⟩)
      allocs := some it :: rest } (some lp) AL_START_HEAD = _ :=
    @listGetIterator_eval { w with
      lists := Function.update w.lists cp (some ⟨NULL, NULL, l.dup, l.free, l.mtch, 0⟩)
      allocs := some it :: rest } lp it l rest rfl
      (by simp [Function.update_apply, hne, hl]) AL_START_HEAD
  simp only [if_true] at h2
  simp only [listDup, h1, Option.bind_eq_bind, Option.some_bind, reduceCtorEq, if_false,
    getList, writeList, setList, Function.update_apply, hne, hl, if_true, Option.map_some',
    Function.update_idem, Function.update_same, h2, Option.pure_def]

/-- Duplicating a well-formed list when every allocation and every value copy
succeeds. -/
theorem listDup_ok {w : World} {lp cp it : Addr} {xs : List (Addr × Ptr)} {l : list}
    {as : List Addr} {rest : List Ptr} {fuel : Nat}
    (hwf : WF w lp xs) (hl : w.lists lp = some l)
    (hal : w.allocs = some cp :: some it :: (as.map some ++ rest))
    (hcp : w.lists cp = none) (hlen : as.length = xs.length) (hnd : as.Nodup)
    (hfr : ∀ a ∈ as, w.nodes a = none)
    (hdup : ∀ fn, l.dup = some fn → ∀ x ∈ xs, w.dupCode fn x.2 ≠ NULL)
    (hf : xs.length < fuel) :
    ∃ w', listDup fuel w (some lp) = some (some cp, w')
      ∧ WF w' cp (as.zip (xs.map fun x => copyValue w l.dup x.2))
      ∧ (w'.lists cp).map (fun c => (c.dup, c.free, c.mtch)) = some (l.dup, l.free, l.mtch)
      ∧ WF w' lp xs ∧ w'.lists lp = some l
      ∧ (∀ b, b ∉ as → w'.nodes b = w.nodes b)
      ∧ w'.allocs = rest
      ∧ w'.calls = w.calls ++ dupCalls l.dup (xs.map Prod.snd) := by
  have hne : lp ≠ cp := by rintro rfl; rw [hcp] at hl; cases hl
  have hh : l.head = hdOr xs NULL := by
    obtain ⟨l', h1, h2, -⟩ := hwf.hdr
    rw [hl] at h1; cases h1
    exact h2
  rw [listDup_eval_start hal hl hne]
  have hwf0 : WF { w with
      lists := Function.update w.lists cp (some ⟨NULL, NULL, l.dup, l.free, l.mtch, 0⟩)
      iters := Function.update w.iters it (some ⟨l.head, AL_START_HEAD⟩)
      allocs := as.map some ++ rest } lp ([] ++ xs) :=
    WF_frame (Function.update_noteq hne _ _) (fun _ _ => rfl) hwf
  have hwc0 : WF { w with
      lists := Function.update w.lists cp (some ⟨NULL, NULL, l.dup, l.free, l.mtch, 0⟩)
      iters := Function.update w.iters it (some ⟨l.head, AL_START_HEAD⟩)
      allocs := as.map some ++ rest } cp [] :=
    WF.intro (Function.update_same _ _ _) rfl rfl rfl trivial List.nodup_nil
  obtain ⟨w', hrun, hwc', hk', hwf', hl', hn', hal', hcalls'⟩ :=
    @listDup_loop_ok lp cp it l.dup l.free l.mtch xs _ [] [] as rest fuel hwf0 hwc0 hne
      (by simp) (by rw [← hh]; exact Function.update_same _ _ _) rfl hlen hnd hfr
      (by simp)
      hdup hf
  refine ⟨w', hrun, ?_, hk', hwf', ?_, ?_, hal', hcalls'⟩
  · simpa [copyValue] using hwc'
  · rw [hl']; simp [Function.update_apply, hne, hl]
  · intro b hb; exact hn' b hb (by simp)


/-! ## Allocation failure -/

theorem zmalloc_frame (w : World) :
    (zmalloc w).2.nodes = w.nodes ∧ (zmalloc w).2.lists = w.lists
      ∧ (zmalloc w).2.iters = w.iters ∧ (zmalloc w).2.calls = w.calls
      ∧ (zmalloc w).2.dupCode = w.dupCode ∧ (zmalloc w).2.matchCode = w.matchCode := by
  unfold zmalloc
  cases w.allocs <;> simp

theorem listAddNodeHead_fail {w : World} (list value : Ptr) (h : (zmalloc w).1 = NULL) :
    listAddNodeHead w list value = some (NULL, (zmalloc w).2) := by
  unfold listAddNodeHead
  rcases hz : zmalloc w with ⟨p, w1⟩
  rw [hz] at h
  simp only at h
  subst h
  rfl

theorem listAddNodeTail_fail {w : World} (list value : Ptr) (h : (zmalloc w).1 = NULL) :
    listAddNodeTail w list value = some (NULL, (zmalloc w).2) := by
  unfold listAddNodeTail
  rcases hz : zmalloc w with ⟨p, w1⟩
  rw [hz] at h
  simp only at h
  subst h
  rfl

theorem listInsertNode_fail {w : World} (list old_node value : Ptr) (after : Int)
    (h : (zmalloc w).1 = NULL) :
    listInsertNode w list old_node value after = some (NULL, (zmalloc w).2) := by
  unfold listInsertNode
  rcases hz : zmalloc w with ⟨p, w1⟩
  rw [hz] at h
  simp only at h
  subst h
  rfl

theorem zmalloc_cases (w : World) :
    (zmalloc w).1 = NULL ∨ ∃ a rest, w.allocs = some a :: rest := by
  unfold zmalloc
  rcases h : w.allocs with _ | ⟨p, rest⟩
  · exact Or.inl rfl
  · cases p with
    | none => exact Or.inl rfl
    | some a => exact Or.inr ⟨a, rest, rfl⟩

theorem WF_zmalloc {w : World} {lp : Addr} {xs : List (Addr × Ptr)} (h : WF w lp xs) :
    WF (zmalloc w).2 lp xs :=
  WF_congr (by rw [(zmalloc_frame w).2.1]) (zmalloc_frame w).1 h

/-! ## Membership and the link-shape invariant -/

theorem WF.walkNext {w : World} {lp : Addr} {xs : List (Addr × Ptr)} (h : WF w lp xs)
    {l : list} (hl : w.lists lp = some l) {fuel : Nat} (hf : l.len ≤ fuel) :
    walkNext w fuel l.head = some (xs.map Prod.fst) := by
  obtain ⟨l', hl', hh, -, hn⟩ := h.hdr
  rw [hl] at hl'; cases hl'
  rw [hh]
  exact walkNext_seg h.seg (hn ▸ hf)

theorem WF.walkPrev {w : World} {lp : Addr} {xs : List (Addr × Ptr)} (h : WF w lp xs)
    {l : list} (hl : w.lists lp = some l) {fuel : Nat} (hf : l.len ≤ fuel) :
    walkPrev w fuel l.tail = some (xs.reverse.map Prod.fst) := by
  obtain ⟨l', hl', -, ht, hn⟩ := h.hdr
  rw [hl] at hl'; cases hl'
  rw [ht]
  exact walkPrev_seg h.seg (hn ▸ hf)

theorem WF.mem_of_inList {w : World} {lp : Addr} {xs : List (Addr × Ptr)} (h : WF w lp xs)
    {a : Addr} (ha : InList w lp a) : ∃ A o B, xs = A ++ o :: B ∧ o.1 = a := by
  obtain ⟨l, ns, hl, hw, hmem⟩ := ha
  rw [h.walkNext hl (Nat.le_refl _)] at hw
  cases hw
  obtain ⟨o, ho, rfl⟩ := List.mem_map.1 hmem
  obtain ⟨A, B, rfl⟩ := List.append_of_mem ho
  exact ⟨A, o, B, rfl, rfl⟩

theorem WF.inList {w : World} {lp : Addr} {A B : List (Addr × Ptr)} {o : Addr × Ptr}
    (h : WF w lp (A ++ o :: B)) : InList w lp o.1 := by
  obtain ⟨l, hl, -⟩ := h.hdr
  exact ⟨l, _, hl, h.walkNext hl (Nat.le_refl _), by simp⟩

/-- A well-formed list has the link shape. -/
theorem WF.linkShape {w : World} {lp : Addr} {xs : List (Addr × Ptr)} (h : WF w lp xs) :
    LinkShape w lp := by
  obtain ⟨l, hl, hh, ht, hn⟩ := h.hdr
  refine ⟨l, xs.map Prod.fst, hl, h.walkNext hl (Nat.le_refl _), ?_, ?_⟩
  · intro hne
    rcases List.eq_nil_or_concat xs with rfl | ⟨ys, y, hys⟩
    · exact absurd hh hne
    · rw [List.concat_eq_append] at hys
      obtain ⟨x, t, hxt⟩ : ∃ x t, xs = x :: t := by
        cases xs with
        | nil => exact absurd hh hne
        | cons x t => exact ⟨x, t, rfl⟩
      constructor
      · rw [hh, hxt]
        have := h.seg
        rw [hxt, dlseg_cons] at this
        simp [getNode, this.1]
      · rw [ht, hys, lastOr_append]
        have := h.seg
        rw [hys] at this
        obtain ⟨-, hy, -⟩ := dlseg_split this
        simp [getNode, hy]
  · intro a ha
    obtain ⟨o, ho, rfl⟩ := List.mem_map.1 ha
    obtain ⟨A, B, rfl⟩ := List.append_of_mem ho
    obtain ⟨hsA, hon, hsB⟩ := dlseg_split h.seg
    refine ⟨_, hon, ?_, ?_⟩
    · rcases List.eq_nil_or_concat A with rfl | ⟨A', p, rfl⟩
      · left; rw [hh]; rfl
      · right
        rw [List.concat_eq_append] at hsA ⊢
        obtain ⟨-, hp, -⟩ := dlseg_split hsA
        simp [getNode, lastOr_append, hp]
    · cases B with
      | nil => left; rw [ht, lastOr_append]; rfl
      | cons q B' =>
        right
        rw [dlseg_cons] at hsB
        simp [getNode, hsB.1]


/-! ## Every operation keeps a well-formed list well formed -/

theorem listAddNodeHead_inv {w : World} {lp : Addr} (hinv : Inv w lp) (hfresh : AllocFresh w)
    (v : Ptr) : ∃ r w', listAddNodeHead w (some lp) v = some (r, w') ∧ Inv w' lp := by
  obtain ⟨xs, hwf⟩ := hinv
  rcases zmalloc_cases w with h | ⟨a, rest, hal⟩
  · exact ⟨_, _, listAddNodeHead_fail _ _ h, xs, WF_zmalloc hwf⟩
  · obtain ⟨w', hrun, hwf', -⟩ := listAddNodeHead_ok hwf hal (hfresh a rest hal) v
    exact ⟨_, w', hrun, _, hwf'⟩

theorem listAddNodeTail_inv {w : World} {lp : Addr} (hinv : Inv w lp) (hfresh : AllocFresh w)
    (v : Ptr) : ∃ r w', listAddNodeTail w (some lp) v = some (r, w') ∧ Inv w' lp := by
  obtain ⟨xs, hwf⟩ := hinv
  rcases zmalloc_cases w with h | ⟨a, rest, hal⟩
  · exact ⟨_, _, listAddNodeTail_fail _ _ h, xs, WF_zmalloc hwf⟩
  · obtain ⟨w', hrun, hwf', -⟩ := listAddNodeTail_ok hwf hal (hfresh a rest hal) v
    exact ⟨_, w', hrun, _, hwf'⟩

theorem listInsertNode_inv {w : World} {lp : Addr} (hinv : Inv w lp) (hfresh : AllocFresh w)
    {old : Addr} (hold : InList w lp old) (v : Ptr) (after : Int) :
    ∃ r w', listInsertNode w (some lp) (some old) v after = some (r, w') ∧ Inv w' lp := by
  obtain ⟨xs, hwf⟩ := hinv
  rcases zmalloc_cases w with h | ⟨a, rest, hal⟩
  · exact ⟨_, _, listInsertNode_fail _ _ _ _ h, xs, WF_zmalloc hwf⟩
  · obtain ⟨A, o, B, rfl, rfl⟩ := hwf.mem_of_inList hold
    by_cases haft : after = 0
    · subst haft
      obtain ⟨w', -, hrun, -, -, hwf', -⟩ := listInsertNode_before_ok hwf hal (hfresh a rest hal) v
      exact ⟨_, w', hrun, _, hwf'⟩
    · obtain ⟨w', -, hrun, -, -, hwf', -⟩ :=
        listInsertNode_after_ok hwf hal (hfresh a rest hal) v haft
      exact ⟨_, w', hrun, _, hwf'⟩

theorem listDelNode_inv {w : World} {lp : Addr} (hinv : Inv w lp)
    {node : Addr} (hnode : InList w lp node) :
    ∃ w', listDelNode w (some lp) (some node) = some w' ∧ Inv w' lp := by
  obtain ⟨xs, hwf⟩ := hinv
  obtain ⟨A, o, B, rfl, rfl⟩ := hwf.mem_of_inList hnode
  obtain ⟨w', -, hrun, -, hwf', -⟩ := listDelNode_ok hwf
  exact ⟨w', hrun, _, hwf'⟩

theorem listRotate_inv {w : World} {lp : Addr} (hinv : Inv w lp) :
    ∃ w', listRotate w (some lp) = some w' ∧ Inv w' lp := by
  obtain ⟨xs, hwf⟩ := hinv
  obtain ⟨l, hl, -, -, hn⟩ := hwf.hdr
  by_cases hlen : l.len ≤ 1
  · exact ⟨w, listRotate_eval_short hl hlen, xs, hwf⟩
  · rcases List.eq_nil_or_concat xs with rfl | ⟨X, t, rfl⟩
    · simp at hn; omega
    · rw [List.concat_eq_append] at hwf hn
      have hX : X ≠ [] := by
        rintro rfl
        simp at hn; omega
      obtain ⟨w', -, hrun, -, -, hwf', -⟩ := listRotate_ok hwf hX
      exact ⟨w', hrun, _, hwf'⟩

theorem listCreate_total (w : World) :
    ∃ r w', listCreate w = some (r, w') ∧ ∀ lp, r = some lp → WF w' lp [] := by
  rcases zmalloc_cases w with h | ⟨a, rest, hal⟩
  · refine ⟨NULL, (zmalloc w).2, ?_, fun lp h => by cases h⟩
    unfold listCreate
    rcases hz : zmalloc w with ⟨p, w1⟩
    rw [hz] at h
    simp only at h
    subst h
    rfl
  · obtain ⟨w', hrun, hwf, -⟩ := listCreate_ok hal
    exact ⟨_, w', hrun, fun lp h => by cases h; exact hwf⟩

theorem Built.inv {w : World} {lp : Addr} (h : Built w lp) : Inv w lp := by
  induction h with
  | create hc =>
    obtain ⟨r, w', hrun, hwf⟩ := listCreate_total _
    rw [hrun] at hc
    cases hc
    exact ⟨[], hwf _ rfl⟩
  | addHead _ hfresh hrun ih =>
    obtain ⟨r, w', hrun', hinv⟩ := listAddNodeHead_inv ih hfresh _
    rw [hrun'] at hrun; cases hrun; exact hinv
  | addTail _ hfresh hrun ih =>
    obtain ⟨r, w', hrun', hinv⟩ := listAddNodeTail_inv ih hfresh _
    rw [hrun'] at hrun; cases hrun; exact hinv
  | insert _ hfresh hold hrun ih =>
    obtain ⟨r, w', hrun', hinv⟩ := listInsertNode_inv ih hfresh hold _ _
    rw [hrun'] at hrun; cases hrun; exact hinv
  | del _ hnode hrun ih =>
    obtain ⟨w', hrun', hinv⟩ := listDelNode_inv ih hnode
    rw [hrun'] at hrun; cases hrun; exact hinv

theorem WF.empty_iff {w : World} {lp : Addr} {xs : List (Addr × Ptr)} (h : WF w lp xs)
    {l : list} (hl : w.lists lp = some l) :
    (l.len = 0 ↔ l.head = NULL) ∧ (l.head = NULL ↔ l.tail = NULL) := by
  obtain ⟨l', hl', hh, ht, hn⟩ := h.hdr
  rw [hl] at hl'; cases hl'
  rw [hh, ht, hn, hdOr_eq_none, lastOr_eq_none, List.length_eq_zero]
  exact ⟨Iff.rfl, Iff.rfl⟩


/-! ## The claims -/

theorem walkValues_seg {w : World} {pv : Ptr} {xs : List (Addr × Ptr)}
    (hs : dlseg w.nodes pv xs NULL) {fuel : Nat} (hf : xs.length ≤ fuel) :
    walkValues w fuel (hdOr xs NULL) = some (xs.map Prod.snd) := by
  induction xs generalizing pv fuel with
  | nil => cases fuel <;> rfl
  | cons x t ih =>
    cases fuel with
    | zero => simp at hf
    | succ fuel =>
      rw [dlseg_cons] at hs
      have := ih hs.2 (Nat.le_of_succ_le_succ hf)
      simp [walkValues, hs.1, this]

theorem WF.walkValues {w : World} {lp : Addr} {xs : List (Addr × Ptr)} (h : WF w lp xs)
    {l : list} (hl : w.lists lp = some l) {fuel : Nat} (hf : l.len ≤ fuel) :
    walkValues w fuel l.head = some (xs.map Prod.snd) := by
  obtain ⟨l', hl', hh, -, hn⟩ := h.hdr
  rw [hl] at hl'; cases hl'
  rw [hh]
  exact walkValues_seg h.seg (hn ▸ hf)

/-- C1: for every list obtained from `listCreate` by a finite sequence of
`listAddNodeHead`, `listAddNodeTail`, `listInsertNode` and `listDelNode` calls
(on nodes currently in the list), `len` is the number of nodes met by following
`next` from head and the number met by following `prev` from tail; and
`len = 0` if and only if head is NULL, if and only if tail is NULL. -/
theorem built_len_counts_nodes (w : World) (lp : Addr) (hb : Built w lp) :
    ∃ l, w.lists lp = some l
      ∧ (∀ fuel, l.len ≤ fuel →
          (walkNext w fuel l.head).map List.length = some l.len
          ∧ (walkPrev w fuel l.tail).map List.length = some l.len)
      ∧ (l.len = 0 ↔ l.head = NULL) ∧ (l.head = NULL ↔ l.tail = NULL) := by
  obtain ⟨xs, hwf⟩ := hb.inv
  obtain ⟨l, hl, -, -, hn⟩ := hwf.hdr
  refine ⟨l, hl, ?_, hwf.empty_iff hl⟩
  intro fuel hf
  rw [hwf.walkNext hl hf, hwf.walkPrev hl hf]
  simp [hn]

theorem exBuilt_built : Built exBuilt (Addr.ofNat 6) := by
  have h1 : listCreate exWorld = some (some (Addr.ofNat 6), exCreated) := rfl
  have h2 : listAddNodeHead exCreated (some (Addr.ofNat 6)) (some (Addr.ofNat 12))
      = some (some (Addr.ofNat 6), exBuilt) := rfl
  refine Built.addHead (Built.create h1) ?_ h2
  intro a rest h
  cases h
  rfl

/-- Witness of C1: the list created and extended by one node in the example
world has `len = 1` and one node on either walk. -/
theorem built_len_counts_nodes_witness :
    Built exBuilt (Addr.ofNat 6)
      ∧ ∃ l, exBuilt.lists (Addr.ofNat 6) = some l
        ∧ (∀ fuel, l.len ≤ fuel →
            (walkNext exBuilt fuel l.head).map List.length = some l.len
            ∧ (walkPrev exBuilt fuel l.tail).map List.length = some l.len)
        ∧ (l.len = 0 ↔ l.head = NULL) ∧ (l.head = NULL ↔ l.tail = NULL) :=
  ⟨exBuilt_built, built_len_counts_nodes exBuilt (Addr.ofNat 6) exBuilt_built⟩


theorem Inv.hasLinkShape {w : World} {lp : Addr} (h : Inv w lp) : LinkShape w lp := by
  obtain ⟨xs, hwf⟩ := h
  exact hwf.linkShape

/-- C2: the link-shape invariant holds for the list returned by `listCreate`,
and on a well-formed list every mutating operation (`listAddNodeHead`,
`listAddNodeTail`, `listInsertNode` and `listDelNode` on a node of the list,
`listRotate`) runs to completion and leaves a well-formed list on which the
link-shape invariant holds: for a list that is not empty `head->prev` and
`tail->next` are NULL, and every node `n` has `n->prev->next == n` unless it is
the head and `n->next->prev == n` unless it is the tail. -/
theorem linkShape_invariant (w : World) (lp : Addr) (hinv : Inv w lp) (hfresh : AllocFresh w) :
    LinkShape w lp
      ∧ (∀ w0, ∃ r w1, listCreate w0 = some (r, w1)
          ∧ ∀ lp0, r = some lp0 → Inv w1 lp0 ∧ LinkShape w1 lp0)
      ∧ (∀ v, ∃ r w', listAddNodeHead w (some lp) v = some (r, w')
          ∧ Inv w' lp ∧ LinkShape w' lp)
      ∧ (∀ v, ∃ r w', listAddNodeTail w (some lp) v = some (r, w')
          ∧ Inv w' lp ∧ LinkShape w' lp)
      ∧ (∀ old v after, InList w lp old →
          ∃ r w', listInsertNode w (some lp) (some old) v after = some (r, w')
            ∧ Inv w' lp ∧ LinkShape w' lp)
      ∧ (∀ node, InList w lp node →
          ∃ w', listDelNode w (some lp) (some node) = some w' ∧ Inv w' lp ∧ LinkShape w' lp)
      ∧ (∃ w', listRotate w (some lp) = some w' ∧ Inv w' lp ∧ LinkShape w' lp) := by
  refine ⟨hinv.hasLinkShape, ?_, ?_, ?_, ?_, ?_, ?_⟩
  · intro w0
    obtain ⟨r, w1, hrun, h⟩ := listCreate_total w0
    exact ⟨r, w1, hrun, fun lp0 hr => ⟨⟨[], h lp0 hr⟩, (h lp0 hr).linkShape⟩⟩
  · intro v
    obtain ⟨r, w', hrun, h⟩ := listAddNodeHead_inv hinv hfresh v
    exact ⟨r, w', hrun, h, h.hasLinkShape⟩
  · intro v
    obtain ⟨r, w', hrun, h⟩ := listAddNodeTail_inv hinv hfresh v
    exact ⟨r, w', hrun, h, h.hasLinkShape⟩
  · intro old v after hold
    obtain ⟨r, w', hrun, h⟩ := listInsertNode_inv hinv hfresh hold v after
    exact ⟨r, w', hrun, h, h.hasLinkShape⟩
  · intro node hnode
    obtain ⟨w', hrun, h⟩ := listDelNode_inv hinv hnode
    exact ⟨w', hrun, h, h.hasLinkShape⟩
  · obtain ⟨w', hrun, h⟩ := listRotate_inv hinv
    exact ⟨w', hrun, h, h.hasLinkShape⟩

theorem exWorld_wf : WF exWorld (Addr.ofNat 1) exNodes := by decide

theorem exWorld_fresh : AllocFresh exWorld := by
  intro a rest h
  cases h
  rfl

/-- Witness of C2: the list of the example world is well formed, its allocator
hands out unused memory, and the invariant holds before and after each
operation on it. -/
theorem linkShape_invariant_witness :
    Inv exWorld (Addr.ofNat 1) ∧ AllocFresh exWorld
      ∧ LinkShape exWorld (Addr.ofNat 1)
      ∧ (∃ w', listRotate exWorld (some (Addr.ofNat 1)) = some w'
          ∧ Inv w' (Addr.ofNat 1) ∧ LinkShape w' (Addr.ofNat 1)) :=
  have h := linkShape_invariant exWorld (Addr.ofNat 1) ⟨exNodes, exWorld_wf⟩ exWorld_fresh
  ⟨⟨exNodes, exWorld_wf⟩, exWorld_fresh, h.1, h.2.2.2.2.2.2⟩

theorem list_eta {l' : list} {h t d f m : Ptr} {n : Nat} (hh : l'.head = h) (ht : l'.tail = t)
    (hd : l'.dup = d) (hf : l'.free = f) (hm : l'.mtch = m) (hn : l'.len = n) :
    l' = ⟨h, t, d, f, m, n⟩ := by
  cases l'; simp_all

theorem Frame.hooks_eq {w w' : World} {lp : Addr} {T : List Addr} (hf : Frame w w' lp T)
    {l l' : list} (hl : w.lists lp = some l) (hl' : w'.lists lp = some l') :
    l'.dup = l.dup ∧ l'.free = l.free ∧ l'.mtch = l.mtch := by
  have := hf.hooks
  rw [hl, hl'] at this
  simpa using this

/-- C3: on a well-formed list with node sequence `xs` (values `xs.map snd`), a
`listAddNodeHead(list, v)` whose allocation succeeds returns `list`, now the
well-formed list with the new node holding `v` in front of `xs`; `len` has
grown by exactly one, the hooks are unchanged, and the new node is also the
tail when the list was empty. -/
theorem listAddNodeHead_spec (w : World) (lp : Addr) (xs : List (Addr × Ptr)) (v : Ptr)
    (a : Addr) (rest : List Ptr) (hwf : WF w lp xs) (hal : w.allocs = some a :: rest)
    (hfr : w.nodes a = none) :
    ∃ w' l, listAddNodeHead w (some lp) v = some (some lp, w') ∧ w.lists lp = some l
      ∧ WF w' lp ((a, v) :: xs)
      ∧ w'.lists lp = some { l with
          head := some a, tail := if xs = [] then some a else l.tail, len := l.len + 1 }
      ∧ ∀ fuel, l.len + 1 ≤ fuel →
          walkValues w' fuel (some a) = some (v :: xs.map Prod.snd) := by
  obtain ⟨l, hl, -, ht, hn⟩ := hwf.hdr
  obtain ⟨w', hrun, hwf', hframe, -, -⟩ := listAddNodeHead_ok hwf hal hfr v
  obtain ⟨l', hl', hh', ht', hn'⟩ := hwf'.hdr
  obtain ⟨hd, hf, hm⟩ := hframe.hooks_eq hl hl'
  have hl'' : l' = { l with
      head := some a, tail := if xs = [] then some a else l.tail, len := l.len + 1 } := by
    refine list_eta hh' ?_ hd hf hm (by rw [hn', hn]; rfl)
    rw [ht', lastOr_cons, lastOr_default xs (some (a, v).1), ht]
  refine ⟨w', l, hrun, hl, hwf', hl'' ▸ hl', ?_⟩
  intro fuel hfuel
  have := @WF.walkValues _ _ _ hwf' _ hl' fuel
    (by rw [hn', List.length_cons, ← hn]; exact hfuel)
  rw [hh'] at this
  exact this

/-- Witness of C3: adding a node at the head of the list of the example world. -/
theorem listAddNodeHead_spec_witness :
    ∃ w' l, listAddNodeHead exWorld (some (Addr.ofNat 1)) (some (Addr.ofNat 12))
        = some (some (Addr.ofNat 1), w')
      ∧ exWorld.lists (Addr.ofNat 1) = some l
      ∧ WF w' (Addr.ofNat 1) ((Addr.ofNat 6, some (Addr.ofNat 12)) :: exNodes)
      ∧ w'.lists (Addr.ofNat 1) = some { l with
          head := some (Addr.ofNat 6)
          tail := if exNodes = [] then some (Addr.ofNat 6) else l.tail
          len := l.len + 1 }
      ∧ ∀ fuel, l.len + 1 ≤ fuel →
          walkValues w' fuel (some (Addr.ofNat 6))
            = some (some (Addr.ofNat 12) :: exNodes.map Prod.snd) :=
  listAddNodeHead_spec exWorld (Addr.ofNat 1) exNodes (some (Addr.ofNat 12)) (Addr.ofNat 6) _
    exWorld_wf rfl (by decide)

/-- C4: on a well-formed list with node sequence `xs`, a
`listAddNodeTail(list, v)` whose allocation succeeds returns `list`, now the
well-formed list with the new node holding `v` behind `xs`; `len` has grown by
exactly one, the hooks are unchanged, and the new node is also the head when
the list was empty. -/
theorem listAddNodeTail_spec (w : World) (lp : Addr) (xs : List (Addr × Ptr)) (v : Ptr)
    (a : Addr) (rest : List Ptr) (hwf : WF w lp xs) (hal : w.allocs = some a :: rest)
    (hfr : w.nodes a = none) :
    ∃ w' l, listAddNodeTail w (some lp) v = some (some lp, w') ∧ w.lists lp = some l
      ∧ WF w' lp (xs ++ [(a, v)])
      ∧ w'.lists lp = some { l with
          head := if xs = [] then some a else l.head, tail := some a, len := l.len + 1 }
      ∧ ∀ fuel, l.len + 1 ≤ fuel →
          walkValues w' fuel (if xs = [] then some a else l.head)
            = some (xs.map Prod.snd ++ [v]) := by
  obtain ⟨l, hl, hh, -, hn⟩ := hwf.hdr
  obtain ⟨w', hrun, hwf', hframe, -, -⟩ := listAddNodeTail_ok hwf hal hfr v
  obtain ⟨l', hl', hh', ht', hn'⟩ := hwf'.hdr
  obtain ⟨hd, hf, hm⟩ := hframe.hooks_eq hl hl'
  have hhead : l'.head = if xs = [] then some a else l.head := by
    rw [hh', hdOr_append, hdOr_cons, hdOr_default xs (some (a, v).1), hh]
  have hl'' : l' = { l with
      head := if xs = [] then some a else l.head, tail := some a, len := l.len + 1 } := by
    refine list_eta hhead ?_ hd hf hm (by rw [hn', hn]; simp)
    rw [ht', lastOr_append]; rfl
  refine ⟨w', l, hrun, hl, hwf', hl'' ▸ hl', ?_⟩
  intro fuel hfuel
  have := @WF.walkValues _ _ _ hwf' _ hl' fuel
    (by rw [hn', List.length_append, ← hn]; exact hfuel)
  rw [hhead] at this
  simpa using this

/-- Witness of C4: adding a node at the tail of the list of the example world. -/
theorem listAddNodeTail_spec_witness :
    ∃ w' l, listAddNodeTail exWorld (some (Addr.ofNat 1)) (some (Addr.ofNat 12))
        = some (some (Addr.ofNat 1), w')
      ∧ exWorld.lists (Addr.ofNat 1) = some l
      ∧ WF w' (Addr.ofNat 1) (exNodes ++ [(Addr.ofNat 6, some (Addr.ofNat 12))])
      ∧ w'.lists (Addr.ofNat 1) = some { l with
          head := if exNodes = [] then some (Addr.ofNat 6) else l.head
          tail := some (Addr.ofNat 6)
          len := l.len + 1 }
      ∧ ∀ fuel, l.len + 1 ≤ fuel →
          walkValues w' fuel (if exNodes = [] then some (Addr.ofNat 6) else l.head)
            = some (exNodes.map Prod.snd ++ [some (Addr.ofNat 12)]) :=
  listAddNodeTail_spec exWorld (Addr.ofNat 1) exNodes (some (Addr.ofNat 12)) (Addr.ofNat 6) _
    exWorld_wf rfl (by decide)


theorem split_at {α : Type} (xs : List α) (i : Nat) (hi : i < xs.length) :
    xs = xs.take i ++ xs.get ⟨i, hi⟩ :: xs.drop (i + 1) := by
  induction xs generalizing i with
  | nil => simp at hi
  | cons x t ih =>
    cases i with
    | zero => rfl
    | succ i =>
      simp only [List.take_succ_cons, List.drop_succ_cons, List.cons_append, List.get_cons_succ]
      congr 1
      exact ih i (by simpa using hi)

theorem take_succ_get {α : Type} (xs : List α) (i : Nat) (hi : i < xs.length) :
    xs.take (i + 1) = xs.take i ++ [xs.get ⟨i, hi⟩] := by
  induction xs generalizing i with
  | nil => simp at hi
  | cons x t ih =>
    cases i with
    | zero => rfl
    | succ i =>
      simp only [List.take_succ_cons, List.cons_append, List.get_cons_succ]
      congr 1
      exact ih i (by simpa using hi)

theorem drop_get_cons {α : Type} (xs : List α) (i : Nat) (hi : i < xs.length) :
    xs.drop i = xs.get ⟨i, hi⟩ :: xs.drop (i + 1) := by
  induction xs generalizing i with
  | nil => simp at hi
  | cons x t ih =>
    cases i with
    | zero => rfl
    | succ i =>
      simp only [List.drop_succ_cons, List.get_cons_succ]
      exact ih i (by simpa using hi)

theorem eraseIdx_split {α : Type} (xs : List α) (i : Nat) :
    xs.eraseIdx i = xs.take i ++ xs.drop (i + 1) := by
  induction xs generalizing i with
  | nil => simp
  | cons x t ih =>
    cases i with
    | zero => rfl
    | succ i => simp [ih]

theorem hdOr_eq_head? (ys : List (Addr × Ptr)) : hdOr ys NULL = ys.head?.map Prod.fst := by
  cases ys <;> rfl

theorem lastOr_eq_getLast? (ys : List (Addr × Ptr)) :
    lastOr ys NULL = ys.getLast?.map Prod.fst := by
  rcases List.eq_nil_or_concat ys with rfl | ⟨t, y, rfl⟩
  · rfl
  · rw [List.concat_eq_append, lastOr_append, List.getLast?_append]
    simp

theorem WF.not_fresh {w : World} {lp : Addr} {xs : List (Addr × Ptr)} (h : WF w lp xs)
    {l : list} (hl : w.lists lp = some l) {a : Addr} (ha : w.nodes a = none) :
    l.head ≠ some a ∧ l.tail ≠ some a := by
  obtain ⟨l', hl', hh, ht, -⟩ := h.hdr
  rw [hl] at hl'; cases hl'
  have hnot := dlseg_ne_of_none h.seg ha
  exact ⟨fun e => hnot (hdOr_mem_or xs a (hh ▸ e)), fun e => hnot (lastOr_mem_or xs a (ht ▸ e))⟩

/-- C5: on a well-formed list with node sequence `xs`, for every position
`i < xs.length`, a `listInsertNode(list, n_i, v, after)` whose allocation
succeeds returns `list`, now the well-formed list with one new node holding `v`
at position `i + 1` when `after` is not zero and at position `i` when it is
zero, the other nodes in their order with their values; `len` has grown by
one and the hooks are unchanged; the new node is the tail exactly when `after`
is not zero and `n_i` was the tail, and the head exactly when `after` is zero
and `n_i` was the head. -/
theorem listInsertNode_spec (w : World) (lp : Addr) (xs : List (Addr × Ptr)) (i : Nat)
    (hi : i < xs.length) (v : Ptr) (after : Int) (a : Addr) (rest : List Ptr)
    (hwf : WF w lp xs) (hal : w.allocs = some a :: rest) (hfr : w.nodes a = none) :
    ∃ w' l l', listInsertNode w (some lp) (some (xs.get ⟨i, hi⟩).1) v after
        = some (some lp, w')
      ∧ w.lists lp = some l ∧ w'.lists lp = some l'
      ∧ WF w' lp (xs.take (if after ≠ 0 then i + 1 else i)
          ++ (a, v) :: xs.drop (if after ≠ 0 then i + 1 else i))
      ∧ l'.len = l.len + 1 ∧ l'.dup = l.dup ∧ l'.free = l.free ∧ l'.mtch = l.mtch
      ∧ (l'.tail = some a ↔ (after ≠ 0 ∧ l.tail = some (xs.get ⟨i, hi⟩).1))
      ∧ (l'.head = some a ↔ (after = 0 ∧ l.head = some (xs.get ⟨i, hi⟩).1)) := by
  have hwf' : WF w lp (xs.take i ++ xs.get ⟨i, hi⟩ :: xs.drop (i + 1)) := by
    rw [← split_at xs i hi]; exact hwf
  by_cases haft : after = 0
  · subst haft
    obtain ⟨w', l, hrun, hl, hl', hwf2, -⟩ := listInsertNode_before_ok hwf' hal hfr v
    obtain ⟨hnh, hnt⟩ := hwf.not_fresh hl hfr
    refine ⟨w', l, _, hrun, hl, hl', ?_, rfl, rfl, rfl, rfl, ?_, ?_⟩
    · rw [if_neg (by simp), drop_get_cons xs i hi]; exact hwf2
    · simp [hnt]
    · by_cases hc : l.head = some (xs.get ⟨i, hi⟩).1
      · simp [hc]
      · simp [hc, hnh]
  · obtain ⟨w', l, hrun, hl, hl', hwf2, -⟩ := listInsertNode_after_ok hwf' hal hfr v haft
    obtain ⟨hnh, hnt⟩ := hwf.not_fresh hl hfr
    refine ⟨w', l, _, hrun, hl, hl', ?_, rfl, rfl, rfl, rfl, ?_, ?_⟩
    · rw [if_pos haft, take_succ_get xs i hi, List.append_assoc]; exact hwf2
    · by_cases hc : l.tail = some (xs.get ⟨i, hi⟩).1
      · simp [hc, haft]
      · simp [hc, hnt, haft]
    · simp [hnh, haft]

/-- Witness of C5: inserting a node after the first node of the list of the
example world. -/
theorem listInsertNode_spec_witness :
    ∃ w' l l', listInsertNode exWorld (some (Addr.ofNat 1))
        (some (exNodes.get ⟨0, by decide⟩).1) (some (Addr.ofNat 12)) 1
        = some (some (Addr.ofNat 1), w')
      ∧ exWorld.lists (Addr.ofNat 1) = some l ∧ w'.lists (Addr.ofNat 1) = some l'
      ∧ WF w' (Addr.ofNat 1) (exNodes.take (if (1 : Int) ≠ 0 then 0 + 1 else 0)
          ++ (Addr.ofNat 6, some (Addr.ofNat 12))
            :: exNodes.drop (if (1 : Int) ≠ 0 then 0 + 1 else 0))
      ∧ l'.len = l.len + 1 ∧ l'.dup = l.dup ∧ l'.free = l.free ∧ l'.mtch = l.mtch
      ∧ (l'.tail = some (Addr.ofNat 6)
          ↔ ((1 : Int) ≠ 0 ∧ l.tail = some (exNodes.get ⟨0, by decide⟩).1))
      ∧ (l'.head = some (Addr.ofNat 6)
          ↔ ((1 : Int) = 0 ∧ l.head = some (exNodes.get ⟨0, by decide⟩).1)) :=
  listInsertNode_spec exWorld (Addr.ofNat 1) exNodes 0 (by decide) (some (Addr.ofNat 12)) 1
    (Addr.ofNat 6) _ exWorld_wf rfl (by decide)

/-- C6: on a well-formed list with node sequence `xs`, for every position
`i < xs.length`, `listDelNode(list, n_i)` runs to completion and leaves the
well-formed list of the other nodes in their order with their values; `len` has
dropped by exactly one and the hooks are unchanged; head is `n_1` (or NULL) when
`i = 0` and tail is `n_{k-2}` (or NULL) when `i = k - 1`; the release-value
hook is called exactly once, on the value of `n_i`, when it is configured, and
no hook is called otherwise; the node is freed. -/
theorem listDelNode_spec (w : World) (lp : Addr) (xs : List (Addr × Ptr)) (i : Nat)
    (hi : i < xs.length) (hwf : WF w lp xs) :
    ∃ w' l l', listDelNode w (some lp) (some (xs.get ⟨i, hi⟩).1) = some w'
      ∧ w.lists lp = some l ∧ w'.lists lp = some l'
      ∧ WF w' lp (xs.eraseIdx i)
      ∧ l'.len + 1 = l.len ∧ l'.dup = l.dup ∧ l'.free = l.free ∧ l'.mtch = l.mtch
      ∧ (i = 0 → l'.head = xs[1]?.map Prod.fst)
      ∧ (i + 1 = xs.length → l'.tail = xs.dropLast.getLast?.map Prod.fst)
      ∧ w'.calls = (match l.free with
          | some fn => w.calls ++ [HookCall.free fn (xs.get ⟨i, hi⟩).2]
          | none => w.calls)
      ∧ w'.nodes (xs.get ⟨i, hi⟩).1 = none := by
  have hwf' : WF w lp (xs.take i ++ xs.get ⟨i, hi⟩ :: xs.drop (i + 1)) := by
    rw [← split_at xs i hi]; exact hwf
  obtain ⟨w', l, hrun, hl, hwf2, hnone, hframe, -, hcalls⟩ := listDelNode_ok hwf'
  obtain ⟨l', hl', hh', ht', hn'⟩ := hwf2.hdr
  obtain ⟨l0, hl0, -, -, hn⟩ := hwf.hdr
  rw [hl] at hl0; cases hl0
  obtain ⟨hd, hf, hm⟩ := hframe.hooks_eq hl hl'
  refine ⟨w', l, l', hrun, hl, hl', ?_, ?_, hd, hf, hm, ?_, ?_, hcalls, hnone⟩
  · rw [eraseIdx_split]; exact hwf2
  · rw [hn', hn]
    simp only [List.length_append, List.length_take, List.length_drop]
    omega
  · intro h0
    subst h0
    rw [hh']
    simp only [List.take_zero, List.nil_append, hdOr_eq_head?, List.head?_drop]
  · intro hlast
    rw [ht', List.drop_of_length_le (by omega), List.append_nil, lastOr_eq_getLast?,
      List.dropLast_eq_take]
    congr 3
    omega

/-- Witness of C6: deleting the first node of the list of the example world. -/
theorem listDelNode_spec_witness :
    ∃ w' l l', listDelNode exWorld (some (Addr.ofNat 1)) (some (exNodes.get ⟨0, by decide⟩).1)
        = some w'
      ∧ exWorld.lists (Addr.ofNat 1) = some l ∧ w'.lists (Addr.ofNat 1) = some l'
      ∧ WF w' (Addr.ofNat 1) (exNodes.eraseIdx 0)
      ∧ l'.len + 1 = l.len ∧ l'.dup = l.dup ∧ l'.free = l.free ∧ l'.mtch = l.mtch
      ∧ (0 = 0 → l'.head = exNodes[1]?.map Prod.fst)
      ∧ (0 + 1 = exNodes.length → l'.tail = exNodes.dropLast.getLast?.map Prod.fst)
      ∧ w'.calls = (match l.free with
          | some fn => exWorld.calls ++ [HookCall.free fn (exNodes.get ⟨0, by decide⟩).2]
          | none => exWorld.calls)
      ∧ w'.nodes (exNodes.get ⟨0, by decide⟩).1 = none :=
  listDelNode_spec exWorld (Addr.ofNat 1) exNodes 0 (by decide) exWorld_wf


/-- C7: when the node allocation fails, `listAddNodeHead`, `listAddNodeTail`
and `listInsertNode` each return NULL and leave every list header, every node
and every iterator as they were, calling no hook. -/
theorem alloc_failure_unchanged (w : World) (list old_node value : Ptr) (after : Int)
    (hfail : (zmalloc w).1 = NULL) :
    ∃ w', listAddNodeHead w list value = some (NULL, w')
      ∧ listAddNodeTail w list value = some (NULL, w')
      ∧ listInsertNode w list old_node value after = some (NULL, w')
      ∧ w'.nodes = w.nodes ∧ w'.lists = w.lists ∧ w'.iters = w.iters ∧ w'.calls = w.calls :=
  ⟨(zmalloc w).2, listAddNodeHead_fail list value hfail, listAddNodeTail_fail list value hfail,
    listInsertNode_fail list old_node value after hfail, (zmalloc_frame w).1,
    (zmalloc_frame w).2.1, (zmalloc_frame w).2.2.1, (zmalloc_frame w).2.2.2.1⟩

/-- Witness of C7: the three insertions in the example world out of memory. -/
theorem alloc_failure_unchanged_witness :
    ∃ w', listAddNodeHead exWorldOOM (some (Addr.ofNat 1)) (some (Addr.ofNat 12))
        = some (NULL, w')
      ∧ listAddNodeTail exWorldOOM (some (Addr.ofNat 1)) (some (Addr.ofNat 12))
        = some (NULL, w')
      ∧ listInsertNode exWorldOOM (some (Addr.ofNat 1)) (some (Addr.ofNat 2))
        (some (Addr.ofNat 12)) 1 = some (NULL, w')
      ∧ w'.nodes = exWorldOOM.nodes ∧ w'.lists = exWorldOOM.lists
      ∧ w'.iters = exWorldOOM.iters ∧ w'.calls = exWorldOOM.calls :=
  alloc_failure_unchanged exWorldOOM (some (Addr.ofNat 1)) (some (Addr.ofNat 2))
    (some (Addr.ofNat 12)) 1 (by decide)

theorem listGetIterator_fail {w : World} (list : Ptr) (direction : Int)
    (h : (zmalloc w).1 = NULL) :
    listGetIterator w list direction = some (NULL, (zmalloc w).2) := by
  unfold listGetIterator
  rcases hz : zmalloc w with ⟨p, w1⟩
  rw [hz] at h
  simp only at h
  subst h
  rfl

/-- The state of an iterator that starts a traversal. -/
theorem Started.iter {w w1 : World} {lp it : Addr} {d : Int} (hs : Started w lp it d w1)
    {xs : List (Addr × Ptr)} (hwf : WF w lp xs) :
    w1.iters it = some ⟨if d = AL_START_HEAD then hdOr xs NULL else lastOr xs NULL, d⟩
      ∧ w1.nodes = w.nodes ∧ w1.lists = w.lists ∧ w1.calls = w.calls := by
  obtain ⟨l, hl, hh, ht, -⟩ := hwf.hdr
  rcases hs with h | ⟨rfl, h⟩ | ⟨rfl, h⟩
  · rcases zmalloc_cases w with hz | ⟨a, rest, hal⟩
    · rw [listGetIterator_fail _ _ hz] at h
      cases h
    · rw [listGetIterator_eval hal hl d] at h
      cases h
      rw [← hh, ← ht]
      exact ⟨Function.update_same _ _ _, rfl, rfl, rfl⟩
  · cases hi : w.iters it with
    | none => simp [listRewind, getList, hl, writeIter, hi] at h
    | some i =>
      rw [listRewind_eval hl hi] at h
      cases h
      rw [← hh]
      exact ⟨Function.update_same _ _ _, rfl, rfl, rfl⟩
  · cases hi : w.iters it with
    | none => simp [listRewindTail, getList, hl, writeIter, hi] at h
    | some i =>
      rw [listRewindTail_eval hl hi] at h
      cases h
      rw [← ht]
      exact ⟨Function.update_same _ _ _, rfl, rfl, rfl⟩

/-- C8: on a well-formed list with node sequence `xs`, the successive calls of
`listNext` on an iterator obtained from `listGetIterator` or reset by
`listRewind` / `listRewindTail` return the nodes of `xs` in order when the
direction is `AL_START_HEAD`, in reverse order otherwise, and then NULL on every
further call; no call changes a list header or a node. -/
theorem listNext_sequence (w : World) (lp it : Addr) (xs : List (Addr × Ptr)) (d : Int)
    (w1 : World) (n : Nat) (hwf : WF w lp xs) (hstart : Started w lp it d w1) :
    ∃ w2, listNext_times (some it) n w1
        = some (((if d = AL_START_HEAD then xs else xs.reverse).map (fun x => some x.1)
            ++ List.replicate n NULL).take n, w2)
      ∧ w2.nodes = w.nodes ∧ w2.lists = w.lists := by
  obtain ⟨hi, hn, hl, -⟩ := hstart.iter hwf
  have hseg : dlseg w1.nodes NULL xs NULL := hn ▸ hwf.seg
  by_cases hd : d = AL_START_HEAD
  · subst hd
    rw [if_pos rfl] at hi
    obtain ⟨w2, hrun, h1, h2, -⟩ := listNext_times_forward hseg hi n
    exact ⟨w2, by rw [if_pos rfl]; exact hrun, h1.trans hn, h2.trans hl⟩
  · rw [if_neg hd] at hi
    obtain ⟨w2, hrun, h1, h2, -⟩ := listNext_times_backward hd hseg hi n
    exact ⟨w2, by rw [if_neg hd]; exact hrun, h1.trans hn, h2.trans hl⟩

/-- Witness of C8: four calls of `listNext` on a forward iterator over the two
nodes of the example list. -/
theorem listNext_sequence_witness :
    ∃ w2, listNext_times (some (Addr.ofNat 6)) 4 exIterating
        = some (((if AL_START_HEAD = AL_START_HEAD then exNodes else exNodes.reverse).map
            (fun x => some x.1) ++ List.replicate 4 NULL).take 4, w2)
      ∧ w2.nodes = exWorld.nodes ∧ w2.lists = exWorld.lists :=
  listNext_sequence exWorld (Addr.ofNat 1) (Addr.ofNat 6) exNodes AL_START_HEAD exIterating 4
    exWorld_wf (Or.inl rfl)

/-- C9: on a well-formed list with node sequence `xs`, in either direction and
for every choice `del` of the nodes to delete, the traversal that calls
`listDelNode` on a chosen node right after `listNext` yields it runs without a
fault (no freed node is read), yields every node of `xs` exactly once in
traversal order and then stops on NULL, and ends with the well-formed list of
the nodes not chosen, in their original order; the chosen nodes are freed. -/
theorem traverseDel_spec (w : World) (lp it : Addr) (xs : List (Addr × Ptr)) (d : Int)
    (w1 : World) (del : Addr → Bool) (fuel : Nat) (hwf : WF w lp xs)
    (hstart : Started w lp it d w1) (hfuel : xs.length < fuel) :
    ∃ w2, traverseDel (some lp) (some it) del fuel w1
        = some ((if d = AL_START_HEAD then xs else xs.reverse).map Prod.fst, w2)
      ∧ WF w2 lp (xs.filter fun x => !del x.1)
      ∧ ∀ x ∈ xs, del x.1 = true → w2.nodes x.1 = none := by
  obtain ⟨hi, hn, hl, -⟩ := hstart.iter hwf
  have hwf1 : WF w1 lp xs := WF_congr (by rw [hl]) hn hwf
  by_cases hd : d = AL_START_HEAD
  · subst hd
    rw [if_pos rfl] at hi
    obtain ⟨w2, hrun, h1, -, h2⟩ :=
      @traverseDel_forward lp it del xs w1 [] fuel hwf1 hi hfuel
    exact ⟨w2, by rw [if_pos rfl]; exact hrun, h1, h2⟩
  · rw [if_neg hd] at hi
    obtain ⟨w2, hrun, h1, -, h2⟩ :=
      @traverseDel_backward lp it del d hd xs w1 [] fuel (by simpa using hwf1) hi hfuel
    exact ⟨w2, by rw [if_neg hd]; exact hrun, by simpa using h1, h2⟩

/-- Witness of C9: the forward traversal of the example list that deletes its
first node. -/
theorem traverseDel_spec_witness :
    ∃ w2, traverseDel (some (Addr.ofNat 1)) (some (Addr.ofNat 6)) exDel 3 exIterating
        = some ((if AL_START_HEAD = AL_START_HEAD then exNodes else exNodes.reverse).map
            Prod.fst, w2)
      ∧ WF w2 (Addr.ofNat 1) (exNodes.filter fun x => !exDel x.1)
      ∧ ∀ x ∈ exNodes, exDel x.1 = true → w2.nodes x.1 = none :=
  traverseDel_spec exWorld (Addr.ofNat 1) (Addr.ofNat 6) exNodes AL_START_HEAD exIterating
    exDel 3 exWorld_wf (Or.inl rfl) (by decide)


theorem zip_map_snd {α β : Type} (as : List α) (bs : List β) (h : as.length = bs.length) :
    (as.zip bs).map Prod.snd = bs := by
  induction as generalizing bs with
  | nil =>
    cases bs with
    | nil => rfl
    | cons b bs => simp at h
  | cons a as ih =>
    cases bs with
    | nil => simp at h
    | cons b bs => simp [ih bs (by simpa using h)]

/-- C10: on a well-formed list `orig` with node sequence `xs`, when the
allocations of the new list, of the iterator and of one node per value succeed
(with unused memory) and the duplicate-value hook, if configured, returns a
non-null copy of every value, `listDup(orig)` returns a new well-formed list
with the hooks of `orig`, `len = xs.length` and the values `dup(v_0), ...` when
the duplicate-value hook is configured, `v_0, ...` themselves when it is not;
the header of `orig` and its nodes are unchanged. -/
theorem listDup_spec (w : World) (lp cp it : Addr) (xs : List (Addr × Ptr)) (l : list)
    (as : List Addr) (rest : List Ptr) (fuel : Nat)
    (hwf : WF w lp xs) (hl : w.lists lp = some l)
    (hal : w.allocs = some cp :: some it :: (as.map some ++ rest))
    (hcp : w.lists cp = none) (hlen : as.length = xs.length) (hnd : as.Nodup)
    (hfr : ∀ a ∈ as, w.nodes a = none)
    (hdup : ∀ fn, l.dup = some fn → ∀ x ∈ xs, w.dupCode fn x.2 ≠ NULL)
    (hfuel : xs.length < fuel) :
    ∃ w' c ys, listDup fuel w (some lp) = some (some cp, w')
      ∧ WF w' cp ys ∧ w'.lists cp = some c
      ∧ c.dup = l.dup ∧ c.free = l.free ∧ c.mtch = l.mtch ∧ c.len = xs.length
      ∧ ys.map Prod.snd = xs.map (fun x =>
          match l.dup with
          | some fn => w.dupCode fn x.2
          | none => x.2)
      ∧ WF w' lp xs ∧ w'.lists lp = some l ∧ ∀ x ∈ xs, w'.nodes x.1 = w.nodes x.1 := by
  obtain ⟨w', hrun, hwc, hk, hwf', hl', hn, -, -⟩ :=
    listDup_ok hwf hl hal hcp hlen hnd hfr hdup hfuel
  obtain ⟨c, hc, -, -, hcn⟩ := hwc.hdr
  obtain ⟨h1, h2, h3⟩ := hooks_of_eq hc hk
  refine ⟨w', c, _, hrun, hwc, hc, h1, h2, h3, ?_, ?_, hwf', hl', ?_⟩
  · rw [hcn, List.length_zip, List.length_map, hlen, Nat.min_self]
  · rw [zip_map_snd _ _ (by rw [List.length_map, hlen])]
    rfl
  · intro x hx
    apply hn
    intro hxa
    obtain ⟨n, hnode, -⟩ := dlseg_node hwf.seg hx
    rw [hfr _ hxa] at hnode
    cases hnode

/-- Witness of C10: duplicating the list of the example world, whose
duplicate-value hook is configured. -/
theorem listDup_spec_witness :
    ∃ w' c ys, listDup 3 exWorld (some (Addr.ofNat 1)) = some (some (Addr.ofNat 6), w')
      ∧ WF w' (Addr.ofNat 6) ys ∧ w'.lists (Addr.ofNat 6) = some c
      ∧ c.dup = some (Addr.ofNat 20) ∧ c.free = some (Addr.ofNat 21) ∧ c.mtch = NULL
      ∧ c.len = exNodes.length
      ∧ ys.map Prod.snd = exNodes.map (fun x =>
          match (some (Addr.ofNat 20) : Ptr) with
          | some fn => exWorld.dupCode fn x.2
          | none => x.2)
      ∧ WF w' (Addr.ofNat 1) exNodes
      ∧ w'.lists (Addr.ofNat 1) = some ⟨some (Addr.ofNat 2), some (Addr.ofNat 3),
          some (Addr.ofNat 20), some (Addr.ofNat 21), NULL, 2⟩
      ∧ ∀ x ∈ exNodes, w'.nodes x.1 = exWorld.nodes x.1 :=
  listDup_spec exWorld (Addr.ofNat 1) (Addr.ofNat 6) (Addr.ofNat 7) exNodes
    ⟨some (Addr.ofNat 2), some (Addr.ofNat 3), some (Addr.ofNat 20), some (Addr.ofNat 21),
      NULL, 2⟩
    [Addr.ofNat 8, Addr.ofNat 9] [] 3 exWorld_wf rfl rfl (by decide) rfl (by decide)
    (by decide) (by decide) (by decide)


/-! ## Release -/

/-- The loop of `listRelease` over a chain of `xs.length` nodes: every node is
freed, the release-value hook is called on each value in order. -/
theorem listRelease_loop_ok {lp : Addr} {l : list} {xs : List (Addr × Ptr)} :
    ∀ {w : World} {pv nx : Ptr}, w.lists lp = some l → dlseg w.nodes pv xs nx →
      (xs.map Prod.fst).Nodup →
      ∃ w', listRelease_loop (some lp) xs.length (hdOr xs nx) w = some w'
        ∧ (∀ b, w'.nodes b = if b ∈ xs.map Prod.fst then none else w.nodes b)
        ∧ w'.lists = w.lists ∧ w'.iters = w.iters ∧ w'.allocs = w.allocs
        ∧ w'.calls = w.calls ++ freeCalls l.free (xs.map Prod.snd)
        ∧ w'.dupCode = w.dupCode ∧ w'.matchCode = w.matchCode := by
  induction xs with
  | nil =>
    intro w pv nx hl _ _
    refine ⟨w, rfl, by simp, rfl, rfl, rfl, ?_, rfl, rfl⟩
    cases l.free <;> simp [freeCalls]
  | cons x t ih =>
    intro w pv nx hl hs hd
    rw [dlseg_cons] at hs
    rw [List.map_cons, List.nodup_cons] at hd
    have hframe : ∀ (c : List HookCall), dlseg
        ({ w with nodes := Function.update w.nodes x.1 none, calls := c } : World).nodes
        (some x.1) t nx := fun c => (dlseg_update_notin hd.1 none).2 hs.2
    rcases hf : l.free with _ | fn
    · obtain ⟨w', hrun, h1, h2, h3, h4, h5, h6, h7⟩ :=
        @ih { w with nodes := Function.update w.nodes x.1 none, calls := w.calls }
          (some x.1) nx hl (hframe _) hd.2
      refine ⟨w', ?_, ?_, h2, h3, h4, ?_, h6, h7⟩
      · simp only [List.length_cons, listRelease_loop, hdOr_cons, getNode, Option.bind_eq_bind,
          Option.some_bind, hs.1, getList, hl, hf, Option.pure_def, freeNode, Option.map_some']
        exact hrun
      · intro b
        rw [h1 b]
        show (if b ∈ t.map Prod.fst then none else Function.update w.nodes x.1 none b) = _
        by_cases hb : b = x.1
        · subst hb
          rw [if_neg hd.1, Function.update_same, List.map_cons, if_pos (List.mem_cons_self _ _)]
        · rw [Function.update_noteq hb, List.map_cons]
          by_cases hm : b ∈ t.map Prod.fst
          · rw [if_pos hm, if_pos (List.mem_cons_of_mem _ hm)]
          · rw [if_neg hm, if_neg (fun h => (List.mem_cons.1 h).elim hb hm)]
      · rw [h5, hf]; simp [freeCalls]
    · obtain ⟨w', hrun, h1, h2, h3, h4, h5, h6, h7⟩ :=
        @ih { w with nodes := Function.update w.nodes x.1 none
                     calls := w.calls ++ [HookCall.free fn x.2] }
          (some x.1) nx hl (hframe _) hd.2
      refine ⟨w', ?_, ?_, h2, h3, h4, ?_, h6, h7⟩
      · simp only [List.length_cons, listRelease_loop, hdOr_cons, getNode, Option.bind_eq_bind,
          Option.some_bind, hs.1, getList, hl, hf, Option.pure_def, freeNode, Option.map_some',
          callFree]
        exact hrun
      · intro b
        rw [h1 b]
        show (if b ∈ t.map Prod.fst then none else Function.update w.nodes x.1 none b) = _
        by_cases hb : b = x.1
        · subst hb
          rw [if_neg hd.1, Function.update_same, List.map_cons, if_pos (List.mem_cons_self _ _)]
        · rw [Function.update_noteq hb, List.map_cons]
          by_cases hm : b ∈ t.map Prod.fst
          · rw [if_pos hm, if_pos (List.mem_cons_of_mem _ hm)]
          · rw [if_neg hm, if_neg (fun h => (List.mem_cons.1 h).elim hb hm)]
      · rw [h5, hf]; simp [freeCalls]

/-- Releasing a well-formed list: its nodes and its header are freed, the
release-value hook is called on each value from head to tail, nothing else
changes. -/
theorem listRelease_ok {w : World} {lp : Addr} {xs : List (Addr × Ptr)} {l : list}
    (hwf : WF w lp xs) (hl : w.lists lp = some l) :
    ∃ w', listRelease w (some lp) = some w'
      ∧ (∀ b, w'.nodes b = if b ∈ xs.map Prod.fst then none else w.nodes b)
      ∧ (∀ q, w'.lists q = if q = lp then none else w.lists q)
      ∧ w'.iters = w.iters ∧ w'.allocs = w.allocs
      ∧ w'.calls = w.calls ++ freeCalls l.free (xs.map Prod.snd)
      ∧ w'.dupCode = w.dupCode ∧ w'.matchCode = w.matchCode := by
  obtain ⟨l', hl', hh, -, hn⟩ := hwf.hdr
  rw [hl] at hl'; cases hl'
  obtain ⟨w1, hrun, h1, h2, h3, h4, h5, h6, h7⟩ := listRelease_loop_ok hl hwf.seg hwf.nodup
  have hl1 : w1.lists lp = some l := by rw [h2]; exact hl
  refine ⟨{ w1 with lists := Function.update w1.lists lp none }, ?_, h1, ?_, h3, h4, h5, h6, h7⟩
  · simp only [listRelease, getList, Option.bind_eq_bind, Option.some_bind, hl, hh, hn, hrun,
      freeList, hl1, Option.map_some']
  · intro q
    show Function.update w1.lists lp none q = _
    rw [h2]
    by_cases hq : q = lp
    · subst hq
      rw [Function.update_same, if_pos rfl]
    · rw [Function.update_noteq hq, if_neg hq]


/-! ## Failure of a duplication -/

theorem zmalloc_fst (w : World) : (zmalloc w).1 = w.allocs.headD NULL := by
  unfold zmalloc
  cases w.allocs <;> rfl

set_option maxHeartbeats 1000000 in
/-- The iterations of the loop of `listDup` over a prefix `P` of the nodes
still to copy, when the allocations and the value copies for `P` succeed: the
loop goes on from a world in which `P` is copied. -/
theorem listDup_loop_copied {lp cp it : Addr} {dp fr mt : Ptr} {P : List (Addr × Ptr)} :
    ∀ {w : World} {D C S : List (Addr × Ptr)} {as : List Addr} {rest : List Ptr},
      WF w lp (D ++ (P ++ S)) → WF w cp C → lp ≠ cp →
      (w.lists cp).map (fun l => (l.dup, l.free, l.mtch)) = some (dp, fr, mt) →
      w.iters it = some ⟨hdOr (P ++ S) NULL, AL_START_HEAD⟩ →
      w.allocs = as.map some ++ rest → as.length = P.length → as.Nodup →
      (∀ a ∈ as, w.nodes a = none) →
      (∀ x ∈ D ++ (P ++ S), x.1 ∉ C.map Prod.fst) →
      (∀ fn, dp = some fn → ∀ x ∈ P, w.dupCode fn x.2 ≠ NULL) →
      ∃ w1, (∀ fuel, listDup_loop (some cp) (some it) (P.length + fuel) w
            = listDup_loop (some cp) (some it) fuel w1)
        ∧ WF w1 cp (C ++ as.zip (P.map fun x => copyValue w dp x.2))
        ∧ (w1.lists cp).map (fun l => (l.dup, l.free, l.mtch)) = some (dp, fr, mt)
        ∧ WF w1 lp (D ++ (P ++ S)) ∧ w1.lists lp = w.lists lp
        ∧ (∀ b, b ∉ as → b ∉ C.map Prod.fst → w1.nodes b = w.nodes b)
        ∧ w1.iters it = some ⟨hdOr S NULL, AL_START_HEAD⟩
        ∧ w1.allocs = rest
        ∧ w1.calls = w.calls ++ dupCalls dp (P.map Prod.snd)
        ∧ w1.dupCode = w.dupCode := by
  induction P with
  | nil =>
    intro w D C S as rest hwf hwc hne hk hi hal hlen hnd hfr hdis hdup
    have has : as = [] := List.length_eq_zero.1 hlen
    subst has
    refine ⟨w, fun fuel => by simp, by simpa using hwc, hk, hwf, rfl, fun _ _ _ => rfl,
      by simpa using hi, by simpa using hal, ?_, rfl⟩
    cases dp <;> simp [dupCalls]
  | cons x P' ih =>
    intro w D C S as rest hwf hwc hne hk hi hal hlen hnd hfr hdis hdup
    obtain ⟨a, as', rfl⟩ : ∃ a as', as = a :: as' := by
      cases as with
      | nil => simp at hlen
      | cons a as' => exact ⟨a, as', rfl⟩
    rw [List.cons_append] at hwf hi hdis
    obtain ⟨-, hx, -⟩ := dlseg_split hwf.seg
    obtain ⟨c, hc, -, -, -⟩ := hwc.hdr
    obtain ⟨hcd, -, -⟩ := hooks_of_eq hc hk
    have hstep := listNext_eval_node hi hx
    simp only [if_true] at hstep
    have hlen' : as'.length = P'.length := by simpa using hlen
    have hnd' := List.nodup_cons.1 hnd
    let w2 : World := { w with
      iters := Function.update w.iters it (some ⟨hdOr (P' ++ S) NULL, AL_START_HEAD⟩)
      calls := w.calls ++ dupCalls dp [x.2] }
    have hwc2 : WF w2 cp C := WF_congr rfl rfl hwc
    have hal2 : w2.allocs = some a :: (as'.map some ++ rest) := by simpa using hal
    have hfr2 : w2.nodes a = none := hfr a (List.mem_cons_self _ _)
    obtain ⟨w3, hadd, hwc3, hframe, hal3, hcalls3⟩ :=
      listAddNodeTail_ok hwc2 hal2 hfr2 (copyValue w dp x.2)
    have hnodes3 : ∀ y ∈ D ++ x :: (P' ++ S), w3.nodes y.1 = w.nodes y.1 := by
      intro y hy
      have hya : y.1 ≠ a := by
        intro h
        obtain ⟨n, hn, -⟩ := dlseg_node hwf.seg hy
        rw [h, hfr a (List.mem_cons_self _ _)] at hn; cases hn
      have : y.1 ∉ a :: C.map Prod.fst := by
        rw [List.mem_cons]; exact fun h => h.elim hya (hdis y hy)
      exact hframe.nodes _ this
    have hwf3' : WF w3 lp (D ++ x :: (P' ++ S)) :=
      WF_frame (hframe.lists lp hne) hnodes3 hwf
    have hwf3 : WF w3 lp ((D ++ [x]) ++ (P' ++ S)) := by
      rw [List.append_assoc, List.singleton_append]; exact hwf3'
    have hk3 : (w3.lists cp).map (fun l => (l.dup, l.free, l.mtch)) = some (dp, fr, mt) := by
      rw [hframe.hooks]; exact hk
    have hi3 : w3.iters it = some ⟨hdOr (P' ++ S) NULL, AL_START_HEAD⟩ := by
      rw [hframe.iters]; exact Function.update_same _ _ _
    have hfr3 : ∀ b ∈ as', w3.nodes b = none := by
      intro b hb
      have hba : b ≠ a := fun h => hnd'.1 (h ▸ hb)
      have hbC : b ∉ C.map Prod.fst := dlseg_ne_of_none hwc.seg (hfr b (List.mem_cons_of_mem _ hb))
      have : b ∉ a :: C.map Prod.fst := by
        rw [List.mem_cons]; exact fun h => h.elim hba hbC
      rw [hframe.nodes _ this]; exact hfr b (List.mem_cons_of_mem _ hb)
    have hdis3 : ∀ y ∈ (D ++ [x]) ++ (P' ++ S),
        y.1 ∉ (C ++ [(a, copyValue w dp x.2)]).map Prod.fst := by
      intro y hy
      have hy' : y ∈ D ++ x :: (P' ++ S) := by simpa using hy
      rw [List.map_append, List.mem_append]
      rintro (h | h)
      · exact hdis y hy' h
      · obtain ⟨n, hn, -⟩ := dlseg_node hwf.seg hy'
        simp only [List.map_cons, List.map_nil, List.mem_singleton] at h
        rw [h, hfr a (List.mem_cons_self _ _)] at hn; cases hn
    have hdup3 : ∀ fn, dp = some fn → ∀ y ∈ P', w3.dupCode fn y.2 ≠ NULL := by
      intro fn hfn y hy
      rw [hframe.dupCode]
      exact hdup fn hfn y (List.mem_cons_of_mem _ hy)
    obtain ⟨w1, hrun, hwc', hk', hwf', hl', hn', hi', hal', hcalls', hdc'⟩ :=
      ih hwf3 hwc3 hne hk3 hi3 hal3 hlen' hnd'.2 hfr3 hdis3 hdup3
    have hcv : ∀ v, copyValue w3 dp v = copyValue w dp v := by
      intro v; cases dp <;> simp [copyValue, hframe.dupCode]
    refine ⟨w1, ?_, ?_, hk', ?_, ?_, ?_, hi', hal', ?_, ?_⟩
    · intro fuel
      rw [← hrun fuel, List.length_cons,
        show P'.length + 1 + fuel = (P'.length + fuel) + 1 by omega]
      rcases dp with _ | fn
      · have hadd' : listAddNodeTail { w with
            iters := Function.update w.iters it (some ⟨hdOr (P' ++ S) NULL, AL_START_HEAD⟩) }
            (some cp) x.2 = some (some cp, w3) := by
          have : w2 = { w with
            iters := Function.update w.iters it
              (some ⟨hdOr (P' ++ S) NULL, AL_START_HEAD⟩) } := by
            simp [w2, dupCalls]
          rw [← this]; exact hadd
        simp only [listDup_loop, hstep, Option.bind_eq_bind, Option.some_bind, reduceCtorEq,
          if_false, getList, hc, hcd, getNode, hx, hadd', Option.pure_def]
      · have hv : w.dupCode fn x.2 ≠ NULL := hdup fn rfl x (List.mem_cons_self _ _)
        have hadd' : listAddNodeTail { w with
            iters := Function.update w.iters it (some ⟨hdOr (P' ++ S) NULL, AL_START_HEAD⟩)
            calls := w.calls ++ [HookCall.dup fn x.2] }
            (some cp) (w.dupCode fn x.2) = some (some cp, w3) := hadd
        simp only [listDup_loop, hstep, Option.bind_eq_bind, Option.some_bind, reduceCtorEq,
          if_false, getList, hc, hcd, getNode, hx, callDup, hv, hadd', Option.pure_def]
    · simpa [hcv, List.append_assoc] using hwc'
    · simpa using hwf'
    · rw [hl', hframe.lists lp hne]
    · intro b hb1 hb2
      rw [List.mem_cons, not_or] at hb1
      have h1 : b ∉ (C ++ [(a, copyValue w dp x.2)]).map Prod.fst := by
        rw [List.map_append, List.mem_append]
        rintro (h | h)
        · exact hb2 h
        · simp only [List.map_cons, List.map_nil, List.mem_singleton] at h
          exact hb1.1 h
      have h2 : b ∉ a :: C.map Prod.fst := by
        rw [List.mem_cons]; exact fun h => h.elim hb1.1 hb2
      rw [hn' b hb1.2 h1, hframe.nodes b h2]
    · rw [hcalls', hcalls3]
      cases dp <;> simp [w2, dupCalls]
    · rw [hdc', hframe.dupCode]


theorem zmalloc_allocs (w : World) : (zmalloc w).2.allocs = w.allocs.tail := by
  unfold zmalloc
  split <;> simp [*]

/-- The exit of the loop of `listDup` when the duplicate-value hook returns
NULL for the value of the node the iterator is at. -/
theorem listDup_loop_fail_value {w : World} {cp it a fn : Addr} {c : list} {n : listNode}
    {C : List (Addr × Ptr)}
    (hi : w.iters it = some ⟨some a, AL_START_HEAD⟩) (hx : w.nodes a = some n)
    (hwc : WF w cp C) (hc : w.lists cp = some c) (hcd : c.dup = some fn)
    (hv : w.dupCode fn n.value = NULL) :
    ∃ w', (∀ fuel, listDup_loop (some cp) (some it) (fuel + 1) w = some (NULL, w'))
      ∧ (∀ b, w'.nodes b = if b ∈ C.map Prod.fst then none else w.nodes b)
      ∧ (∀ q, w'.lists q = if q = cp then none else w.lists q)
      ∧ w'.calls = w.calls ++ dupCalls c.dup [n.value] ++ freeCalls c.free (C.map Prod.snd)
      ∧ w'.allocs = w.allocs := by
  have hstep := listNext_eval_node hi hx
  simp only [if_true] at hstep
  let w2 : World := { w with
    iters := Function.update w.iters it (some ⟨n.next, AL_START_HEAD⟩)
    calls := w.calls ++ [HookCall.dup fn n.value] }
  have hwc2 : WF w2 cp C := WF_congr rfl rfl hwc
  obtain ⟨w3, hrel, hn3, hl3, hi3, hal3, hcalls3, -, -⟩ :=
    listRelease_ok hwc2 (show w2.lists cp = some c from hc)
  have hit3 : w3.iters it = some ⟨n.next, AL_START_HEAD⟩ := by
    rw [hi3]; exact Function.update_same _ _ _
  have hrel' : listRelease { w with
      iters := Function.update w.iters it (some ⟨n.next, AL_START_HEAD⟩)
      calls := w.calls ++ [HookCall.dup fn n.value] } (some cp) = some w3 := hrel
  refine ⟨{ w3 with iters := Function.update w3.iters it none }, ?_, hn3, hl3, ?_, hal3⟩
  · intro fuel
    simp only [listDup_loop, hstep, Option.bind_eq_bind, Option.some_bind, reduceCtorEq,
      if_false, getList, hc, hcd, getNode, hx, callDup, hv, if_true, hrel',
      listReleaseIterator_eval hit3, Option.pure_def]
  · show w3.calls = _
    rw [hcalls3, hcd]; rfl

/-- The exit of the loop of `listDup` when the allocation of the node for the
value at the iterator fails. -/
theorem listDup_loop_fail_node {w : World} {cp it a : Addr} {c : list} {n : listNode}
    {C : List (Addr × Ptr)}
    (hi : w.iters it = some ⟨some a, AL_START_HEAD⟩) (hx : w.nodes a = some n)
    (hwc : WF w cp C) (hc : w.lists cp = some c)
    (hv : ∀ fn, c.dup = some fn → w.dupCode fn n.value ≠ NULL)
    (hz : (zmalloc w).1 = NULL) :
    ∃ w', (∀ fuel, listDup_loop (some cp) (some it) (fuel + 1) w = some (NULL, w'))
      ∧ (∀ b, w'.nodes b = if b ∈ C.map Prod.fst then none else w.nodes b)
      ∧ (∀ q, w'.lists q = if q = cp then none else w.lists q)
      ∧ w'.calls = w.calls ++ dupCalls c.dup [n.value] ++ freeCalls c.free (C.map Prod.snd)
      ∧ w'.allocs = w.allocs.tail := by
  have hstep := listNext_eval_node hi hx
  simp only [if_true] at hstep
  let w2 : World := { w with
    iters := Function.update w.iters it (some ⟨n.next, AL_START_HEAD⟩)
    calls := w.calls ++ dupCalls c.dup [n.value] }
  have hz2 : (zmalloc w2).1 = NULL := by
    rw [zmalloc_fst] at hz ⊢; exact hz
  have hwc2 : WF (zmalloc w2).2 cp C := WF_zmalloc (WF_congr rfl rfl hwc)
  have hf2 := zmalloc_frame w2
  have hc2 : (zmalloc w2).2.lists cp = some c := by rw [hf2.2.1]; exact hc
  obtain ⟨w3, hrel, hn3, hl3, hi3, hal3, hcalls3, -, -⟩ := listRelease_ok hwc2 hc2
  have hit3 : w3.iters it = some ⟨n.next, AL_START_HEAD⟩ := by
    rw [hi3, hf2.2.2.1]; exact Function.update_same _ _ _
  have htl : (zmalloc w2).2.allocs = w.allocs.tail := zmalloc_allocs w2
  refine ⟨{ w3 with iters := Function.update w3.iters it none }, ?_, ?_, ?_, ?_, ?_⟩
  · intro fuel
    rcases hcd : c.dup with _ | fn
    · have hadd := listAddNodeTail_fail (some cp) n.value hz2
      have hw2 : w2 = { w with
          iters := Function.update w.iters it (some ⟨n.next, AL_START_HEAD⟩) } := by
        simp [w2, hcd, dupCalls]
      rw [hw2] at hadd hrel
      simp only [listDup_loop, hstep, Option.bind_eq_bind, Option.some_bind, reduceCtorEq,
        if_false, getList, hc, hcd, getNode, hx, hadd, if_true, hrel,
        listReleaseIterator_eval hit3, Option.pure_def]
    · have hadd := listAddNodeTail_fail (some cp) (w.dupCode fn n.value) hz2
      have hw2 : w2 = { w with
          iters := Function.update w.iters it (some ⟨n.next, AL_START_HEAD⟩)
          calls := w.calls ++ [HookCall.dup fn n.value] } := by
        simp [w2, hcd, dupCalls]
      rw [hw2] at hadd hrel
      simp only [listDup_loop, hstep, Option.bind_eq_bind, Option.some_bind, reduceCtorEq,
        if_false, getList, hc, hcd, getNode, hx, callDup, hv fn hcd, hadd, if_true, hrel,
        listReleaseIterator_eval hit3, Option.pure_def]
  · intro b; rw [← hf2.1]; exact hn3 b
  · intro q; rw [← hf2.2.1]; exact hl3 q
  · show w3.calls = _
    rw [hcalls3, hf2.2.2.2.1]
  · show w3.allocs = _
    rw [hal3, htl]


theorem listCreate_fail {w : World} (h : (zmalloc w).1 = NULL) :
    listCreate w = some (NULL, (zmalloc w).2) := by
  unfold listCreate
  rcases hz : zmalloc w with ⟨p, w1⟩
  rw [hz] at h
  simp only at h
  subst h
  rfl

theorem listDup_fail_list {w : World} (fuel : Nat) (orig : Ptr) (h : (zmalloc w).1 = NULL) :
    listDup fuel w orig = some (NULL, (zmalloc w).2) := by
  simp only [listDup, listCreate_fail h, Option.bind_eq_bind, Option.some_bind, if_true,
    Option.pure_def]


set_option maxHeartbeats 1000000 in
/-- A run of `listDup` that copies the nodes `P` and then fails at the node `x`:
either the duplicate-value hook returns NULL for the value of `x`, or the
allocation of the node for it fails. The trace shows the hook calls made. -/
theorem listDup_fail_at {w : World} {lp cp it : Addr} {l : list}
    {P S : List (Addr × Ptr)} {x : Addr × Ptr} {as : List Addr} {rest : List Ptr} {fuel : Nat}
    (hwf : WF w lp (P ++ x :: S)) (hl : w.lists lp = some l)
    (hal : w.allocs = some cp :: some it :: (as.map some ++ rest))
    (hcp : w.lists cp = none) (hlen : as.length = P.length) (hnd : as.Nodup)
    (hfr : ∀ a ∈ as, w.nodes a = none)
    (hdup : ∀ fn, l.dup = some fn → ∀ y ∈ P, w.dupCode fn y.2 ≠ NULL)
    (hexit : (∃ fn, l.dup = some fn ∧ w.dupCode fn x.2 = NULL)
      ∨ ((∀ fn, l.dup = some fn → w.dupCode fn x.2 ≠ NULL) ∧ rest.headD NULL = NULL))
    (hf : P.length < fuel) :
    ∃ w', listDup fuel w (some lp) = some (NULL, w')
      ∧ w'.lists lp = some l
      ∧ (∀ b, w'.nodes b = if b ∈ as then none else w.nodes b)
      ∧ w'.lists cp = none
      ∧ w'.calls = w.calls ++ dupCalls l.dup ((P ++ [x]).map Prod.snd)
          ++ freeCalls l.free (P.map fun y => copyValue w l.dup y.2) := by
  have hne : lp ≠ cp := by rintro rfl; rw [hcp] at hl; cases hl
  have hh : l.head = hdOr (P ++ x :: S) NULL := by
    obtain ⟨l', h1, h2, -⟩ := hwf.hdr
    rw [hl] at h1; cases h1
    exact h2
  rw [listDup_eval_start hal hl hne]
  have hwf0 : WF { w with
      lists := Function.update w.lists cp (some ⟨NULL, NULL, l.dup, l.free, l.mtch, 0⟩)
      iters := Function.update w.iters it (some ⟨l.head, AL_START_HEAD⟩)
      allocs := as.map some ++ rest } lp ([] ++ (P ++ x :: S)) :=
    WF_frame (Function.update_noteq hne _ _) (fun _ _ => rfl) hwf
  have hwc0 : WF { w with
      lists := Function.update w.lists cp (some ⟨NULL, NULL, l.dup, l.free, l.mtch, 0⟩)
      iters := Function.update w.iters it (some ⟨l.head, AL_START_HEAD⟩)
      allocs := as.map some ++ rest } cp [] :=
    WF.intro (Function.update_same _ _ _) rfl rfl rfl trivial List.nodup_nil
  obtain ⟨w1, hrun, hwc1, hk1, hwf1, hl1, hn1, hi1, hal1, hcalls1, hdc1⟩ :=
    @listDup_loop_copied lp cp it l.dup l.free l.mtch P _ [] [] (x :: S) as rest hwf0 hwc0 hne
      (by simp) (by rw [← hh]; exact Function.update_same _ _ _) rfl hlen hnd hfr
      (by simp) hdup
  obtain ⟨k, rfl⟩ : ∃ k, fuel = P.length + (k + 1) := ⟨fuel - P.length - 1, by omega⟩
  rw [hrun (k + 1)]
  rw [List.nil_append] at hwf1 hwc1
  obtain ⟨-, hx1, -⟩ := dlseg_split hwf1.seg
  obtain ⟨c, hc, -, -, -⟩ := hwc1.hdr
  obtain ⟨hcd, hcf, -⟩ := hooks_of_eq hc hk1
  have hi1' : w1.iters it = some ⟨some x.1, AL_START_HEAD⟩ := by rw [hi1]; rfl
  have hmem : ∀ b, b ∈ (as.zip (P.map fun y => copyValue w l.dup y.2)).map Prod.fst ↔ b ∈ as := by
    intro b
    rw [List.map_fst_zip]
    rw [List.length_map, hlen]
  have hcopy : (as.zip (P.map fun y => copyValue w l.dup y.2)).map Prod.snd
      = P.map fun y => copyValue w l.dup y.2 := by
    rw [List.map_snd_zip]
    rw [List.length_map, hlen]
  have hfin : ∀ w' : World, (∀ b, w'.nodes b = if b ∈ (as.zip (P.map fun y =>
          copyValue w l.dup y.2)).map Prod.fst then none else w1.nodes b) →
        (∀ q, w'.lists q = if q = cp then none else w1.lists q) →
        w'.calls = w1.calls ++ dupCalls c.dup [x.2] ++ freeCalls c.free
          ((as.zip (P.map fun y => copyValue w l.dup y.2)).map Prod.snd) →
        w'.lists lp = some l
        ∧ (∀ b, w'.nodes b = if b ∈ as then none else w.nodes b)
        ∧ w'.lists cp = none
        ∧ w'.calls = w.calls ++ dupCalls l.dup ((P ++ [x]).map Prod.snd)
            ++ freeCalls l.free (P.map fun y => copyValue w l.dup y.2) := by
    intro w' hn hls hcalls
    refine ⟨?_, ?_, ?_, ?_⟩
    · rw [hls lp, if_neg hne, hl1]
      show Function.update w.lists cp _ lp = _
      rw [Function.update_noteq hne]; exact hl
    · intro b
      rw [hn b]
      by_cases hb : b ∈ as
      · rw [if_pos ((hmem b).2 hb), if_pos hb]
      · rw [if_neg (fun h => hb ((hmem b).1 h)), if_neg hb]
        exact hn1 b hb (by simp)
    · rw [hls cp, if_pos rfl]
    · rw [hcalls, hcalls1, hcopy, hcd, hcf]
      show (w.calls ++ _) ++ _ ++ _ = _
      cases l.dup <;> simp [dupCalls]
  rcases hexit with ⟨fn, hfn, hv⟩ | ⟨hv, hz⟩
  · have hv1 : w1.dupCode fn
        (⟨lastOr P NULL, hdOr S NULL, x.2⟩ : listNode).value = NULL := by
      rw [hdc1]; exact hv
    obtain ⟨w', hrun', hn', hl', hcalls', -⟩ :=
      listDup_loop_fail_value hi1' hx1 hwc1 hc (hcd.trans hfn) hv1
    exact ⟨w', hrun' k, hfin w' hn' hl' hcalls'⟩
  · have hv1 : ∀ fn, c.dup = some fn → w1.dupCode fn
        (⟨lastOr P NULL, hdOr S NULL, x.2⟩ : listNode).value ≠ NULL := by
      intro fn hfn
      rw [hdc1]; exact hv fn (hcd ▸ hfn)
    have hz1 : (zmalloc w1).1 = NULL := by
      rw [zmalloc_fst, hal1]; exact hz
    obtain ⟨w', hrun', hn', hl', hcalls', -⟩ :=
      listDup_loop_fail_node hi1' hx1 hwc1 hc hv1 hz1
    exact ⟨w', hrun' k, hfin w' hn' hl' hcalls'⟩


/-- C11: when `listDup` fails on a well-formed list, because the allocation of
the new list fails, the duplicate-value hook returns NULL for a value, or the
allocation of a node fails, it returns NULL and the original list is not
mutated: its header (head, tail, len, hooks) and the links and value of every
one of its nodes are the same as before the call. -/
theorem listDup_failure_unchanged (w : World) (lp : Addr) (xs : List (Addr × Ptr)) (l : list)
    (fuel : Nat) (hwf : WF w lp xs) (hl : w.lists lp = some l) (hfail : DupFailure w l xs)
    (hf : xs.length < fuel) :
    ∃ w', listDup fuel w (some lp) = some (NULL, w')
      ∧ w'.lists lp = some l
      ∧ (∀ x ∈ xs, w'.nodes x.1 = w.nodes x.1)
      ∧ WF w' lp xs := by
  have key : ∀ w' : World, w'.lists lp = some l → (∀ x ∈ xs, w'.nodes x.1 = w.nodes x.1) →
      w'.lists lp = some l ∧ (∀ x ∈ xs, w'.nodes x.1 = w.nodes x.1) ∧ WF w' lp xs :=
    fun w' h1 h2 => ⟨h1, h2, WF_frame (h1.trans hl.symm) h2 hwf⟩
  have hnot : ∀ {as : List Addr}, (∀ a ∈ as, w.nodes a = none) → ∀ x ∈ xs, x.1 ∉ as := by
    intro as hfr x hx hmem
    obtain ⟨n, hn, -⟩ := dlseg_node hwf.seg hx
    rw [hfr _ hmem] at hn; cases hn
  cases hfail with
  | list hz =>
    refine ⟨(zmalloc w).2, listDup_fail_list fuel (some lp) hz, key _ ?_ ?_⟩
    · rw [(zmalloc_frame w).2.1]; exact hl
    · intro x _; rw [(zmalloc_frame w).1]
  | value cp it as rest P S x fn hal hcp hlen hnd hfr hxs hd hdup hv =>
    subst hxs
    have hf' : P.length < fuel := by
      rw [List.length_append, List.length_cons] at hf; omega
    obtain ⟨w', hrun, hl', hn', -, -⟩ :=
      listDup_fail_at hwf hl hal hcp hlen hnd hfr
        (fun fn' hfn' y hy => by rw [hd] at hfn'; cases hfn'; exact hdup y hy)
        (Or.inl ⟨fn, hd, hv⟩) hf'
    refine ⟨w', hrun, key _ hl' ?_⟩
    intro y hy
    rw [hn' y.1, if_neg (hnot hfr y hy)]
  | node cp it as rest P S x hal hcp hlen hnd hfr hxs hdup hz =>
    subst hxs
    have hf' : P.length < fuel := by
      rw [List.length_append, List.length_cons] at hf; omega
    obtain ⟨w', hrun, hl', hn', -, -⟩ :=
      listDup_fail_at hwf hl hal hcp hlen hnd hfr
        (fun fn hfn y hy => hdup fn hfn y (List.mem_append_left _ hy))
        (Or.inr ⟨fun fn hfn => hdup fn hfn x (List.mem_append_right _ (List.mem_singleton_self _)),
          hz⟩) hf'
    refine ⟨w', hrun, key _ hl' ?_⟩
    intro y hy
    rw [hn' y.1, if_neg (hnot hfr y hy)]

theorem listDup_failure_unchanged_witness :
    ∃ w', listDup 3 exWorldNodeOOM (some (Addr.ofNat 1)) = some (NULL, w')
      ∧ w'.lists (Addr.ofNat 1) = some ⟨some (Addr.ofNat 2), some (Addr.ofNat 3),
          some (Addr.ofNat 20), some (Addr.ofNat 21), NULL, 2⟩
      ∧ (∀ x ∈ exNodes, w'.nodes x.1 = exWorldNodeOOM.nodes x.1)
      ∧ WF w' (Addr.ofNat 1) exNodes :=
  listDup_failure_unchanged exWorldNodeOOM (Addr.ofNat 1) exNodes
    ⟨some (Addr.ofNat 2), some (Addr.ofNat 3), some (Addr.ofNat 20), some (Addr.ofNat 21),
      NULL, 2⟩ 3 (by decide) rfl
    (DupFailure.node (Addr.ofNat 6) (Addr.ofNat 7) [Addr.ofNat 8] [NULL]
      [(Addr.ofNat 2, some (Addr.ofNat 10))] [] (Addr.ofNat 3, some (Addr.ofNat 11))
      rfl rfl rfl (by decide) (by decide) rfl (by decide) rfl)
    (by decide)


/-! ## Rotation -/

theorem dlseg_determ {m m' : Addr → Option listNode} :
    ∀ {xs : List (Addr × Ptr)} {pv nx : Ptr}, dlseg m pv xs nx → dlseg m' pv xs nx →
      ∀ x ∈ xs, m' x.1 = m x.1
  | [], _, _, _, _, x, hx => by cases hx
  | y :: ys, pv, nx, h, h', x, hx => by
    rw [dlseg_cons] at h h'
    rcases List.mem_cons.1 hx with rfl | hx
    · rw [h.1, h'.1]
    · exact dlseg_determ h.2 h'.2 x hx

theorem World.ext_fields {w w' : World} (h1 : w'.nodes = w.nodes) (h2 : w'.lists = w.lists)
    (h3 : w'.iters = w.iters) (h4 : w'.allocs = w.allocs) (h5 : w'.calls = w.calls)
    (h6 : w'.dupCode = w.dupCode) (h7 : w'.matchCode = w.matchCode) : w' = w := by
  cases w; cases w'
  simp only at h1 h2 h3 h4 h5 h6 h7
  subst h1 h2 h3 h4 h5 h6 h7
  rfl

/-- As many rotations as the segment `B` at the tail of the list has nodes
bring `B` to the front. -/
theorem listRotate_times_ok {lp : Addr} :
    ∀ (B A : List (Addr × Ptr)) {w : World} {l : list}, WF w lp (A ++ B) →
      w.lists lp = some l →
      ∃ w' l', listRotate_times (some lp) B.length w = some w' ∧ WF w' lp (B ++ A)
        ∧ w'.lists lp = some l' ∧ l'.dup = l.dup ∧ l'.free = l.free ∧ l'.mtch = l.mtch
        ∧ l'.len = l.len
        ∧ (∀ q, q ≠ lp → w'.lists q = w.lists q)
        ∧ (∀ b, b ∉ (A ++ B).map Prod.fst → w'.nodes b = w.nodes b)
        ∧ w'.iters = w.iters ∧ w'.allocs = w.allocs ∧ w'.calls = w.calls
        ∧ w'.dupCode = w.dupCode ∧ w'.matchCode = w.matchCode := by
  intro B
  induction B using List.reverseRecOn with
  | nil =>
    intro A w l hwf hl
    exact ⟨w, l, rfl, by simpa using hwf, hl, rfl, rfl, rfl, rfl, fun _ _ => rfl,
      fun _ _ => rfl, rfl, rfl, rfl, rfl, rfl⟩
  | append_singleton B' t ih =>
    intro A w l hwf hl
    rw [← List.append_assoc] at hwf
    have hstep : ∃ w1 l1, listRotate w (some lp) = some w1 ∧ WF w1 lp ((t :: A) ++ B')
        ∧ w1.lists lp = some l1 ∧ l1.dup = l.dup ∧ l1.free = l.free ∧ l1.mtch = l.mtch
        ∧ l1.len = l.len
        ∧ (∀ q, q ≠ lp → w1.lists q = w.lists q)
        ∧ (∀ b, b ∉ ((A ++ B') ++ [t]).map Prod.fst → w1.nodes b = w.nodes b)
        ∧ w1.iters = w.iters ∧ w1.allocs = w.allocs ∧ w1.calls = w.calls
        ∧ w1.dupCode = w.dupCode ∧ w1.matchCode = w.matchCode := by
      by_cases hX : A ++ B' = []
      · have hlen : l.len ≤ 1 := by
          obtain ⟨l0, h0, -, -, hn⟩ := hwf.hdr
          rw [hl] at h0; cases h0
          rw [hn, hX]; simp
        refine ⟨w, l, listRotate_eval_short hl hlen, ?_, hl, rfl, rfl, rfl, rfl, fun _ _ => rfl,
          fun _ _ => rfl, rfl, rfl, rfl, rfl, rfl⟩
        rw [hX] at hwf
        obtain ⟨hA, hB⟩ := List.append_eq_nil.1 hX
        subst hA hB
        exact hwf
      · obtain ⟨w1, l0, hrun, hl0, hl1, hwf1, hfr, hal, hcalls⟩ := listRotate_ok hwf hX
        rw [hl] at hl0; cases hl0
        exact ⟨w1, _, hrun, hwf1, hl1, rfl, rfl, rfl, rfl, hfr.lists, hfr.nodes, hfr.iters, hal,
          hcalls, hfr.dupCode, hfr.matchCode⟩
    obtain ⟨w1, l1, hrun1, hwf1, hl1, hd1, hf1, hm1, hn1, hq1, hb1, hi1, ha1, hc1, hdc1, hmc1⟩ :=
      hstep
    obtain ⟨w2, l2, hrun2, hwf2, hl2, hd2, hf2, hm2, hn2, hq2, hb2, hi2, ha2, hc2, hdc2, hmc2⟩ :=
      ih (t :: A) hwf1 hl1
    refine ⟨w2, l2, ?_, ?_, hl2, hd2.trans hd1, hf2.trans hf1, hm2.trans hm1, hn2.trans hn1,
      fun q hq => (hq2 q hq).trans (hq1 q hq), ?_, hi2.trans hi1, ha2.trans ha1,
      hc2.trans hc1, hdc2.trans hdc1, hmc2.trans hmc1⟩
    · rw [List.length_append, List.length_singleton]
      show (listRotate w (some lp)).bind (listRotate_times (some lp) B'.length) = _
      rw [hrun1]; exact hrun2
    · simpa using hwf2
    · intro b hb
      have h1 : b ∉ ((t :: A) ++ B').map Prod.fst := by
        intro h; apply hb
        simp only [List.map_append, List.map_cons, List.mem_append, List.mem_cons,
          List.map_nil, List.not_mem_nil, or_false] at h ⊢
        tauto
      have h2 : b ∉ ((A ++ B') ++ [t]).map Prod.fst := by
        intro h; apply hb
        simp only [List.map_append, List.map_cons, List.mem_append, List.mem_cons,
          List.map_nil, List.not_mem_nil, or_false] at h ⊢
        tauto
      rw [hb2 b h1, hb1 b h2]

/-- Rotating a well-formed list as many times as it has nodes gives back the
world the rotations started from. -/
theorem listRotate_times_length {w : World} {lp : Addr} {xs : List (Addr × Ptr)}
    (hwf : WF w lp xs) : listRotate_times (some lp) xs.length w = some w := by
  obtain ⟨l, hl, hh, ht, hn⟩ := hwf.hdr
  obtain ⟨w', l', hrun, hwf', hl', hd, hf, hm, hlen, hq, hb, hi, ha, hc, hdc, hmc⟩ :=
    listRotate_times_ok xs [] (by simpa using hwf) hl
  rw [List.append_nil] at hwf'
  rw [List.nil_append] at hb
  obtain ⟨l0, hl0, hh', ht', hn'⟩ := hwf'.hdr
  rw [hl'] at hl0; cases hl0
  have hll : l' = l := by
    rw [list_eta hh' ht' hd hf hm hn', list_eta hh ht rfl rfl rfl hn]
  rw [hrun]
  congr 1
  refine World.ext_fields ?_ ?_ hi ha hc hdc hmc
  · funext b
    by_cases hbx : b ∈ xs.map Prod.fst
    · obtain ⟨x, hx, rfl⟩ := List.mem_map.1 hbx
      exact dlseg_determ hwf.seg hwf'.seg x hx
    · exact hb b hbx
  · funext q
    by_cases hq' : q = lp
    · rw [hq', hl', hl, hll]
    · exact hq q hq'

/-- C16: on a well-formed list of length `n`, `n` calls of `listRotate` restore
the list exactly: they succeed and end in the world they started from, so the
head, the tail and the head-to-tail order of the nodes are those before the
first rotation. -/
theorem listRotate_n_times_restores (w : World) (lp : Addr) (xs : List (Addr × Ptr)) (l : list)
    (hwf : WF w lp xs) (hl : w.lists lp = some l) :
    listRotate_times (some lp) l.len w = some w
      ∧ ∀ w', listRotate_times (some lp) l.len w = some w' →
          WF w' lp xs ∧ w'.lists lp = some l := by
  have hlen : l.len = xs.length := by
    obtain ⟨l0, h0, -, -, hn⟩ := hwf.hdr
    rw [hl] at h0; cases h0
    exact hn
  rw [hlen, listRotate_times_length hwf]
  refine ⟨rfl, fun w' h => ?_⟩
  cases h
  exact ⟨hwf, hl⟩

theorem listRotate_n_times_restores_witness :
    listRotate_times (some (Addr.ofNat 1)) 2 exWorld = some exWorld
      ∧ ∀ w', listRotate_times (some (Addr.ofNat 1)) 2 exWorld = some w' →
          WF w' (Addr.ofNat 1) exNodes
            ∧ w'.lists (Addr.ofNat 1) = some ⟨some (Addr.ofNat 2), some (Addr.ofNat 3),
                some (Addr.ofNat 20), some (Addr.ofNat 21), NULL, 2⟩ :=
  listRotate_n_times_restores exWorld (Addr.ofNat 1) exNodes
    ⟨some (Addr.ofNat 2), some (Addr.ofNat 3), some (Addr.ofNat 20), some (Addr.ofNat 21),
      NULL, 2⟩ exWorld_wf rfl

/-- C15: on a well-formed list with node sequence `xs`, `listRotate` leaves
the world unchanged when the list has one node at most; when it has two or
more, `xs = X ++ [t]`, the node sequence becomes `t :: X` (same nodes, same
values), `len` and the hooks keep their values, no hook is called and nothing
is allocated, other lists and nodes are untouched. -/
theorem listRotate_spec (w : World) (lp : Addr) (xs : List (Addr × Ptr)) (l : list)
    (hwf : WF w lp xs) (hl : w.lists lp = some l) :
    (xs.length ≤ 1 → listRotate w (some lp) = some w)
      ∧ (2 ≤ xs.length → ∃ w' X t, xs = X ++ [t] ∧ listRotate w (some lp) = some w'
          ∧ WF w' lp (t :: X)
          ∧ w'.lists lp = some { l with head := some t.1, tail := lastOr X NULL }
          ∧ w'.calls = w.calls ∧ w'.allocs = w.allocs ∧ w'.iters = w.iters
          ∧ (∀ q, q ≠ lp → w'.lists q = w.lists q)
          ∧ (∀ b, b ∉ xs.map Prod.fst → w'.nodes b = w.nodes b)) := by
  have hlen : l.len = xs.length := by
    obtain ⟨l0, h0, -, -, hn⟩ := hwf.hdr
    rw [hl] at h0; cases h0
    exact hn
  refine ⟨fun h => listRotate_eval_short hl (hlen ▸ h), fun h => ?_⟩
  obtain ⟨X, t, rfl⟩ : ∃ X t, xs = X ++ [t] := by
    rcases List.eq_nil_or_concat xs with rfl | ⟨X, t, rfl⟩
    · simp at h
    · exact ⟨X, t, by simp⟩
  have hX : X ≠ [] := by
    rintro rfl
    simp at h
  obtain ⟨w', l0, hrun, hl0, hl', hwf', hfr, hal, hcalls⟩ := listRotate_ok hwf hX
  rw [hl] at hl0; cases hl0
  exact ⟨w', X, t, rfl, hrun, hwf', hl', hcalls, hal, hfr.iters, hfr.lists, hfr.nodes⟩

theorem listRotate_spec_witness :
    (exNodes.length ≤ 1 → listRotate exWorld (some (Addr.ofNat 1)) = some exWorld)
      ∧ (2 ≤ exNodes.length → ∃ w' X t, exNodes = X ++ [t]
          ∧ listRotate exWorld (some (Addr.ofNat 1)) = some w'
          ∧ WF w' (Addr.ofNat 1) (t :: X)
          ∧ w'.lists (Addr.ofNat 1) = some { (⟨some (Addr.ofNat 2), some (Addr.ofNat 3),
                some (Addr.ofNat 20), some (Addr.ofNat 21), NULL, 2⟩ : list) with
              head := some t.1, tail := lastOr X NULL }
          ∧ w'.calls = exWorld.calls ∧ w'.allocs = exWorld.allocs ∧ w'.iters = exWorld.iters
          ∧ (∀ q, q ≠ Addr.ofNat 1 → w'.lists q = exWorld.lists q)
          ∧ (∀ b, b ∉ exNodes.map Prod.fst → w'.nodes b = exWorld.nodes b)) :=
  listRotate_spec exWorld (Addr.ofNat 1) exNodes
    ⟨some (Addr.ofNat 2), some (Addr.ofNat 3), some (Addr.ofNat 20), some (Addr.ofNat 21),
      NULL, 2⟩ exWorld_wf rfl


/-- C17: on a well-formed list with nodes `xs` (values `xs.map snd`, possibly
none), the loop of `listRelease` runs `len = xs.length` times and
`listRelease` ends without a fault; it frees exactly the nodes of `xs` and the
header, and its hook calls are: the release-value hook once on each value, in
head-to-tail order, when the hook is configured; none when it is not
configured or the list is empty. -/
theorem listRelease_spec (w : World) (lp : Addr) (xs : List (Addr × Ptr)) (l : list)
    (hwf : WF w lp xs) (hl : w.lists lp = some l) :
    ∃ w', listRelease w (some lp) = some w'
      ∧ l.len = xs.length
      ∧ (∀ b, w'.nodes b = if b ∈ xs.map Prod.fst then none else w.nodes b)
      ∧ w'.lists lp = none
      ∧ (∀ fn, l.free = some fn →
          w'.calls = w.calls ++ xs.map fun x => HookCall.free fn x.2)
      ∧ (l.free = NULL ∨ xs = [] → w'.calls = w.calls) := by
  obtain ⟨w', hrun, hn, hls, -, -, hcalls, -, -⟩ := listRelease_ok hwf hl
  have hlen : l.len = xs.length := by
    obtain ⟨l0, h0, -, -, hn⟩ := hwf.hdr
    rw [hl] at h0; cases h0
    exact hn
  refine ⟨w', hrun, hlen, hn, ?_, ?_, ?_⟩
  · rw [hls lp, if_pos rfl]
  · intro fn hfn
    rw [hcalls, hfn]
    simp [freeCalls]
  · rintro (h | h)
    · rw [hcalls, h]; simp [freeCalls]
    · rw [hcalls, h]; cases l.free <;> simp [freeCalls]

theorem listRelease_spec_witness :
    ∃ w', listRelease exWorld (some (Addr.ofNat 1)) = some w'
      ∧ (2 : Nat) = exNodes.length
      ∧ (∀ b, w'.nodes b = if b ∈ exNodes.map Prod.fst then none else exWorld.nodes b)
      ∧ w'.lists (Addr.ofNat 1) = none
      ∧ (∀ fn, (some (Addr.ofNat 21) : Ptr) = some fn →
          w'.calls = exWorld.calls ++ exNodes.map fun x => HookCall.free fn x.2)
      ∧ ((some (Addr.ofNat 21) : Ptr) = NULL ∨ exNodes = [] → w'.calls = exWorld.calls) :=
  listRelease_spec exWorld (Addr.ofNat 1) exNodes
    ⟨some (Addr.ofNat 2), some (Addr.ofNat 3), some (Addr.ofNat 20), some (Addr.ofNat 21),
      NULL, 2⟩ exWorld_wf rfl


/-! ## Search -/

theorem valueMatches_congr {w w' : World} (h : w'.matchCode = w.matchCode) (m key v : Ptr) :
    valueMatches w' m key v = valueMatches w m key v := by
  cases m <;> simp [valueMatches, h]

set_option maxHeartbeats 1000000 in
/-- The loop of `listSearchKey` from an iterator at the start of the suffix
`S` of the list: the first node of `S` that passes the test, NULL when none
does; only the iterator and the trace of hook calls change. -/
theorem listSearchKey_loop_ok {lp it : Addr} {l : list} {key : Ptr} :
    ∀ (S D : List (Addr × Ptr)) {w : World} {fuel : Nat}, WF w lp (D ++ S) →
      w.lists lp = some l → w.iters it = some ⟨hdOr S NULL, AL_START_HEAD⟩ → S.length < fuel →
      ∃ w', listSearchKey_loop (some lp) (some it) key fuel w
          = some ((S.find? fun x => valueMatches w l.mtch key x.2).map Prod.fst, w')
        ∧ w'.nodes = w.nodes ∧ w'.lists = w.lists
        ∧ w'.iters = Function.update w.iters it none ∧ w'.allocs = w.allocs
        ∧ w'.dupCode = w.dupCode ∧ w'.matchCode = w.matchCode := by
  intro S
  induction S with
  | nil =>
    intro D w fuel hwf hl hi hf
    obtain ⟨k, rfl⟩ : ∃ k, fuel = k + 1 := ⟨fuel - 1, by simp at hf; omega⟩
    have hstep := listNext_eval_null hi
    refine ⟨{ w with iters := Function.update w.iters it none }, ?_, rfl, rfl, rfl, rfl, rfl, rfl⟩
    simp only [listSearchKey_loop, hstep, Option.bind_eq_bind, Option.some_bind, if_true,
      listReleaseIterator_eval hi, Option.pure_def, List.find?_nil, Option.map_none']
  | cons x S' ih =>
    intro D w fuel hwf hl hi hf
    obtain ⟨k, rfl⟩ : ∃ k, fuel = k + 1 := ⟨fuel - 1, by simp at hf; omega⟩
    obtain ⟨-, hx, -⟩ := dlseg_split hwf.seg
    have hstep := listNext_eval_node hi hx
    simp only [if_true] at hstep
    have hfin : ∀ calls, listReleaseIterator { w with
        iters := Function.update w.iters it (some ⟨hdOr S' NULL, AL_START_HEAD⟩)
        calls := calls } (some it) = some { w with
          iters := Function.update w.iters it none
          calls := calls } := by
      intro calls
      rw [@listReleaseIterator_eval { w with
        iters := Function.update w.iters it (some ⟨hdOr S' NULL, AL_START_HEAD⟩)
        calls := calls } it ⟨hdOr S' NULL, AL_START_HEAD⟩ (Function.update_same _ _ _)]
      simp only [Function.update_idem]
    have hrec : ∀ calls, ∃ w', listSearchKey_loop (some lp) (some it) key k { w with
          iters := Function.update w.iters it (some ⟨hdOr S' NULL, AL_START_HEAD⟩)
          calls := calls }
          = some ((S'.find? fun x => valueMatches w l.mtch key x.2).map Prod.fst, w')
        ∧ w'.nodes = w.nodes ∧ w'.lists = w.lists
        ∧ w'.iters = Function.update w.iters it none ∧ w'.allocs = w.allocs
        ∧ w'.dupCode = w.dupCode ∧ w'.matchCode = w.matchCode := by
      intro calls
      have hwf2 : WF { w with
          iters := Function.update w.iters it (some ⟨hdOr S' NULL, AL_START_HEAD⟩)
          calls := calls } lp ((D ++ [x]) ++ S') := by
        rw [List.append_assoc, List.singleton_append]
        exact WF_congr rfl rfl hwf
      obtain ⟨w', hrun, h1, h2, h3, h4, h5, h6⟩ :=
        ih (D ++ [x]) hwf2 hl (Function.update_same _ _ _) (by simpa using hf)
      refine ⟨w', hrun, h1, h2, ?_, h4, h5, h6⟩
      rw [h3]
      simp only [Function.update_idem]
    rcases hm : l.mtch with _ | fn
    · by_cases hk : key = x.2
      · refine ⟨{ w with iters := Function.update w.iters it none, calls := w.calls },
          ?_, rfl, rfl, rfl, rfl, rfl, rfl⟩
        simp only [listSearchKey_loop, hstep, Option.bind_eq_bind, Option.some_bind,
          reduceCtorEq, if_false, getList, hl, hm, getNode, hx, hk, if_true,
          hfin w.calls, Option.pure_def, List.find?_cons, valueMatches, decide_True,
          Option.map_some']
      · obtain ⟨w', hrun, hrest⟩ := hrec w.calls
        refine ⟨w', ?_, hrest⟩
        rw [hm] at hrun
        simp only [listSearchKey_loop, hstep, Option.bind_eq_bind, Option.some_bind,
          reduceCtorEq, if_false, getList, hl, hm, getNode, hx, hk,
          Option.pure_def, List.find?_cons, valueMatches, decide_False]
        exact hrun
    · by_cases hk : w.matchCode fn x.2 key = 0
      · obtain ⟨w', hrun, hrest⟩ := hrec (w.calls ++ [HookCall.mtch fn x.2 key])
        refine ⟨w', ?_, hrest⟩
        rw [hm] at hrun
        simp only [listSearchKey_loop, hstep, Option.bind_eq_bind, Option.some_bind,
          reduceCtorEq, if_false, getList, hl, hm, getNode, hx, callMatch, hk, ne_eq,
          not_true_eq_false, Option.pure_def, List.find?_cons, valueMatches, decide_False]
        exact hrun
      · refine ⟨{ w with
            iters := Function.update w.iters it none
            calls := w.calls ++ [HookCall.mtch fn x.2 key] }, ?_, rfl, rfl, rfl, rfl, rfl, rfl⟩
        simp only [listSearchKey_loop, hstep, Option.bind_eq_bind, Option.some_bind,
          reduceCtorEq, if_false, getList, hl, hm, getNode, hx, callMatch, hk, ne_eq,
          not_false_eq_true, if_true,
          hfin (w.calls ++ [HookCall.mtch fn x.2 key]), Option.pure_def, List.find?_cons,
          valueMatches, decide_True, Option.map_some']

/-- The run of `listSearchKey` on a well-formed list when the allocation of
its iterator succeeds. -/
theorem listSearchKey_ok {w : World} {lp it : Addr} {xs : List (Addr × Ptr)} {l : list}
    {rest : List Ptr} {fuel : Nat} (key : Ptr)
    (hwf : WF w lp xs) (hl : w.lists lp = some l) (hal : w.allocs = some it :: rest)
    (hf : xs.length < fuel) :
    ∃ w', listSearchKey fuel w (some lp) key
        = some ((xs.find? fun x => valueMatches w l.mtch key x.2).map Prod.fst, w')
      ∧ w'.nodes = w.nodes ∧ w'.lists = w.lists
      ∧ w'.iters = Function.update w.iters it none ∧ w'.allocs = rest := by
  have hh : l.head = hdOr xs NULL := by
    obtain ⟨l', h1, h2, -⟩ := hwf.hdr
    rw [hl] at h1; cases h1
    exact h2
  have h1 := listGetIterator_eval hal hl AL_START_HEAD
  simp only [if_true] at h1
  have hwf0 : WF { w with
      iters := Function.update w.iters it (some ⟨l.head, AL_START_HEAD⟩)
      allocs := rest } lp ([] ++ xs) := WF_congr rfl rfl hwf
  obtain ⟨w', hrun, h2, h3, h4, h5, -, -⟩ :=
    @listSearchKey_loop_ok lp it l key xs [] _ fuel hwf0 hl
      (by rw [← hh]; exact Function.update_same _ _ _) hf
  refine ⟨w', ?_, h2, h3, ?_, h5⟩
  · simp only [listSearchKey, h1, Option.bind_eq_bind, Option.some_bind]
    exact hrun
  · rw [h4]
    simp only [Function.update_idem]


/-- C12: on a well-formed list with nodes `xs`, when the allocation of the
iterator succeeds, `listSearchKey(list, key)` returns the first node, in
head-to-tail order, whose value passes the test (`match(v, key) != 0` with a
match-value hook, `v == key` without one); it returns NULL exactly when no
node of the list passes the test; the header and the nodes are not modified. -/
theorem listSearchKey_spec (w : World) (lp it : Addr) (xs : List (Addr × Ptr)) (l : list)
    (rest : List Ptr) (fuel : Nat) (key : Ptr)
    (hwf : WF w lp xs) (hl : w.lists lp = some l) (hal : w.allocs = some it :: rest)
    (hf : xs.length < fuel) :
    ∃ r w', listSearchKey fuel w (some lp) key = some (r, w')
      ∧ (∀ a, r = some a → ∃ P v S, xs = P ++ (a, v) :: S
          ∧ valueMatches w l.mtch key v = true
          ∧ ∀ y ∈ P, valueMatches w l.mtch key y.2 = false)
      ∧ (r = NULL ↔ ∀ x ∈ xs, valueMatches w l.mtch key x.2 = false)
      ∧ w'.nodes = w.nodes ∧ w'.lists = w.lists ∧ WF w' lp xs := by
  obtain ⟨w', hrun, hn, hls, -, -⟩ := listSearchKey_ok key hwf hl hal hf
  refine ⟨_, w', hrun, ?_, ?_, hn, hls, WF_congr (by rw [hls]) hn hwf⟩
  · intro a ha
    rcases hfind : xs.find? (fun x => valueMatches w l.mtch key x.2) with _ | b
    · rw [hfind] at ha; cases ha
    · rw [hfind] at ha
      simp only [Option.map_some', Option.some.injEq] at ha
      obtain ⟨hb, P, S, hxs, hP⟩ := List.find?_eq_some.1 hfind
      refine ⟨P, b.2, S, ?_, hb, ?_⟩
      · rw [← ha]; exact hxs
      · intro y hy
        simpa using hP y hy
  · rw [show (NULL : Ptr) = none from rfl, Option.map_eq_none', List.find?_eq_none]
    simp only [Bool.not_eq_true]

theorem listSearchKey_spec_witness :
    ∃ r w', listSearchKey 3 exWorld (some (Addr.ofNat 1)) (some (Addr.ofNat 11)) = some (r, w')
      ∧ (∀ a, r = some a → ∃ P v S, exNodes = P ++ (a, v) :: S
          ∧ valueMatches exWorld NULL (some (Addr.ofNat 11)) v = true
          ∧ ∀ y ∈ P, valueMatches exWorld NULL (some (Addr.ofNat 11)) y.2 = false)
      ∧ (r = NULL ↔ ∀ x ∈ exNodes, valueMatches exWorld NULL (some (Addr.ofNat 11)) x.2 = false)
      ∧ w'.nodes = exWorld.nodes ∧ w'.lists = exWorld.lists ∧ WF w' (Addr.ofNat 1) exNodes :=
  listSearchKey_spec exWorld (Addr.ofNat 1) (Addr.ofNat 6) exNodes
    ⟨some (Addr.ofNat 2), some (Addr.ofNat 3), some (Addr.ofNat 20), some (Addr.ofNat 21),
      NULL, 2⟩
    [some (Addr.ofNat 7), some (Addr.ofNat 8), some (Addr.ofNat 9)] 3 (some (Addr.ofNat 11))
    exWorld_wf rfl rfl (by decide)


/-! ## Indexed access -/

theorem wrapLong_of_range {x : Int} (h1 : -(2 ^ 63) ≤ x) (h2 : x < 2 ^ 63) : wrapLong x = x := by
  unfold wrapLong
  rw [Int.emod_eq_of_lt (by omega) (by omega)]
  omega

/-- The index `listIndex` walks with from the tail, for the position `-j`:
`j - 1`, also for the least `long`, whose negation wraps. -/
theorem wrapLong_neg_index {j : Nat} (h1 : 1 ≤ j) (h2 : (j : Int) ≤ 2 ^ 63) :
    wrapLong (wrapLong (- -(j : Int)) - 1) = ((j - 1 : Nat) : Int) := by
  rw [neg_neg]
  rcases Nat.lt_or_ge j (2 ^ 63) with h | h
  · rw [@wrapLong_of_range (j : Int) (by omega) (by omega),
      wrapLong_of_range (by omega) (by omega)]
    omega
  · have hj : (j : Int) = 2 ^ 63 := by omega
    rw [hj]
    have : j - 1 = 2 ^ 63 - 1 := by omega
    rw [this]
    decide

/-- The forward loop of `listIndex` from the first node of a chain `xs` that
ends in NULL, with the index `i`: the node `i` places further, NULL when the
chain is shorter. -/
theorem listIndex_loop_next {w : World} :
    ∀ (xs : List (Addr × Ptr)) (pv : Ptr) (i fuel : Nat), dlseg w.nodes pv xs NULL →
      i < 2 ^ 63 → xs.length < fuel →
      listIndex_loop w (fun n => n.next) fuel (i : Int) (hdOr xs NULL)
        = some (hdOr (xs.drop i) NULL)
  | [], pv, i, fuel, _, _, hf => by
    obtain ⟨k, rfl⟩ : ∃ k, fuel = k + 1 := ⟨fuel - 1, by simp at hf; omega⟩
    cases i with
    | zero => simp [listIndex_loop, hdOr]
    | succ j =>
      have : ((j + 1 : Nat) : Int) ≠ 0 := by omega
      simp only [listIndex_loop, this, ne_eq, not_false_eq_true, if_true, List.drop_nil]
      rfl
  | x :: xs, pv, i, fuel, h, hi, hf => by
    obtain ⟨k, rfl⟩ : ∃ k, fuel = k + 1 := ⟨fuel - 1, by simp at hf; omega⟩
    rw [dlseg_cons] at h
    cases i with
    | zero => simp [listIndex_loop]
    | succ j =>
      have h0 : ((j + 1 : Nat) : Int) ≠ 0 := by omega
      have hw : wrapLong (((j + 1 : Nat) : Int) - 1) = (j : Int) := by
        rw [wrapLong_of_range (by omega) (by omega)]; omega
      have ih := listIndex_loop_next xs (some x.1) j k h.2 (by omega)
        (by simpa using hf)
      simp only [listIndex_loop, h0, ne_eq, not_false_eq_true, if_true, hdOr_cons, h.1,
        Option.bind_eq_bind, Option.some_bind, hw, List.drop_succ_cons]
      exact ih

/-- The backward loop of `listIndex` from the last node of a chain `xs` that
starts after NULL, with the index `i`: the node `i` places before, NULL when
the chain is shorter. -/
theorem listIndex_loop_prev {w : World} :
    ∀ (xs : List (Addr × Ptr)) (nx : Ptr) (i fuel : Nat), dlseg w.nodes NULL xs nx →
      i < 2 ^ 63 → xs.length < fuel →
      listIndex_loop w (fun n => n.prev) fuel (i : Int) (lastOr xs NULL)
        = some (lastOr (xs.take (xs.length - i)) NULL) := by
  intro xs
  induction xs using List.reverseRecOn with
  | nil =>
    intro nx i fuel _ _ hf
    obtain ⟨k, rfl⟩ : ∃ k, fuel = k + 1 := ⟨fuel - 1, by simp at hf; omega⟩
    cases i with
    | zero => simp [listIndex_loop, lastOr]
    | succ j =>
      have : ((j + 1 : Nat) : Int) ≠ 0 := by omega
      simp only [listIndex_loop, this, ne_eq, not_false_eq_true, if_true, List.take_nil]
      rfl
  | append_singleton ys y ih =>
    intro nx i fuel h hi hf
    obtain ⟨k, rfl⟩ : ∃ k, fuel = k + 1 := ⟨fuel - 1, by simp at hf; omega⟩
    obtain ⟨hys, hy, -⟩ := dlseg_split h
    have hlast : lastOr (ys ++ [y]) NULL = some y.1 := by
      rw [lastOr_append]; rfl
    cases i with
    | zero =>
      simp only [listIndex_loop, Nat.cast_zero, ne_eq, not_true_eq_false, if_false,
        Nat.sub_zero, List.take_length]
    | succ j =>
      have h0 : ((j + 1 : Nat) : Int) ≠ 0 := by omega
      have hw : wrapLong (((j + 1 : Nat) : Int) - 1) = (j : Int) := by
        rw [wrapLong_of_range (by omega) (by omega)]; omega
      have ih' := ih (some y.1) j k hys (by omega) (by simp at hf; omega)
      have htake : (ys ++ [y]).take ((ys ++ [y]).length - (j + 1)) = ys.take (ys.length - j) := by
        rw [List.length_append, List.length_singleton,
          show ys.length + 1 - (j + 1) = ys.length - j by omega,
          List.take_append_of_le_length (by omega)]
      simp only [listIndex_loop, h0, ne_eq, not_false_eq_true, if_true, hlast, hy,
        Option.bind_eq_bind, Option.some_bind, hw, htake]
      exact ih'

/-- The run of `listIndex` for a position `i ≥ 0`. -/
theorem listIndex_nonneg {w : World} {lp : Addr} {xs : List (Addr × Ptr)} {fuel : Nat}
    (hwf : WF w lp xs) (i : Nat) (hi : i < 2 ^ 63) (hf : xs.length < fuel) :
    listIndex fuel w (some lp) (i : Int) = some (hdOr (xs.drop i) NULL) := by
  obtain ⟨l, hl, hh, -, -⟩ := hwf.hdr
  have h0 : ¬ ((i : Int) < 0) := by omega
  simp only [listIndex, h0, if_false, getList, Option.bind_eq_bind, Option.some_bind, hl, hh]
  exact listIndex_loop_next xs NULL i fuel hwf.seg hi hf

/-- The run of `listIndex` for a position `-j < 0`. -/
theorem listIndex_neg {w : World} {lp : Addr} {xs : List (Addr × Ptr)} {fuel : Nat}
    (hwf : WF w lp xs) (j : Nat) (h1 : 1 ≤ j) (h2 : (j : Int) ≤ 2 ^ 63)
    (hf : xs.length < fuel) :
    listIndex fuel w (some lp) (-(j : Int))
      = some (lastOr (xs.take (xs.length - (j - 1))) NULL) := by
  obtain ⟨l, hl, -, ht, -⟩ := hwf.hdr
  have h0 : -(j : Int) < 0 := by omega
  simp only [listIndex, h0, if_true, getList, Option.bind_eq_bind, Option.some_bind, hl, ht,
    wrapLong_neg_index h1 h2]
  exact listIndex_loop_prev xs NULL (j - 1) fuel hwf.seg (by omega) hf

theorem hdOr_drop_get {xs : List (Addr × Ptr)} {i : Nat} (hi : i < xs.length) (d : Ptr) :
    hdOr (xs.drop i) d = some (xs.get ⟨i, hi⟩).1 := by
  rw [drop_get_cons xs i hi]; rfl

theorem lastOr_take_get {xs : List (Addr × Ptr)} {i : Nat} (hi : i < xs.length) (d : Ptr) :
    lastOr (xs.take (i + 1)) d = some (xs.get ⟨i, hi⟩).1 := by
  rw [take_succ_get xs i hi, lastOr_append]; rfl


/-- C13: on a well-formed list with node sequence `xs` of length `k`,
`listIndex(list, i)` returns the node `xs[i]` for every `long` `i` with
`0 ≤ i < k`, and `listIndex(list, -j)` returns the node `xs[k - j]` for every
`long` `-j` with `1 ≤ j ≤ k`; hence `listIndex(list, -1)` and
`listIndex(list, k - 1)` both return the tail. -/
theorem listIndex_spec (w : World) (lp : Addr) (xs : List (Addr × Ptr)) (l : list) (fuel : Nat)
    (hwf : WF w lp xs) (hl : w.lists lp = some l) (hf : xs.length < fuel) :
    (∀ (i : Nat) (hi : i < xs.length), (i : Int) ≤ LONG_MAX →
        listIndex fuel w (some lp) (i : Int) = some (some (xs.get ⟨i, hi⟩).1))
      ∧ (∀ (j : Nat) (h1 : 1 ≤ j) (hj : j ≤ xs.length), LONG_MIN ≤ -(j : Int) →
        listIndex fuel w (some lp) (-(j : Int))
          = some (some (xs.get ⟨xs.length - j, Nat.sub_lt (Nat.lt_of_lt_of_le h1 hj) h1⟩).1))
      ∧ (1 ≤ xs.length → ((xs.length - 1 : Nat) : Int) ≤ LONG_MAX →
        listIndex fuel w (some lp) (-1) = some l.tail
          ∧ listIndex fuel w (some lp) ((xs.length - 1 : Nat) : Int) = some l.tail) := by
  have hfwd : ∀ (i : Nat) (hi : i < xs.length), (i : Int) ≤ LONG_MAX →
      listIndex fuel w (some lp) (i : Int) = some (some (xs.get ⟨i, hi⟩).1) := by
    intro i hi hmax
    unfold LONG_MAX at hmax
    rw [listIndex_nonneg hwf i (by omega) hf, hdOr_drop_get hi]
  have hbwd : ∀ (j : Nat) (h1 : 1 ≤ j) (hj : j ≤ xs.length), LONG_MIN ≤ -(j : Int) →
      listIndex fuel w (some lp) (-(j : Int))
        = some (some (xs.get ⟨xs.length - j, Nat.sub_lt (Nat.lt_of_lt_of_le h1 hj) h1⟩).1) := by
    intro j h1 hj hmin
    unfold LONG_MIN at hmin
    rw [listIndex_neg hwf j h1 (by omega) hf]
    have hlt : xs.length - j < xs.length := Nat.sub_lt (Nat.lt_of_lt_of_le h1 hj) h1
    rw [show xs.length - (j - 1) = (xs.length - j) + 1 by omega, lastOr_take_get hlt]
  refine ⟨hfwd, hbwd, fun hk hmax => ?_⟩
  obtain ⟨l0, hl0, -, ht, -⟩ := hwf.hdr
  rw [hl] at hl0; cases hl0
  have hlt : xs.length - 1 < xs.length := by omega
  have htail : l.tail = some (xs.get ⟨xs.length - 1, hlt⟩).1 := by
    rw [ht]
    conv_lhs => rw [← List.take_length xs, show xs.length = (xs.length - 1) + 1 by omega]
    exact lastOr_take_get hlt NULL
  constructor
  · have := hbwd 1 (le_refl 1) hk (by unfold LONG_MIN; omega)
    rw [htail]
    simpa using this
  · rw [htail]
    exact hfwd (xs.length - 1) hlt hmax

theorem listIndex_spec_witness :
    (∀ (i : Nat) (hi : i < exNodes.length), (i : Int) ≤ LONG_MAX →
        listIndex 3 exWorld (some (Addr.ofNat 1)) (i : Int) = some (some (exNodes.get ⟨i, hi⟩).1))
      ∧ (∀ (j : Nat) (h1 : 1 ≤ j) (hj : j ≤ exNodes.length), LONG_MIN ≤ -(j : Int) →
        listIndex 3 exWorld (some (Addr.ofNat 1)) (-(j : Int))
          = some (some (exNodes.get
              ⟨exNodes.length - j, Nat.sub_lt (Nat.lt_of_lt_of_le h1 hj) h1⟩).1))
      ∧ (1 ≤ exNodes.length → ((exNodes.length - 1 : Nat) : Int) ≤ LONG_MAX →
        listIndex 3 exWorld (some (Addr.ofNat 1)) (-1) = some (some (Addr.ofNat 3))
          ∧ listIndex 3 exWorld (some (Addr.ofNat 1)) ((exNodes.length - 1 : Nat) : Int)
              = some (some (Addr.ofNat 3))) :=
  listIndex_spec exWorld (Addr.ofNat 1) exNodes
    ⟨some (Addr.ofNat 2), some (Addr.ofNat 3), some (Addr.ofNat 20), some (Addr.ofNat 21),
      NULL, 2⟩ 3 exWorld_wf rfl (by decide)

/-- C14: on a well-formed list of length `k` (possibly 0), `listIndex(list, p)`
returns NULL, without a fault and within `k + 1` loop tests, for every `long`
`p` with `p ≥ k` or `p < -k`; the least `long` is converted to the greatest
(its negation wraps modulo `2 ^ 64`) and so gives NULL on every list shorter
than `2 ^ 63`. -/
theorem listIndex_out_of_range (w : World) (lp : Addr) (xs : List (Addr × Ptr)) (fuel : Nat)
    (hwf : WF w lp xs) (hf : xs.length < fuel) :
    (∀ p : Int, LONG_MIN ≤ p → p ≤ LONG_MAX → ((xs.length : Int) ≤ p ∨ p < -(xs.length : Int)) →
        listIndex fuel w (some lp) p = some NULL)
      ∧ wrapLong (wrapLong (-LONG_MIN) - 1) = LONG_MAX
      ∧ (xs.length < 2 ^ 63 → listIndex fuel w (some lp) LONG_MIN = some NULL) := by
  have main : ∀ p : Int, LONG_MIN ≤ p → p ≤ LONG_MAX →
      ((xs.length : Int) ≤ p ∨ p < -(xs.length : Int)) →
      listIndex fuel w (some lp) p = some NULL := by
    intro p hmin hmax hp
    unfold LONG_MIN at hmin
    unfold LONG_MAX at hmax
    rcases hp with hp | hp
    · obtain ⟨i, rfl⟩ : ∃ i : Nat, p = (i : Int) := ⟨p.toNat, by omega⟩
      rw [listIndex_nonneg hwf i (by omega) hf, List.drop_eq_nil_of_le (by omega)]
      rfl
    · obtain ⟨j, rfl⟩ : ∃ j : Nat, p = -(j : Int) := ⟨(-p).toNat, by omega⟩
      rw [listIndex_neg hwf j (by omega) (by omega) hf,
        show xs.length - (j - 1) = 0 by omega, List.take_zero]
      rfl
  refine ⟨main, by decide, fun hk => ?_⟩
  refine main LONG_MIN (le_refl _) (by decide) (Or.inr ?_)
  unfold LONG_MIN
  omega

theorem listIndex_out_of_range_witness :
    (∀ p : Int, LONG_MIN ≤ p → p ≤ LONG_MAX →
        ((exNodes.length : Int) ≤ p ∨ p < -(exNodes.length : Int)) →
        listIndex 3 exWorld (some (Addr.ofNat 1)) p = some NULL)
      ∧ wrapLong (wrapLong (-LONG_MIN) - 1) = LONG_MAX
      ∧ (exNodes.length < 2 ^ 63 →
          listIndex 3 exWorld (some (Addr.ofNat 1)) LONG_MIN = some NULL) :=
  listIndex_out_of_range exWorld (Addr.ofNat 1) exNodes 3 exWorld_wf (by decide)


/-! ## Where the code departs from the specification -/

/-- C18: the allocation of the iterator can fail inside `listSearchKey` and
`listDup`, and neither tests the result of `listGetIterator`: in the example
world out of memory `listGetIterator` returns NULL and `listSearchKey` faults
in `listNext` on that NULL; in the example world whose allocator serves the
new list only, the iterator of `listDup` is NULL and `listDup` faults in
`listNext` in the same way, whatever the bound on the iterations. -/
theorem iterator_alloc_failure_faults (fuel : Nat) :
    (listGetIterator exWorldOOM (some (Addr.ofNat 1)) AL_START_HEAD).map Prod.fst = some NULL
      ∧ (∀ w, listNext w NULL = none)
      ∧ listSearchKey (fuel + 1) exWorldOOM (some (Addr.ofNat 1)) (some (Addr.ofNat 11)) = none
      ∧ ((listCreate exWorldIterOOM).bind fun r =>
          (listGetIterator r.2 (some (Addr.ofNat 1)) AL_START_HEAD).map Prod.fst) = some NULL
      ∧ listDup (fuel + 1) exWorldIterOOM (some (Addr.ofNat 1)) = none := by
  refine ⟨by decide, fun w => rfl, rfl, by decide, rfl⟩

/-- C19: in the example world whose allocator fails at the second node,
`listDup` returns NULL after the duplicate-value hook produced the copies 110
and 111 and the release-value hook was called on 110 only: the copy 111, made
just before the failed allocation, is in no node and is never released. -/
theorem listDup_node_failure_leaks_copy :
    (listDup 3 exWorldNodeOOM (some (Addr.ofNat 1))).map (fun r => (r.1, r.2.calls))
        = some (NULL, [HookCall.dup (Addr.ofNat 20) (some (Addr.ofNat 10)),
            HookCall.dup (Addr.ofNat 20) (some (Addr.ofNat 11)),
            HookCall.free (Addr.ofNat 21) (some (Addr.ofNat 110))])
      ∧ exWorldNodeOOM.dupCode (Addr.ofNat 20) (some (Addr.ofNat 10)) = some (Addr.ofNat 110)
      ∧ exWorldNodeOOM.dupCode (Addr.ofNat 20) (some (Addr.ofNat 11)) = some (Addr.ofNat 111) := by
  decide

/-- C20: in the example world with a release-value hook and no
duplicate-value hook, whose allocator fails at the second node, `listDup`
returns NULL after calling the release-value hook on the value 10, which the
first node of the original list, unchanged, still holds. -/
theorem listDup_failure_releases_shared_value :
    (listDup 3 exShared (some (Addr.ofNat 1))).map
        (fun r => (r.1, r.2.calls, r.2.nodes (Addr.ofNat 2), r.2.lists (Addr.ofNat 1)))
      = some (NULL, [HookCall.free (Addr.ofNat 21) (some (Addr.ofNat 10))],
          some ⟨NULL, some (Addr.ofNat 3), some (Addr.ofNat 10)⟩,
          some ⟨some (Addr.ofNat 2), some (Addr.ofNat 3), NULL, some (Addr.ofNat 21), NULL, 2⟩) := by
  decide

end Adlist
